import Mathlib

/-!
# appify: bundle assembly and disk-image packaging

A shallow embedding of `main.go` (package `main` of appify).  The Go program is
sequential and works on the host file system and on external processes; the
embedding threads an explicit `World` through every function:

* path and string helpers of the Go standard library that the program calls
  (`filepath.Clean`, `filepath.Join`, `filepath.Dir`, `filepath.Base`,
  `filepath.Ext`, `strings.TrimPrefix`, `strings.Fields`), for Unix paths;
* the manifest template `infoPlistTemplate` and its execution;
* the file-system calls (`os.Mkdir`, `os.OpenFile`, `io.Copy`, ...) on a finite
  map from cleaned paths to nodes;
* `copyFile`, `deepCopy`, `prepareIcons`, `makeTemplateDMG`,
  `buildDMGFromTemplate`, `buildDMG`, `run` and `main`.
-/

namespace Appify

/-! ## Strings and paths (Go standard library, Unix) -/

namespace strings

/-- Go `strings.TrimPrefix` on character lists: drop `p` from the front of `s`
when `s` starts with `p`, otherwise return `s` unchanged. -/
def trimPrefixL (s p : List Char) : List Char :=
  if p.isPrefixOf s then s.drop p.length else s

/-- Go `strings.TrimPrefix`. -/
def TrimPrefix (s p : String) : String := ⟨trimPrefixL s.data p.data⟩

/-- Go `unicode.IsSpace`: the white-space code points that `strings.Fields`
splits on. -/
def isSpace (c : Char) : Bool :=
  let n := c.toNat
  n = 0x09 || n = 0x0A || n = 0x0B || n = 0x0C || n = 0x0D || n = 0x20 ||
  n = 0x85 || n = 0xA0 || n = 0x1680 || (0x2000 ≤ n && n ≤ 0x200A) ||
  n = 0x2028 || n = 0x2029 || n = 0x202F || n = 0x205F || n = 0x3000

/-- Worker of `Fields`: `cur` is the field being read, in reverse. -/
def fieldsAux : List Char → List Char → List (List Char)
  | [], cur => if cur = [] then [] else [cur.reverse]
  | c :: cs, cur =>
    if isSpace c then
      (if cur = [] then fieldsAux cs [] else cur.reverse :: fieldsAux cs [])
    else fieldsAux cs (c :: cur)

/-- Go `strings.Fields`: the maximal runs of non-space characters. -/
def Fields (s : String) : List String := (fieldsAux s.data []).map String.mk

end strings

namespace filepath

/-- Split a path at every `/`; the result always has at least one element and
elements may be empty. -/
def splitSlash : List Char → List (List Char)
  | [] => [[]]
  | c :: cs =>
    if c = '/' then [] :: splitSlash cs
    else
      match splitSlash cs with
      | [] => [[c]]
      | x :: xs => (c :: x) :: xs

/-- Join path elements with `/`. -/
def joinSlash : List (List Char) → List Char
  | [] => []
  | [x] => x
  | x :: y :: ys => x ++ '/' :: joinSlash (y :: ys)

/-- One element of `Clean`: `stack` holds the elements kept so far, innermost
first.  Empty elements and `.` are dropped; `..` removes the preceding element
unless there is none or it is itself `..`, in which case it is kept for a
relative path and dropped for a rooted one. -/
def cleanStep (rooted : Bool) (stack : List (List Char)) (e : List Char) :
    List (List Char) :=
  if e = [] ∨ e = ['.'] then stack
  else if e = ['.', '.'] then
    match stack with
    | [] => if rooted then [] else [e]
    | top :: rest => if top = ['.', '.'] then e :: stack else rest
  else e :: stack

/-- The elements that `Clean` keeps, outermost first. -/
def cleanElems (s : List Char) : List (List Char) :=
  ((splitSlash s).foldl (cleanStep (s.head? = some '/')) []).reverse

/-- Go `filepath.Clean` on character lists. -/
def cleanL (s : List Char) : List Char :=
  let body := joinSlash (cleanElems s)
  if s.head? = some '/' then '/' :: body
  else if body = [] then ['.'] else body

/-- Go `filepath.Clean`: the shortest path name equivalent to `path` by purely
lexical processing. -/
def Clean (path : String) : String := ⟨cleanL path.data⟩

/-- Go `filepath.Join`: the elements from the first non-empty one on are joined
with `/` and the result is cleaned; with no non-empty element the result is
the empty string. -/
def joinL : List (List Char) → List Char
  | [] => []
  | e :: es => if e = [] then joinL es else cleanL (joinSlash (e :: es))

/-- Go `filepath.Join`. -/
def Join (elem : List String) : String := ⟨joinL (elem.map String.data)⟩

/-- The part of a path up to and including its last `/` (empty when there is
none). -/
def dirPart (s : List Char) : List Char :=
  (s.reverse.dropWhile (fun c => c ≠ '/')).reverse

/-- The part of a path after its last `/`. -/
def lastPart (s : List Char) : List Char :=
  (s.reverse.takeWhile (fun c => c ≠ '/')).reverse

/-- Go `filepath.Dir` on character lists. -/
def dirL (s : List Char) : List Char := cleanL (dirPart s)

/-- Go `filepath.Dir`: all but the last element of `path`, cleaned. -/
def Dir (path : String) : String := ⟨dirL path.data⟩

/-- Go `filepath.Base` on character lists. -/
def baseL (s : List Char) : List Char :=
  if s = [] then ['.']
  else
    let t := (s.reverse.dropWhile (fun c => c = '/')).reverse
    let b := lastPart t
    if b = [] then ['/'] else b

/-- Go `filepath.Base`: the last element of `path`. -/
def Base (path : String) : String := ⟨baseL path.data⟩

/-- Worker of `Ext`, scanning the reversed path: `acc` is what has been read. -/
def extAux : List Char → List Char → List Char
  | [], _ => []
  | c :: cs, acc =>
    if c = '/' then []
    else if c = '.' then c :: acc
    else extAux cs (c :: acc)

/-- Go `filepath.Ext` on character lists. -/
def extL (s : List Char) : List Char := extAux s.reverse []

/-- Go `filepath.Ext`: the suffix beginning at the final dot in the final
element of `path`, empty when there is no dot. -/
def Ext (path : String) : String := ⟨extL path.data⟩

end filepath

/-! ## The manifest template -/

/-- Go `infoListData`: the input of the manifest template. -/
structure infoListData where
  Name : String
  Executable : String
  Identifier : String
  Version : String
  InfoString : String
  ShortVersionString : String
  IconFile : String
  Mode : String
deriving DecidableEq, Repr

/-- The fields of `infoListData` that the template refers to. -/
inductive Field
  | Name | Executable | Identifier | Version | InfoString | ShortVersionString
  | IconFile | Mode
deriving DecidableEq, Repr

/-- Value of a field of the template input. -/
def Field.get (d : infoListData) : Field → String
  | .Name => d.Name
  | .Executable => d.Executable
  | .Identifier => d.Identifier
  | .Version => d.Version
  | .InfoString => d.InfoString
  | .ShortVersionString => d.ShortVersionString
  | .IconFile => d.IconFile
  | .Mode => d.Mode

/-- The actions that occur in `infoPlistTemplate`. -/
inductive Action
  | print (f : Field)
  | ifField (f : Field)
  | ifEq (f : Field) (lit : String)
  | endIf
deriving DecidableEq, Repr

/-- A lexical item of a `text/template` source: literal text, or an action
between double braces with its left and right trim markers (a dash next to
the braces). -/
inductive Tok
  | text (s : String)
  | action (trimLeft : Bool) (a : Action) (trimRight : Bool)
deriving DecidableEq, Repr

/-- The constant `infoPlistTemplate` of `main.go`, split at its actions. -/
def infoPlistTemplate : List Tok :=
  [ .text ("<?xml version=\"1.0\" encoding=\"UTF-8\"?>\n" ++
      "<!DOCTYPE plist PUBLIC \"-//Apple//DTD PLIST 1.0//EN\" " ++
      "\"http://www.apple.com/DTDs/PropertyList-1.0.dtd\">\n" ++
      "<plist version=\"1.0\">\n" ++
      "\t<dict>\n" ++
      "\t\t<key>CFBundlePackageType</key>\n" ++
      "\t\t<string>APPL</string>\n" ++
      "\t\t<key>CFBundleInfoDictionaryVersion</key>\n" ++
      "\t\t<string>6.0</string>\n" ++
      "\t\t<key>CFBundleName</key>\n" ++
      "\t\t<string>"),
    .action false (.print .Name) false,
    .text "</string>\n\t\t<key>CFBundleExecutable</key>\n\t\t<string>",
    .action false (.print .Executable) false,
    .text "</string>\n\t\t<key>CFBundleIdentifier</key>\n\t\t<string>",
    .action false (.print .Identifier) false,
    .text "</string>\n\t\t<key>CFBundleVersion</key>\n\t\t<string>",
    .action false (.print .Version) false,
    .text "</string>\n\t\t<key>CFBundleGetInfoString</key>\n\t\t<string>",
    .action false (.print .InfoString) false,
    .text "</string>\n\t\t<key>CFBundleShortVersionString</key>\n\t\t<string>",
    .action false (.print .ShortVersionString) false,
    .text "</string>\n\t\t",
    .action false (.ifField .IconFile) true,
    .text "\n\t\t<key>CFBundleIconFile</key>\n\t\t<string>",
    .action false (.print .IconFile) false,
    .text "</string>\n\t\t",
    .action true .endIf false,
    .text "\n\t\t<key>NSHighResolutionCapable</key>\n\t\t<true/>\n\t\t",
    .action false (.ifEq .Mode "tray") true,
    .text "\n\t\t<key>LSUIElement</key>\n\t\t<true/>\n\t\t",
    .action true .endIf false,
    .text "\n\t</dict>\n</plist>\n" ]

/-- The characters that a trim marker removes (`text/template`: space, tab,
carriage return, newline). -/
def isTrimSpace (c : Char) : Bool := c = ' ' || c = '\t' || c = '\r' || c = '\n'

/-- Remove leading trim space. -/
def trimLeftSpace (s : String) : String := ⟨s.data.dropWhile isTrimSpace⟩

/-- Remove trailing trim space. -/
def trimRightSpace (s : String) : String :=
  ⟨(s.data.reverse.dropWhile isTrimSpace).reverse⟩

/-- Apply the trim markers: a text item loses its leading space when the
action before it trims to the right (`after`), and its trailing space when the
action after it trims to the left. -/
def trimToks : Bool → List Tok → List Tok
  | _, [] => []
  | after, .text s :: rest =>
    let s1 := if after then trimLeftSpace s else s
    let s2 :=
      match rest with
      | .action true _ _ :: _ => trimRightSpace s1
      | _ => s1
    .text s2 :: trimToks false rest
  | _, .action l a r :: rest => .action l a r :: trimToks r rest

/-- Execute a trimmed template on `d`.  `skip` counts the enclosing
conditionals whose body is not being emitted. -/
def execToks (d : infoListData) : Nat → List Tok → String
  | _, [] => ""
  | skip, .text s :: rest =>
    (if skip = 0 then s else "") ++ execToks d skip rest
  | skip, .action _ (.print f) _ :: rest =>
    (if skip = 0 then f.get d else "") ++ execToks d skip rest
  | skip, .action _ (.ifField f) _ :: rest =>
    if skip = 0 ∧ f.get d ≠ "" then execToks d 0 rest
    else execToks d (skip + 1) rest
  | skip, .action _ (.ifEq f lit) _ :: rest =>
    if skip = 0 ∧ f.get d = lit then execToks d 0 rest
    else execToks d (skip + 1) rest
  | skip, .action _ .endIf _ :: rest => execToks d (skip - 1) rest

/-- The manifest produced by `tpl.Execute(fplist, info)` for
`tpl = template.New("template").Parse(infoPlistTemplate)`. -/
def renderManifest (d : infoListData) : String :=
  execToks d 0 (trimToks false infoPlistTemplate)

/-- The flag block that the template emits in tray mode. -/
def trayBlock : String := "<key>LSUIElement</key>\n\t\t<true/>"

/-- The text of the icon block before the file name. -/
def iconOpen : String := "<key>CFBundleIconFile</key>\n\t\t<string>"

/-- The text of the icon block after the file name. -/
def iconClose : String := "</string>"

/-- The icon block that the template emits for icon file `f`. -/
def iconBlock (f : String) : String := iconOpen ++ f ++ iconClose

/-- The template text between the icon conditional and the tray conditional. -/
def manifestMiddle : String :=
  "\n\t\t<key>NSHighResolutionCapable</key>\n\t\t<true/>\n\t\t"

/-- The template text after the tray conditional. -/
def manifestClosing : String := "\n\t</dict>\n</plist>\n"

/-! ## The world: file system, external commands, output streams -/

/-- A file-system node: a regular file with its permission bits and contents,
or a directory with its permission bits. -/
inductive Node
  | file (mode : Nat) (data : String)
  | dir (mode : Nat)
deriving DecidableEq, Repr

/-- The file system: a finite map from cleaned paths to nodes.  Relative paths
are relative to the working directory of the process, which does not change;
relative and rooted paths are kept apart. -/
abbrev FS := List (String × Node)

/-- Node stored at key `k`. -/
def FS.get (fs : FS) (k : String) : Option Node :=
  match fs with
  | [] => none
  | e :: rest => if e.1 = k then some e.2 else FS.get rest k

/-- Remove key `k`. -/
def FS.del (fs : FS) (k : String) : FS := fs.filter (fun e => e.1 ≠ k)

/-- Store node `n` at key `k`. -/
def FS.set (fs : FS) (k : String) (n : Node) : FS := (k, n) :: FS.del fs k

/-- `under k q`: the cleaned path `q` lies strictly below the cleaned path `k`. -/
def under (k q : String) : Bool :=
  (k.data.head? = some '/') = (q.data.head? = some '/') &&
  (filepath.cleanElems k.data).isPrefixOf (filepath.cleanElems q.data) &&
  decide (filepath.cleanElems k.data ≠ filepath.cleanElems q.data)

/-- Go `os.FileInfo`, as far as the program reads it. -/
structure FileInfo where
  name : String
  mode : Nat
  isDir : Bool
deriving DecidableEq, Repr

/-- The `FileInfo` that `os.Stat` reports for `path` holding node `n`. -/
def infoOf (path : String) : Node → FileInfo
  | .file m _ => ⟨filepath.Base path, m, false⟩
  | .dir m => ⟨filepath.Base path, m, true⟩

/-- An error of an `os` call: `os.IsNotExist` and the message. -/
structure OsErr where
  notExist : Bool
  msg : String
deriving DecidableEq, Repr

/-- The operating-system calls that can fail for reasons outside the file-system
map (permissions, full disk, I/O errors); `World.fault` decides for each, by the
path as the program passes it. -/
inductive Op
  | stat (path : String)
  | lstat (path : String)
  | mkdir (path : String)
  | mkdirAll (path : String)
  | openRead (path : String)
  | openTrunc (path : String)
  | write (path : String)
  | sync (path : String)
  | close (path : String)
  | remove (path : String)
  | removeAll (path : String)
  | readDir (path : String)
deriving DecidableEq, Repr

/-- Outcome of an external command: the error of `cmd.Run()` if any, and the
standard output it produced. -/
structure CmdResult where
  err : Option String
  out : String
deriving DecidableEq, Repr

/-- What the disk-image functions do, in program order. -/
inductive Event
  | mkdir (path : String) (ok : Bool)
  | remove (path : String) (ok : Bool)
  | removeAll (path : String) (ok : Bool)
  | exec (args : List String) (ok : Bool)
  | deepCopy (src dst : String) (ok : Bool)
  | exit (code : Int)
deriving DecidableEq, Repr

/-- The state that the program acts on. -/
structure World where
  /-- The file system. -/
  fs : FS
  /-- The file-mode creation mask of the process. -/
  umask : Nat
  /-- Failures of operating-system calls other than those that follow from the
  file-system map. -/
  fault : Op → Option String
  /-- Outcome of each external command, by its argument vector. -/
  cmd : List String → CmdResult
  /-- Go `image.Decode` on the contents of a file. -/
  decode : String → Except String String
  /-- The icon encoder `icns.Encode` on a decoded image. -/
  encode : String → Except String String
  /-- Go `strings.ToLower`. -/
  lower : String → String
  /-- What was written to standard error by the program itself. -/
  stderr : List String
  /-- What was written to standard output by the program itself. -/
  stdout : List String
  /-- Lines handed to the standard logger. -/
  log : List String
  /-- The actions of the disk-image functions. -/
  trace : List Event

/-- Replace the file system. -/
def World.withFS (w : World) (fs : FS) : World := { w with fs := fs }

/-- Append an event to the trace. -/
def World.emit (w : World) (e : Event) : World := { w with trace := w.trace ++ [e] }

/-- Permission bits of a node created with `perm`: the bits of the creation mask
are cleared. -/
def World.masked (w : World) (perm : Nat) : Nat :=
  (perm &&& 0o777) &&& (0o777 ^^^ (w.umask &&& 0o777))

/-- Whether key `k` holds a directory. -/
def FS.isDir (fs : FS) (k : String) : Bool :=
  match fs.get k with
  | some (.dir _) => true
  | _ => false

/-- Go `os.Stat` (and `os.Lstat`: there are no symbolic links in the map). -/
def osStat (w : World) (path : String) : Except OsErr FileInfo :=
  match w.fault (.stat path) with
  | some e => .error ⟨false, e⟩
  | none =>
    match w.fs.get (filepath.Clean path) with
    | none => .error ⟨true, "stat " ++ path ++ ": no such file or directory"⟩
    | some n => .ok (infoOf path n)

/-- Go `os.Mkdir`: fails when the path exists or its parent is not a directory. -/
def osMkdir (w : World) (path : String) (perm : Nat) : World × Option OsErr :=
  match w.fault (.mkdir path) with
  | some e => (w, some ⟨false, e⟩)
  | none =>
    let k := filepath.Clean path
    match w.fs.get k with
    | some _ => (w, some ⟨false, "mkdir " ++ path ++ ": file exists"⟩)
    | none =>
      if w.fs.isDir (filepath.Dir k) then
        (w.withFS (w.fs.set k (.dir (w.masked perm))), none)
      else (w, some ⟨true, "mkdir " ++ path ++ ": no such file or directory"⟩)

/-- The proper ancestors of a cleaned path and the path itself, outermost
first, as cleaned paths. -/
def ancestors (k : String) : List String :=
  let rooted := k.data.head? = some '/'
  let es := filepath.cleanElems k.data
  (List.range es.length).map fun i =>
    ⟨(if rooted then ['/'] else []) ++ filepath.joinSlash (es.take (i + 1))⟩

/-- Worker of `osMkdirAll`: create each missing directory of the chain. -/
def mkdirChain (w : World) (path : String) (perm : Nat) :
    List String → World × Option OsErr
  | [] => (w, none)
  | k :: rest =>
    match w.fs.get k with
    | some (.dir _) => mkdirChain w path perm rest
    | some (.file _ _) => (w, some ⟨false, "mkdir " ++ path ++ ": not a directory"⟩)
    | none =>
      if w.fs.isDir (filepath.Dir k) then
        mkdirChain (w.withFS (w.fs.set k (.dir (w.masked perm)))) path perm rest
      else (w, some ⟨true, "mkdir " ++ path ++ ": no such file or directory"⟩)

/-- Go `os.MkdirAll`: create the directory and any missing parents. -/
def osMkdirAll (w : World) (path : String) (perm : Nat) : World × Option OsErr :=
  match w.fault (.mkdirAll path) with
  | some e => (w, some ⟨false, e⟩)
  | none => mkdirChain w path perm (ancestors (filepath.Clean path))

/-- Go `os.Open`: open for reading. -/
def osOpen (w : World) (path : String) : Option OsErr :=
  match w.fault (.openRead path) with
  | some e => some ⟨false, e⟩
  | none =>
    match w.fs.get (filepath.Clean path) with
    | none => some ⟨true, "open " ++ path ++ ": no such file or directory"⟩
    | some _ => none

/-- Go `os.OpenFile(path, os.O_RDWR|os.O_CREATE|os.O_TRUNC, perm)`: an existing
regular file is truncated and keeps its mode; a missing one is created with
`perm` less the creation mask. -/
def osOpenTrunc (w : World) (path : String) (perm : Nat) : World × Option OsErr :=
  match w.fault (.openTrunc path) with
  | some e => (w, some ⟨false, e⟩)
  | none =>
    let k := filepath.Clean path
    match w.fs.get k with
    | some (.file m _) => (w.withFS (w.fs.set k (.file m "")), none)
    | some (.dir _) => (w, some ⟨false, "open " ++ path ++ ": is a directory"⟩)
    | none =>
      if w.fs.isDir (filepath.Dir k) then
        (w.withFS (w.fs.set k (.file (w.masked perm) "")), none)
      else (w, some ⟨true, "open " ++ path ++ ": no such file or directory"⟩)

/-- Append `data` to the file opened at `dst`. -/
def osWrite (w : World) (dst data : String) : World × Option String :=
  match w.fault (.write dst) with
  | some e => (w, some e)
  | none =>
    let k := filepath.Clean dst
    match w.fs.get k with
    | some (.file m old) => (w.withFS (w.fs.set k (.file m (old ++ data))), none)
    | _ => (w, some ("write " ++ dst ++ ": bad file descriptor"))

/-- Contents read from the file opened at `src`. -/
def osReadAll (w : World) (src : String) : Except String String :=
  match w.fs.get (filepath.Clean src) with
  | some (.file _ data) => .ok data
  | some (.dir _) => .error ("read " ++ src ++ ": is a directory")
  | none => .error ("read " ++ src ++ ": bad file descriptor")

/-- Go `io.Copy(fdst, fsrc)` for the files opened at `dst` and `src`. -/
def ioCopy (w : World) (dst src : String) : World × Option String :=
  match osReadAll w src with
  | .error e => (w, some e)
  | .ok data => osWrite w dst data

/-- Go `os.Remove`: remove a file or an empty directory. -/
def osRemove (w : World) (path : String) : World × Option OsErr :=
  match w.fault (.remove path) with
  | some e => (w, some ⟨false, e⟩)
  | none =>
    let k := filepath.Clean path
    match w.fs.get k with
    | none => (w, some ⟨true, "remove " ++ path ++ ": no such file or directory"⟩)
    | some _ =>
      if w.fs.any (fun e => under k e.1) then
        (w, some ⟨false, "remove " ++ path ++ ": directory not empty"⟩)
      else (w.withFS (w.fs.del k), none)

/-- Go `os.RemoveAll`: remove the path and everything below it; a missing path
is not an error. -/
def osRemoveAll (w : World) (path : String) : World × Option OsErr :=
  match w.fault (.removeAll path) with
  | some e => (w, some ⟨false, e⟩)
  | none =>
    let k := filepath.Clean path
    (w.withFS (w.fs.filter (fun e => e.1 ≠ k && !under k e.1)), none)

/-- Element after the first occurrence of `flag` in an argument vector. -/
def argAfter (flag : String) : List String → Option String
  | [] => none
  | [_] => none
  | a :: b :: rest => if a = flag then some b else argAfter flag (b :: rest)

/-- Effect of a successful external command on the file system, from the
contract of the tools: `hdiutil create` writes the image `<name>.dmg`,
`hdiutil convert ... -o out` writes `out`, `chmod +x` sets the execute bits
that the creation mask allows.  Mounting is not represented: `attach` and
`detach` leave the map unchanged. -/
def cmdEffect (w : World) : List String → FS
  | "hdiutil" :: "create" :: args =>
    match args.drop 6 with
    | name :: _ => w.fs.set (filepath.Clean (name ++ ".dmg")) (.file (w.masked 0o644) "UDRW")
    | [] => w.fs
  | "hdiutil" :: "convert" :: args =>
    match argAfter "-o" args with
    | some out => w.fs.set (filepath.Clean out) (.file (w.masked 0o644) "UDZO")
    | none => w.fs
  | ["chmod", "+x", path] =>
    match w.fs.get (filepath.Clean path) with
    | some (.file m d) => w.fs.set (filepath.Clean path) (.file (m ||| w.masked 0o111) d)
    | some (.dir m) => w.fs.set (filepath.Clean path) (.dir (m ||| w.masked 0o111))
    | none => w.fs
  | _ => w.fs

/-- Go `exec.Command(args...).Run()`: the world decides the outcome; the command
is recorded in the trace. -/
def execCmd (w : World) (args : List String) : World × CmdResult :=
  let r := w.cmd args
  let fs := if r.err = none then cmdEffect w args else w.fs
  ((w.withFS fs).emit (.exec args (r.err = none)), r)

/-! ## `copyFile` -/

/-- Go `copyFile(from, to, fromInfo)` (`main.go` lines 289-338): log the copy,
open the source, open the destination with create and truncate and the
permission bits of the source, copy, sync, close. -/
def copyFile (w : World) (src dst : String) (fromInfo : Option FileInfo) :
    World × Option String :=
  let w0 : World := { w with log := w.log ++ ["[INFO] Copying " ++ src ++ " to " ++ dst] }
  match (match fromInfo with
         | some i => Except.ok i
         | none => osStat w0 src) with
  | .error e => (w0, some e.msg)
  | .ok info =>
    match osOpen w0 src with
    | some e => (w0, some e.msg)
    | none =>
      match osOpenTrunc w0 dst (info.mode &&& 0o777) with
      | (w1, some e) =>
        match osStat w1 dst with
        | .ok _ => (w1, some ("opening destination (which already exists): " ++ e.msg))
        | .error _ => (w1, some e.msg)
      | (w1, none) =>
        match ioCopy w1 dst src with
        | (w2, some e) => (w2, some e)
        | (w2, none) =>
          match w2.fault (.sync dst) with
          | some e => (w2, some e)
          | none =>
            match w2.fault (.close src) with
            | some e => (w2, some e)
            | none =>
              match w2.fault (.close dst) with
              | some e => (w2, some e)
              | none => (w2, none)

/-! ## `filepath.Walk` and `deepCopy` -/

/-- Order of two names: by code points, a proper beginning first (Go
`sort.Strings`). -/
def nameCmp : List Char → List Char → Ordering
  | [], [] => .eq
  | [], _ :: _ => .lt
  | _ :: _, [] => .gt
  | a :: as, b :: bs =>
    if a.toNat < b.toNat then .lt
    else if b.toNat < a.toNat then .gt
    else nameCmp as bs

/-- Order in which `Walk` reaches two paths: element by element. -/
def elemsCmp : List (List Char) → List (List Char) → Ordering
  | [], [] => .eq
  | [], _ :: _ => .lt
  | _ :: _, [] => .gt
  | a :: as, b :: bs =>
    match nameCmp a b with
    | .lt => .lt
    | .gt => .gt
    | .eq => elemsCmp as bs

/-- Insert an entry into a list sorted in walk order. -/
def insertEntry (e : String × Node) : List (String × Node) → List (String × Node)
  | [] => [e]
  | x :: xs =>
    if elemsCmp (filepath.cleanElems e.1.data) (filepath.cleanElems x.1.data) = .gt then
      x :: insertEntry e xs
    else e :: x :: xs

/-- The entries below `root`, in the lexical order in which `filepath.Walk`
visits them. -/
def walkEntries (fs : FS) (root : String) : List (String × Node) :=
  (fs.filter (fun e => under (filepath.Clean root) e.1)).foldr insertEntry []

/-- What a `WalkFunc` returns: `nil`, `filepath.SkipDir`, or another error. -/
inductive WalkRes
  | next
  | skipDir
  | fail (e : String)
deriving DecidableEq, Repr

/-- The type of a `filepath.WalkFunc`, with the world threaded through. -/
abbrev WalkFunc := World → String → Option FileInfo → Option String → World × WalkRes

/-- One visit of `Walk` at path `p` (key `k`) holding node `n`: returns the new
world and either the error that stops the walk or the directory whose entries
are to be skipped from here on. -/
def walkVisit (fn : WalkFunc) (w : World) (p k : String) (n : Node) :
    World × Except String (Option String) :=
  match w.fault (.lstat p) with
  | some e =>
    match fn w p none (some e) with
    | (w1, .fail e1) => (w1, .error e1)
    | (w1, _) => (w1, .ok (some k))
  | none =>
    let info := infoOf p n
    if info.isDir then
      let derr := w.fault (.readDir p)
      match fn w p (some info) derr with
      | (w1, .fail e1) => (w1, .error e1)
      | (w1, .skipDir) => (w1, .ok (some k))
      | (w1, .next) => (w1, .ok (if derr = none then none else some k))
    else
      match fn w p (some info) none with
      | (w1, .fail e1) => (w1, .error e1)
      | (w1, .skipDir) => (w1, .ok (some (filepath.Dir k)))
      | (w1, .next) => (w1, .ok none)

/-- The visits of `Walk` below the root: `skip` lists the directories whose
remaining entries are passed over. -/
def walkRest (fn : WalkFunc) : World → List String → List (String × Node) →
    World × Option String
  | w, _, [] => (w, none)
  | w, skip, (k, n) :: rest =>
    if skip.any (fun d => d = k || under d k) then walkRest fn w skip rest
    else
      match walkVisit fn w k k n with
      | (w1, .error e) => (w1, some e)
      | (w1, .ok none) => walkRest fn w1 skip rest
      | (w1, .ok (some d)) => walkRest fn w1 (d :: skip) rest

/-- Go `filepath.Walk(root, fn)`: `fn` is called for the root and for every
entry below it in lexical order; an error other than `SkipDir` stops the walk.
The entries are those present when the walk starts. -/
def Walk (w : World) (root : String) (fn : WalkFunc) : World × Option String :=
  match w.fs.get (filepath.Clean root) with
  | none =>
    match fn w root none (some ("lstat " ++ root ++ ": no such file or directory")) with
    | (w1, .fail e) => (w1, some e)
    | (w1, _) => (w1, none)
  | some n =>
    match walkVisit fn w root (filepath.Clean root) n with
    | (w1, .error e) => (w1, some e)
    | (w1, .ok (some _)) => (w1, none)
    | (w1, .ok none) =>
      match n with
      | .dir _ => walkRest fn w1 [] (walkEntries w.fs root)
      | .file _ _ => (w1, none)

/-- The destination that `deepCopy` computes for a visited path:
`filepath.Join(to, strings.TrimPrefix(path, filepath.Dir(from)))`. -/
def destOf (src dst path : String) : String :=
  filepath.Join [dst, strings.TrimPrefix path (filepath.Dir src)]

/-- The function literal that `deepCopy` passes to `filepath.Walk` (`main.go`
lines 252-286). -/
def deepCopyVisit (src dst : String) : WalkFunc := fun w path info err =>
  match err with
  | some e => (w, .fail e)
  | none =>
    match info with
    | none => (w, .next)
    | some info =>
      if info.name = "" then
        (if info.isDir then (w, .skipDir) else (w, .next))
      else if info.isDir then
        let destDir := destOf src dst path
        match osStat w destDir with
        | .error e =>
          if e.notExist then
            match osMkdir w destDir (info.mode &&& 0o777) with
            | (w1, some e1) => (w1, .fail e1.msg)
            | (w1, none) => (w1, .next)
          else (w, .next)
        | .ok _ => (w, .next)
      else
        let destPath := destOf src dst path
        match copyFile w path destPath (some info) with
        | (w1, some e) => (w1, .fail ("copying file " ++ path ++ ": " ++ e))
        | (w1, none) => (w1, .next)

/-- Go `deepCopy(from, to)` (`main.go` lines 246-287). -/
def deepCopy (w : World) (src dst : String) : World × Option String :=
  if src = "" ∨ dst = "" then (w, some "no source or no destination; both required")
  else Walk w src (deepCopyVisit src dst)

/-! ## `prepareIcons` -/

/-- Go `prepareIcons(iconPath, resourcesPath)` (`main.go` lines 114-151): the
returned path and the error, if any. -/
def prepareIcons (w : World) (iconPath resourcesPath : String) :
    World × String × Option String :=
  let ext := filepath.Ext (w.lower iconPath)
  match osOpen w iconPath with
  | some e =>
    if e.notExist then (w, "", some "icon file not found")
    else (w, "", some ("open icon file: " ++ e.msg))
  | none =>
    match osMkdirAll w resourcesPath 0o777 with
    | (w1, some e) => (w1, "", some ("os.MkdirAll resourcesPath: " ++ e.msg))
    | (w1, none) =>
      let destFile := filepath.Join [resourcesPath, "icon.icns"]
      match osOpenTrunc w1 destFile 0o666 with
      | (w2, some e) => (w2, "", some ("create icon.icns file: " ++ e.msg))
      | (w2, none) =>
        if ext = ".icns" then
          match ioCopy w2 destFile iconPath with
          | (w3, some e) => (w3, destFile, some ("copying " ++ iconPath ++ ": " ++ e))
          | (w3, none) => (w3, destFile, none)
        else if ext = ".png" ∨ ext = ".jpg" ∨ ext = ".jpeg" ∨ ext = ".gif" then
          match (osReadAll w2 iconPath).bind w2.decode with
          | .error e => (w2, destFile, some ("decode image: " ++ e))
          | .ok img =>
            match w2.encode img with
            | .error e => (w2, destFile, some ("generate icns file: " ++ e))
            | .ok icns =>
              match osWrite w2 destFile icns with
              | (w3, some e) => (w3, destFile, some ("generate icns file: " ++ e))
              | (w3, none) => (w3, destFile, none)
        else (w2, destFile, some (ext ++ " icons not supported"))

/-! ## The disk-image builder -/

/-- How a function of the program ends: it returns without error, it returns an
error, or it ends the process with `os.Exit`. -/
inductive Res (α : Type)
  | ok (w : World) (a : α)
  | err (w : World) (e : String)
  | exit (w : World) (code : Int)

/-- The world in which a function ends. -/
def Res.world {α : Type} : Res α → World
  | .ok w _ => w
  | .err w _ => w
  | .exit w _ => w

/-- The argument vector of the `hdiutil create` command of `makeTemplateDMG`. -/
def createArgs (templateDMG : String) : List String :=
  ["hdiutil", "create", "-fs", "HFSX", "-layout", "SPUD", "-size", "10m",
   templateDMG, "-srcfolder", "tmp", "-format", "UDRW", "-quiet"]

/-- The argument vector of the `hdiutil attach` command. -/
def attachArgs (templateDMG tmpDir : String) : List String :=
  ["hdiutil", "attach", templateDMG, "-noautoopen", "-mountpoint", tmpDir]

/-- The argument vector of the `hdiutil detach` command. -/
def detachArgs (dmgDevice : String) : List String :=
  ["hdiutil", "detach", dmgDevice]

/-- The argument vector of the `hdiutil convert` command. -/
def convertArgs (templateDMG outputDMG : String) : List String :=
  ["hdiutil", "convert", templateDMG, "-format", "UDZO", "-imagekey",
   "zlib-level=9", "-o", outputDMG]

/-- Go `makeTemplateDMG()` (`main.go` lines 158-188).  The deferred
`os.Remove("./tmp")` runs when the function returns, not when it ends the
process with `os.Exit`. -/
def makeTemplateDMG (w : World) : Res String :=
  let templateDMG := "template"
  match osMkdir w "tmp" 0o777 with
  | (w1, some _) =>
    let w2 := (w1.emit (.mkdir "tmp" false))
    .exit ({ w2 with stderr := w2.stderr ++ ["mkdir tmp dir error\n"] }.emit (.exit (-1))) (-1)
  | (w1, none) =>
    let w2 := w1.emit (.mkdir "tmp" true)
    match execCmd w2 (createArgs templateDMG) with
    | (w3, ⟨some e, _⟩) =>
      .exit ({ w3 with stdout := w3.stdout ++ ["create dmg file error: " ++ e ++ "\n"] }.emit
        (.exit (-1))) (-1)
    | (w3, ⟨none, _⟩) =>
      match osRemove w3 "./tmp" with
      | (w4, r) => .ok (w4.emit (.remove "./tmp" (r = none))) (templateDMG ++ ".dmg")

/-- The body of `buildDMGFromTemplate` after the temporary directory has been
made (`main.go` lines 200-242), without the deferred `os.RemoveAll`. -/
def buildSteps (w : World) (appName templateDMG appDir tmpDir : String) :
    World × Option String :=
  match execCmd w (attachArgs templateDMG tmpDir) with
  | (w1, ⟨some e, _⟩) => (w1, some ("running hdiutil attach: " ++ e))
  | (w1, ⟨none, out⟩) =>
    match deepCopy w1 appDir tmpDir with
    | (w2, some e) =>
      (w2.emit (.deepCopy appDir tmpDir false), some ("copying app into dmg: " ++ e))
    | (w2, none) =>
      let w3 := w2.emit (.deepCopy appDir tmpDir true)
      match strings.Fields out with
      | [] => (w3, some "no device output by hdiutil attach")
      | dmgDevice :: _ =>
        match execCmd w3 (detachArgs dmgDevice) with
        | (w4, ⟨some e, _⟩) => (w4, some ("running hdiutil detach: " ++ e))
        | (w4, ⟨none, _⟩) =>
          let outputDMG := appName ++ ".dmg"
          match execCmd w4 (convertArgs templateDMG outputDMG) with
          | (w5, ⟨some e, _⟩) => (w5, some ("running hdiutil convert: " ++ e))
          | (w5, ⟨none, _⟩) => (w5, none)

/-- Go `buildDMGFromTemplate(appName, templateDMG, appDir)` (`main.go` lines
191-243): once `./tmp` has been made, `os.RemoveAll("./tmp")` runs on every
return. -/
def buildDMGFromTemplate (w : World) (appName templateDMG appDir : String) :
    World × Option String :=
  let tmpDir := "./tmp"
  match osMkdir w tmpDir 0o755 with
  | (w1, some e) =>
    (w1.emit (.mkdir tmpDir false), some ("making temporary directory: " ++ e.msg))
  | (w1, none) =>
    match buildSteps (w1.emit (.mkdir tmpDir true)) appName templateDMG appDir tmpDir with
    | (w2, r) =>
      match osRemoveAll w2 tmpDir with
      | (w3, rr) => (w3.emit (.removeAll tmpDir (rr = none)), r)

/-- Go `buildDMG(appName, appDir)` (`main.go` lines 153-156). -/
def buildDMG (w : World) (appName appDir : String) : Res Unit :=
  match makeTemplateDMG w with
  | .exit w1 c => .exit w1 c
  | .err w1 e => .err w1 e
  | .ok w1 dmg =>
    match buildDMGFromTemplate w1 appName dmg appDir with
    | (w2, some e) => .err w2 e
    | (w2, none) => .ok w2 ()

/-! ## `run` and `main` -/

/-- The command line after `flag.Parse()`: the named options and the
positional arguments. -/
structure Flags where
  name : String
  author : String
  version : String
  identifier : String
  icon : String
  mode : String
  args : List String

/-- The constant `readme` of `main.go`. -/
def readme : String :=
  "Made with Appify by Machine Box\nhttps://github.com/machinebox/appify\n\n" ++
  "Inspired by https://gist.github.com/anmoljagetia/d37da67b9d408b35ac753ce51e420132 \n"

/-- The template input that `run` builds before icon preparation (`main.go`
lines 75-87). -/
def baseInfo (fl : Flags) : infoListData :=
  let appName := fl.name ++ ".app"
  let id := if fl.identifier = "" then fl.author ++ "." ++ fl.name else fl.identifier
  { Name := fl.name
    Executable := filepath.Join ["MacOS", appName]
    Identifier := id
    Version := fl.version
    InfoString := fl.name ++ " by " ++ fl.author
    ShortVersionString := fl.version
    IconFile := ""
    Mode := fl.mode }

/-- The icon step of `run` (`main.go` lines 88-94): with an icon configured,
`prepareIcons` is run and on success the base name of the path it returns
becomes `IconFile`. -/
def iconStep (w : World) (fl : Flags) (resourcesPath : String) : Res infoListData :=
  let info := baseInfo fl
  if fl.icon ≠ "" then
    match prepareIcons w fl.icon resourcesPath with
    | (w1, _, some e) => .err w1 ("icon: " ++ e)
    | (w1, iconPath, none) => .ok w1 { info with IconFile := filepath.Base iconPath }
  else .ok w info

/-- The manifest step of `run` (`main.go` lines 95-109): render the template
into `Info.plist` and write the README. -/
def manifestStep (w : World) (contentsPath : String) (info : infoListData) :
    World × Option String :=
  let plist := filepath.Join [contentsPath, "Info.plist"]
  match osOpenTrunc w plist 0o666 with
  | (w1, some e) => (w1, some ("create Info.plist: " ++ e.msg))
  | (w1, none) =>
    match osWrite w1 plist (renderManifest info) with
    | (w2, some e) => (w2, some ("execute Info.plist template: " ++ e))
    | (w2, none) =>
      let rd := filepath.Join [contentsPath, "README"]
      match osOpenTrunc w2 rd 0o666 with
      | (w3, some e) => (w3, some ("ioutil.WriteFile: " ++ e.msg))
      | (w3, none) =>
        match osWrite w3 rd readme with
        | (w4, some e) => (w4, some ("ioutil.WriteFile: " ++ e))
        | (w4, none) => (w4, none)

/-- Go `run()` (`main.go` lines 28-112). -/
def run (w : World) (fl : Flags) : Res Unit :=
  match fl.args with
  | [] => .err w "missing executable argument"
  | bin :: _ =>
    let appName := fl.name ++ ".app"
    let contentsPath := filepath.Join [appName, "Contents"]
    let appPath := filepath.Join [contentsPath, "MacOS"]
    let resourcesPath := filepath.Join [contentsPath, "Resources"]
    let binPath := filepath.Join [appPath, appName]
    match osMkdirAll w appPath 0o777 with
    | (w1, some e) => .err w1 ("os.MkdirAll appPath: " ++ e.msg)
    | (w1, none) =>
      match osOpenTrunc w1 binPath 0o666 with
      | (w2, some e) => .err w2 ("create bin: " ++ e.msg)
      | (w2, none) =>
        match osOpen w2 bin with
        | some e =>
          if e.notExist then .err w2 (bin ++ " not found")
          else .err w2 ("os.Open: " ++ e.msg)
        | none =>
          match ioCopy w2 binPath bin with
          | (w3, some e) => .err w3 ("copy bin: " ++ e)
          | (w3, none) =>
            match execCmd w3 ["chmod", "+x", appPath] with
            | (w4, ⟨some e, _⟩) => .err w4 ("chmod: " ++ appPath ++ ": " ++ e)
            | (w4, ⟨none, _⟩) =>
              match execCmd w4 ["chmod", "+x", binPath] with
              | (w5, ⟨some e, _⟩) => .err w5 ("chmod: " ++ binPath ++ ": " ++ e)
              | (w5, ⟨none, _⟩) =>
                match iconStep w5 fl resourcesPath with
                | .exit w6 c => .exit w6 c
                | .err w6 e => .err w6 e
                | .ok w6 info =>
                  match manifestStep w6 contentsPath info with
                  | (w7, some e) => .err w7 e
                  | (w7, none) => buildDMG w7 fl.name appName

/-- How the process ends: the final world and the exit status that the parent
process observes. -/
structure Exit where
  world : World
  status : Int

/-- The exit status of a process that calls `os.Exit(code)`: the low eight bits
of the code, so `os.Exit(-1)` is observed as status 255. -/
def exitStatus (code : Int) : Int := code % 256

/-- Go `main()` (`main.go` lines 21-26): status 0 when `run` returns without
error; an error is written to standard error and the status is 2; an `os.Exit`
inside `run` ends the process there. -/
def main (w : World) (fl : Flags) : Exit :=
  match run w fl with
  | .ok w1 _ => ⟨w1, 0⟩
  | .err w1 e => ⟨{ w1 with stderr := w1.stderr ++ [e] }, exitStatus 2⟩
  | .exit w1 c => ⟨w1, exitStatus c⟩

/-! ## Notions used in the statements -/

/-- `Frame w v`: the worlds `w` and `v` differ at most in the file system and
in the lines handed to the logger. -/
structure Frame (w v : World) : Prop where
  umask : v.umask = w.umask
  fault : v.fault = w.fault
  cmd : v.cmd = w.cmd
  decode : v.decode = w.decode
  encode : v.encode = w.encode
  lower : v.lower = w.lower
  stderr : v.stderr = w.stderr
  stdout : v.stdout = w.stdout
  trace : v.trace = w.trace

/-- `Grows w v`: every key present in `w` is present in `v`. -/
def Grows (w v : World) : Prop :=
  ∀ q : String, w.fs.get q ≠ none → v.fs.get q ≠ none

/-- The event sequences that the body of `buildDMGFromTemplate` can produce, by
the outcome of its steps; `out` is the standard output of `hdiutil attach`. -/
def BodyEvents (out appName templateDMG appDir tmpDir : String) (evs : List Event) : Prop :=
  evs = [.exec (attachArgs templateDMG tmpDir) false] ∨
  evs = [.exec (attachArgs templateDMG tmpDir) true, .deepCopy appDir tmpDir false] ∨
  (evs = [.exec (attachArgs templateDMG tmpDir) true, .deepCopy appDir tmpDir true] ∧
    strings.Fields out = []) ∨
  (∃ dev b, (strings.Fields out).head? = some dev ∧
    (evs = [.exec (attachArgs templateDMG tmpDir) true, .deepCopy appDir tmpDir true,
            .exec (detachArgs dev) false] ∨
     evs = [.exec (attachArgs templateDMG tmpDir) true, .deepCopy appDir tmpDir true,
            .exec (detachArgs dev) true,
            .exec (convertArgs templateDMG (appName ++ ".dmg")) b]))

/-- Whether a function returned (with or without an error) instead of ending
the process. -/
def Res.returned {α : Type} : Res α → Bool
  | .ok _ _ => true
  | .err _ _ => true
  | .exit _ _ => false

/-- The error that a function returned, if it returned one. -/
def Res.error? {α : Type} : Res α → Option String
  | .err _ e => some e
  | _ => none

/-- The code with which a function ended the process, if it did. -/
def Res.exitCode? {α : Type} : Res α → Option Int
  | .exit _ c => some c
  | _ => none

/-- The value that a function returned, if it returned without error. -/
def Res.value? {α : Type} : Res α → Option α
  | .ok _ a => some a
  | _ => none

/-- The template text before `.Name`. -/
def headLit0 : String :=
  "<?xml version=\"1.0\" encoding=\"UTF-8\"?>\n" ++
  "<!DOCTYPE plist PUBLIC \"-//Apple//DTD PLIST 1.0//EN\" " ++
  "\"http://www.apple.com/DTDs/PropertyList-1.0.dtd\">\n" ++
  "<plist version=\"1.0\">\n" ++
  "\t<dict>\n" ++
  "\t\t<key>CFBundlePackageType</key>\n" ++
  "\t\t<string>APPL</string>\n" ++
  "\t\t<key>CFBundleInfoDictionaryVersion</key>\n" ++
  "\t\t<string>6.0</string>\n" ++
  "\t\t<key>CFBundleName</key>\n" ++
  "\t\t<string>"

/-- The template text between `.Name` and `.Executable`. -/
def headLit1 : String := "</string>\n\t\t<key>CFBundleExecutable</key>\n\t\t<string>"

/-- The template text between `.Executable` and `.Identifier`. -/
def headLit2 : String := "</string>\n\t\t<key>CFBundleIdentifier</key>\n\t\t<string>"

/-- The template text between `.Identifier` and `.Version`. -/
def headLit3 : String := "</string>\n\t\t<key>CFBundleVersion</key>\n\t\t<string>"

/-- The template text between `.Version` and `.InfoString`. -/
def headLit4 : String := "</string>\n\t\t<key>CFBundleGetInfoString</key>\n\t\t<string>"

/-- The template text between `.InfoString` and `.ShortVersionString`. -/
def headLit5 : String :=
  "</string>\n\t\t<key>CFBundleShortVersionString</key>\n\t\t<string>"

/-- The template text between `.ShortVersionString` and the icon conditional. -/
def headLit6 : String := "</string>\n\t\t"

/-- The manifest up to the icon conditional. -/
def manifestHead (d : infoListData) : String :=
  headLit0 ++ d.Name ++ headLit1 ++ d.Executable ++ headLit2 ++ d.Identifier ++
  headLit3 ++ d.Version ++ headLit4 ++ d.InfoString ++ headLit5 ++
  d.ShortVersionString ++ headLit6

/-- The manifest from the end of the icon conditional on. -/
def manifestTail (mode : String) : String :=
  manifestMiddle ++ (if mode = "tray" then trayBlock else "") ++ manifestClosing

/-- The key element of the tray flag block. -/
def trayMarker : String := "<key>LSUIElement</key>"

/-- The key element of the icon block. -/
def iconMarker : String := "<key>CFBundleIconFile</key>"

/-- Literal texts interleaved with field values: the first literal, the first
value, the second literal, and so on; once the values are used up the
remaining literals follow one another. -/
def weave : List (List Char) → List (List Char) → List Char
  | [], _ => []
  | l :: ls, [] => l ++ weave ls []
  | l :: ls, f :: fs => l ++ (f ++ weave ls fs)

/-- `safeLit K l`: the marker `K` does not occur in the literal `l`, and `l`
does not end with a proper non-empty beginning of `K`. -/
def safeLit (K l : List Char) : Prop :=
  ¬ K <:+: l ∧ ∀ j ∈ List.range K.length, 0 < j → ¬ K.take j <:+ l

/-- The literal texts of the manifest before the icon conditional. -/
def headLits : List (List Char) :=
  [headLit0.data, headLit1.data, headLit2.data, headLit3.data, headLit4.data,
   headLit5.data, headLit6.data]

/-- The values that the manifest prints before the icon conditional. -/
def headFields (d : infoListData) : List (List Char) :=
  [d.Name.data, d.Executable.data, d.Identifier.data, d.Version.data,
   d.InfoString.data, d.ShortVersionString.data]

/-- The four external steps of the disk-image build; a detach step carries
the arguments that follow `hdiutil detach`. -/
inductive Phase
  | attach
  | populate
  | detach (args : List String)
  | convert
deriving DecidableEq, Repr

/-- The step that an event of the trace stands for, with its outcome: every
`hdiutil attach`, `hdiutil detach` and `hdiutil convert` command, whatever its
further arguments, and every `deepCopy`. -/
def phaseOf : Event → Option (Phase × Bool)
  | .exec ("hdiutil" :: "attach" :: _) ok => some (.attach, ok)
  | .deepCopy _ _ ok => some (.populate, ok)
  | .exec ("hdiutil" :: "detach" :: args) ok => some (.detach args, ok)
  | .exec ("hdiutil" :: "convert" :: _) ok => some (.convert, ok)
  | _ => none

/-- The external steps of a trace, in order, with their outcomes. -/
def steps (tr : List Event) : List (Phase × Bool) := tr.filterMap phaseOf

/-- Whether an event is an external command or a `deepCopy`. -/
def isExternal : Event → Bool
  | .exec _ _ => true
  | .deepCopy _ _ _ => true
  | _ => false

/-- Whether an event is a `hdiutil detach` command. -/
def isDetach : Event → Bool
  | .exec ("hdiutil" :: "detach" :: _) _ => true
  | _ => false

/-! ## Concrete worlds -/

/-- External commands that all succeed; `hdiutil attach` prints the device
table of the mounted image. -/
def demoCmd : List String → CmdResult := fun args =>
  match args with
  | "hdiutil" :: "attach" :: _ =>
    ⟨none, "/dev/disk2 \tGUID_partition_scheme\n/dev/disk2s1\tApple_HFS\t./tmp\n"⟩
  | _ => ⟨none, ""⟩

/-- Lower-casing of the ASCII letters. -/
def asciiLower (s : String) : String := ⟨s.data.map Char.toLower⟩

/-- A working directory that holds an executable `mybin` and two images. -/
def demoWorld : World :=
  { fs := [(".", .dir 0o755), ("mybin", .file 0o755 "ELF"),
           ("logo.png", .file 0o644 "PNG"), ("logo.bmp", .file 0o644 "BM")]
    umask := 0o022
    fault := fun _ => none
    cmd := demoCmd
    decode := fun s => .ok s
    encode := fun s => .ok ("icns" ++ s)
    lower := asciiLower
    stderr := []
    stdout := []
    log := []
    trace := [] }

/-- The command line `appify -name Demo -author me mybin`. -/
def demoFlags : Flags :=
  { name := "Demo", author := "me", version := "1.0", identifier := "",
    icon := "", mode := "normal", args := ["mybin"] }

/-- The command line `appify -name Demo -author me -version V mybin` without
an icon option, where the version text `V` carries an icon key. -/
def keyInVersionFlags : Flags :=
  { demoFlags with
    version := "1.0</string>\n\t\t<key>CFBundleIconFile</key>\n\t\t<string>icon.icns" }

/-- The template input that `run` builds for `demoFlags`. -/
def demoInfo : infoListData :=
  { Name := "Demo", Executable := "MacOS/Demo.app", Identifier := "me.Demo",
    Version := "1.0", InfoString := "Demo by me", ShortVersionString := "1.0",
    IconFile := "", Mode := "normal" }

/-- The working directory after bundle assembly. -/
def assembledFS : FS :=
  [(".", .dir 0o755),
   ("Demo.app", .dir 0o755), ("Demo.app/Contents", .dir 0o755),
   ("Demo.app/Contents/Info.plist", .file 0o644 "plist"),
   ("Demo.app/Contents/MacOS", .dir 0o755),
   ("Demo.app/Contents/MacOS/Demo.app", .file 0o755 "ELF")]

/-- A world in which the bundle `Demo.app` has been assembled. -/
def assembledWorld : World := { demoWorld with fs := assembledFS }

/-- The working directory after bundle assembly and `makeTemplateDMG`. -/
def bundleFS : FS := ("template.dmg", .file 0o644 "UDRW") :: assembledFS

/-- A world in which the mounted image runs out of space while the executable
is copied into it. -/
def fullImageWorld : World :=
  { demoWorld with
    fs := bundleFS
    fault := fun op =>
      if op = .write "tmp/Demo.app/Contents/MacOS/Demo.app" then
        some "write tmp/Demo.app/Contents/MacOS/Demo.app: no space left on device"
      else none }

/-- A working directory in which `tmp` already exists. -/
def tmpExistsWorld : World :=
  { demoWorld with fs := demoWorld.fs ++ [("tmp", .dir 0o755)] }

/-- A world in which `hdiutil create` fails. -/
def createFailsWorld : World :=
  { demoWorld with
    cmd := fun args =>
      match args with
      | "hdiutil" :: "create" :: _ => ⟨some "exit status 1", ""⟩
      | _ => demoCmd args }

/-- A world in which `hdiutil attach` fails. -/
def attachFailsWorld : World :=
  { demoWorld with
    cmd := fun args =>
      match args with
      | "hdiutil" :: "attach" :: _ => ⟨some "exit status 1", ""⟩
      | _ => demoCmd args }

/-- A world in which `os.Mkdir("./tmp")`, the call of `buildDMGFromTemplate`,
is refused. -/
def mkdirRefusedWorld : World :=
  { demoWorld with
    fault := fun op =>
      if op = .mkdir "./tmp" then some "mkdir ./tmp: permission denied" else none }

/-- A working directory in which `res` is a regular file. -/
def resFileWorld : World :=
  { demoWorld with fs := demoWorld.fs ++ [("res", .file 0o644 "x")] }

/-- A working directory in which `res/icon.icns` is a directory. -/
def iconDirWorld : World :=
  { demoWorld with
    fs := demoWorld.fs ++ [("res", .dir 0o755), ("res/icon.icns", .dir 0o755)] }

/-- A working directory with a bundle whose name begins with a dot, and an
empty directory `tmp`. -/
def dotWorld : World :=
  { demoWorld with
    fs := [(".", .dir 0o755), ("tmp", .dir 0o755), (".foo.app", .dir 0o755),
           (".foo.app/Contents", .dir 0o755),
           (".foo.app/Contents/Info.plist", .file 0o644 "plist")] }

/-- A working directory with a tree `app` and an empty directory `out`; the
file `app/x` has all permission bits set. -/
def copyWorld : World :=
  { demoWorld with
    fs := [(".", .dir 0o755), ("out", .dir 0o755), ("app", .dir 0o755),
           ("app/x", .file 0o777 "X"), ("app/sub", .dir 0o755),
           ("app/sub/y", .file 0o644 "Y")] }

/-- A working directory with two files. -/
def twoFilesWorld : World :=
  { demoWorld with
    fs := [(".", .dir 0o755), ("a", .file 0o644 "NEW"), ("b", .file 0o600 "OLD")] }

/-- The entries that `Walk` visits from `src`, with the path that the walk
function receives for each: the root as given, then the entries below it. -/
def visits (w : World) (src : String) : List (String × Node) :=
  match w.fs.get (filepath.Clean src) with
  | none => []
  | some (.dir m) => (src, .dir m) :: walkEntries w.fs src
  | some (.file m d) => [(src, .file m d)]

/-- The node that `deepCopy` leaves at the destination of a visited node: the
same contents, and the permission bits of the source less the bits of the
creation mask. -/
def copied (w : World) : Node → Node
  | .file m d => .file (w.masked (m &&& 0o777)) d
  | .dir m => .dir (w.masked (m &&& 0o777))

/-- A plain path element: not empty, without `/`, and neither `.` nor `..`. -/
def plain (n : List Char) : Prop :=
  n ≠ [] ∧ '/' ∉ n ∧ n ≠ ['.'] ∧ n ≠ ['.', '.']

/-- The path that `Clean` writes for a list of elements. -/
def renderL (rooted : Bool) (es : List (List Char)) : List Char :=
  if rooted then '/' :: filepath.joinSlash es
  else if filepath.joinSlash es = [] then ['.'] else filepath.joinSlash es

/-- The invariant of the element stack of `Clean` (innermost element first): no
element is empty, contains `/` or is `.`, and below a `..` there is only `..`. -/
def StackOK (st : List (List Char)) : Prop :=
  (∀ e ∈ st, e ≠ [] ∧ '/' ∉ e ∧ e ≠ ['.']) ∧
  st.Pairwise (fun a b => a = ['.', '.'] → b = ['.', '.'])

/-! ## The file-system map -/

theorem FS.get_filter_key (fs : FS) (p : String → Bool) (q : String) :
    FS.get (fs.filter (fun e => p e.1)) q = if p q then FS.get fs q else none := by
  induction fs with
  | nil => simp [FS.get]
  | cons e rest ih =>
    by_cases hp : p e.1 = true
    · rw [List.filter_cons_of_pos (by simpa using hp)]
      by_cases he : e.1 = q
      · subst he; simp [FS.get, hp]
      · simp only [FS.get, he, if_false, ih]
    · rw [List.filter_cons_of_neg (by simpa using hp)]
      by_cases he : e.1 = q
      · subst he; simp [FS.get, hp, ih]
      · simp only [FS.get, he, if_false, ih]

theorem FS.get_del (fs : FS) (k q : String) :
    FS.get (FS.del fs k) q = if q = k then none else FS.get fs q := by
  have h := FS.get_filter_key fs (fun s => decide (s ≠ k)) q
  unfold FS.del
  by_cases hq : q = k
  · simp [hq] at h ⊢; exact h
  · simp [hq] at h ⊢; exact h

theorem FS.get_set (fs : FS) (k q : String) (n : Node) :
    FS.get (FS.set fs k n) q = if q = k then some n else FS.get fs q := by
  unfold FS.set
  by_cases hq : q = k
  · subst hq; simp [FS.get]
  · have : ¬ k = q := fun h => hq h.symm
    simp [FS.get, this, hq, FS.get_del]

theorem FS.get_set_self (fs : FS) (k : String) (n : Node) :
    FS.get (FS.set fs k n) k = some n := by
  simp [FS.get_set]

theorem FS.get_set_ne (fs : FS) (k q : String) (n : Node) (h : q ≠ k) :
    FS.get (FS.set fs k n) q = FS.get fs q := by
  simp [FS.get_set, h]

/-! ## Relations preserved by a walk -/

theorem walkVisit_rel (R : World → World → Prop) (fn : WalkFunc)
    (hfn : ∀ w p i e, R w (fn w p i e).1) (w : World) (p k : String) (n : Node) :
    R w (walkVisit fn w p k n).1 := by
  unfold walkVisit
  split
  · have := hfn w p none (some ‹String›)
    split <;> simp_all
  · simp only
    split
    · have := hfn w p (some (infoOf p n)) (w.fault (.readDir p))
      split <;> simp_all
    · have := hfn w p (some (infoOf p n)) none
      split <;> simp_all

theorem walkRest_rel (R : World → World → Prop) (hrefl : ∀ w, R w w)
    (htrans : ∀ a b c, R a b → R b c → R a c) (fn : WalkFunc)
    (hfn : ∀ w p i e, R w (fn w p i e).1) (es : List (String × Node)) :
    ∀ (w : World) (skip : List String), R w (walkRest fn w skip es).1 := by
  induction es with
  | nil => intro w skip; simp [walkRest, hrefl]
  | cons e rest ih =>
    intro w skip
    obtain ⟨k, n⟩ := e
    unfold walkRest
    split
    · exact ih w skip
    · have hv := walkVisit_rel R fn hfn w k k n
      split
      · simp_all
      · rename_i w1 h1
        rw [h1] at hv
        exact htrans _ _ _ hv (ih w1 skip)
      · rename_i w1 d h1
        rw [h1] at hv
        exact htrans _ _ _ hv (ih w1 (d :: skip))

theorem Walk_rel (R : World → World → Prop) (hrefl : ∀ w, R w w)
    (htrans : ∀ a b c, R a b → R b c → R a c) (fn : WalkFunc)
    (hfn : ∀ w p i e, R w (fn w p i e).1) (w : World) (root : String) :
    R w (Walk w root fn).1 := by
  unfold Walk
  split
  · have := hfn w root none (some ("lstat " ++ root ++ ": no such file or directory"))
    split <;> simp_all
  · rename_i n hn
    have hv := walkVisit_rel R fn hfn w root (filepath.Clean root) n
    split
    · simp_all
    · simp_all
    · rename_i w1 h1
      rw [h1] at hv
      split
      · exact htrans _ _ _ hv (walkRest_rel R hrefl htrans fn hfn _ w1 [])
      · exact hv

/-! ## What the file-system calls leave unchanged -/

theorem frame_refl (w : World) : Frame w w :=
  ⟨rfl, rfl, rfl, rfl, rfl, rfl, rfl, rfl, rfl⟩

theorem frame_trans {a b c : World} (h1 : Frame a b) (h2 : Frame b c) : Frame a c :=
  ⟨h2.umask.trans h1.umask, h2.fault.trans h1.fault, h2.cmd.trans h1.cmd,
   h2.decode.trans h1.decode, h2.encode.trans h1.encode, h2.lower.trans h1.lower,
   h2.stderr.trans h1.stderr, h2.stdout.trans h1.stdout, h2.trace.trans h1.trace⟩

theorem frame_withFS (w : World) (fs : FS) : Frame w (w.withFS fs) :=
  ⟨rfl, rfl, rfl, rfl, rfl, rfl, rfl, rfl, rfl⟩

theorem osMkdir_frame (w : World) (p : String) (m : Nat) : Frame w (osMkdir w p m).1 := by
  unfold osMkdir
  split
  · exact frame_refl w
  · simp only
    split
    · exact frame_refl w
    · split
      · exact frame_withFS w _
      · exact frame_refl w

theorem osOpenTrunc_frame (w : World) (p : String) (m : Nat) :
    Frame w (osOpenTrunc w p m).1 := by
  unfold osOpenTrunc
  split
  · exact frame_refl w
  · simp only
    split
    · exact frame_withFS w _
    · exact frame_refl w
    · split
      · exact frame_withFS w _
      · exact frame_refl w

theorem osWrite_frame (w : World) (p d : String) : Frame w (osWrite w p d).1 := by
  unfold osWrite
  split
  · exact frame_refl w
  · simp only
    split
    · exact frame_withFS w _
    · exact frame_refl w

theorem ioCopy_frame (w : World) (dst src : String) : Frame w (ioCopy w dst src).1 := by
  unfold ioCopy
  split
  · exact frame_refl w
  · exact osWrite_frame w dst _

theorem copyFile_frame (w : World) (src dst : String) (i : Option FileInfo) :
    Frame w (copyFile w src dst i).1 := by
  have h0 : Frame w { w with log := w.log ++ ["[INFO] Copying " ++ src ++ " to " ++ dst] } :=
    ⟨rfl, rfl, rfl, rfl, rfl, rfl, rfl, rfl, rfl⟩
  unfold copyFile
  simp only
  split
  · exact h0
  · split
    · exact h0
    · have h1 := osOpenTrunc_frame
        { w with log := w.log ++ ["[INFO] Copying " ++ src ++ " to " ++ dst] } dst
        (‹FileInfo›.mode &&& 0o777)
      split
      · rename_i w1 e he
        rw [he] at h1
        split <;> exact frame_trans h0 h1
      · rename_i w1 he
        rw [he] at h1
        have h2 := ioCopy_frame w1 dst src
        split
        · rename_i w2 e2 he2
          rw [he2] at h2
          exact frame_trans h0 (frame_trans h1 h2)
        · rename_i w2 he2
          rw [he2] at h2
          have := frame_trans h0 (frame_trans h1 h2)
          split
          · exact this
          · split
            · exact this
            · split <;> exact this

theorem deepCopyVisit_frame (src dst : String) (w : World) (p : String)
    (i : Option FileInfo) (e : Option String) : Frame w (deepCopyVisit src dst w p i e).1 := by
  unfold deepCopyVisit
  split
  · exact frame_refl w
  · split
    · exact frame_refl w
    · rename_i info
      split
      · split <;> exact frame_refl w
      · split
        · simp only
          split
          · split
            · have h := osMkdir_frame w (destOf src dst p) (info.mode &&& 0o777)
              split
              · rename_i w1 e1 he; rw [he] at h; exact h
              · rename_i w1 he; rw [he] at h; exact h
            · exact frame_refl w
          · exact frame_refl w
        · simp only
          have h := copyFile_frame w p (destOf src dst p) (some info)
          split
          · rename_i w1 e1 he; rw [he] at h; exact h
          · rename_i w1 he; rw [he] at h; exact h

theorem deepCopy_frame (w : World) (src dst : String) : Frame w (deepCopy w src dst).1 := by
  unfold deepCopy
  split
  · exact frame_refl w
  · exact Walk_rel Frame frame_refl (fun _ _ _ h1 h2 => frame_trans h1 h2) _
      (deepCopyVisit_frame src dst) w src

/-! ## Keys are never lost by the copying calls -/

theorem grows_refl (w : World) : Grows w w := fun _ h => h

theorem grows_trans {a b c : World} (h1 : Grows a b) (h2 : Grows b c) : Grows a c :=
  fun q h => h2 q (h1 q h)

theorem grows_set (w : World) (k : String) (n : Node) : Grows w (w.withFS (w.fs.set k n)) := by
  intro q h
  simp only [World.withFS, FS.get_set]
  split
  · simp
  · exact h

theorem osMkdir_grows (w : World) (p : String) (m : Nat) : Grows w (osMkdir w p m).1 := by
  unfold osMkdir
  split
  · exact grows_refl w
  · simp only
    split
    · exact grows_refl w
    · split
      · exact grows_set w _ _
      · exact grows_refl w

theorem osOpenTrunc_grows (w : World) (p : String) (m : Nat) :
    Grows w (osOpenTrunc w p m).1 := by
  unfold osOpenTrunc
  split
  · exact grows_refl w
  · simp only
    split
    · exact grows_set w _ _
    · exact grows_refl w
    · split
      · exact grows_set w _ _
      · exact grows_refl w

theorem osWrite_grows (w : World) (p d : String) : Grows w (osWrite w p d).1 := by
  unfold osWrite
  split
  · exact grows_refl w
  · simp only
    split
    · exact grows_set w _ _
    · exact grows_refl w

theorem ioCopy_grows (w : World) (dst src : String) : Grows w (ioCopy w dst src).1 := by
  unfold ioCopy
  split
  · exact grows_refl w
  · exact osWrite_grows w dst _

theorem copyFile_grows (w : World) (src dst : String) (i : Option FileInfo) :
    Grows w (copyFile w src dst i).1 := by
  have h0 : Grows w { w with log := w.log ++ ["[INFO] Copying " ++ src ++ " to " ++ dst] } :=
    fun _ h => h
  unfold copyFile
  simp only
  split
  · exact h0
  · split
    · exact h0
    · have h1 := osOpenTrunc_grows
        { w with log := w.log ++ ["[INFO] Copying " ++ src ++ " to " ++ dst] } dst
        (‹FileInfo›.mode &&& 0o777)
      split
      · rename_i w1 e he
        rw [he] at h1
        split <;> exact grows_trans h0 h1
      · rename_i w1 he
        rw [he] at h1
        have h2 := ioCopy_grows w1 dst src
        split
        · rename_i w2 e2 he2
          rw [he2] at h2
          exact grows_trans h0 (grows_trans h1 h2)
        · rename_i w2 he2
          rw [he2] at h2
          have := grows_trans h0 (grows_trans h1 h2)
          split
          · exact this
          · split
            · exact this
            · split <;> exact this

theorem deepCopyVisit_grows (src dst : String) (w : World) (p : String)
    (i : Option FileInfo) (e : Option String) : Grows w (deepCopyVisit src dst w p i e).1 := by
  unfold deepCopyVisit
  split
  · exact grows_refl w
  · split
    · exact grows_refl w
    · rename_i info
      split
      · split <;> exact grows_refl w
      · split
        · simp only
          split
          · split
            · have h := osMkdir_grows w (destOf src dst p) (info.mode &&& 0o777)
              split
              · rename_i w1 e1 he; rw [he] at h; exact h
              · rename_i w1 he; rw [he] at h; exact h
            · exact grows_refl w
          · exact grows_refl w
        · simp only
          have h := copyFile_grows w p (destOf src dst p) (some info)
          split
          · rename_i w1 e1 he; rw [he] at h; exact h
          · rename_i w1 he; rw [he] at h; exact h

theorem deepCopy_grows (w : World) (src dst : String) : Grows w (deepCopy w src dst).1 := by
  unfold deepCopy
  split
  · exact grows_refl w
  · exact Walk_rel Grows grows_refl (fun _ _ _ h1 h2 => grows_trans h1 h2) _
      (deepCopyVisit_grows src dst) w src

/-! ## The disk-image builder: traces -/

theorem execCmd_trace (w : World) (args : List String) :
    (execCmd w args).1.trace = w.trace ++ [.exec args (decide ((w.cmd args).err = none))] := by
  simp [execCmd, World.emit, World.withFS]

theorem execCmd_snd (w : World) (args : List String) : (execCmd w args).2 = w.cmd args := rfl

theorem execCmd_cmd (w : World) (args : List String) : (execCmd w args).1.cmd = w.cmd := rfl

theorem execCmd_fault (w : World) (args : List String) : (execCmd w args).1.fault = w.fault := rfl

/-- The events of `buildSteps`, by the outcome of each step. -/
theorem buildSteps_trace (w : World) (appName templateDMG appDir tmpDir : String) :
    ∃ evs : List Event,
      (buildSteps w appName templateDMG appDir tmpDir).1.trace = w.trace ++ evs ∧
      (buildSteps w appName templateDMG appDir tmpDir).1.fault = w.fault ∧
      BodyEvents (w.cmd (attachArgs templateDMG tmpDir)).out appName templateDMG appDir tmpDir
        evs := by
  unfold BodyEvents
  unfold buildSteps
  have ht1 := execCmd_trace w (attachArgs templateDMG tmpDir)
  have hs1 := execCmd_snd w (attachArgs templateDMG tmpDir)
  have hf1 := execCmd_fault w (attachArgs templateDMG tmpDir)
  split
  · rename_i w1 e o h1
    rw [h1] at ht1 hs1 hf1
    simp only at ht1 hs1 hf1
    refine ⟨_, ?_, hf1, Or.inl rfl⟩
    rw [ht1, ← hs1]
    simp
  · rename_i w1 out h1
    rw [h1] at ht1 hs1 hf1
    simp only at ht1 hs1 hf1
    have hok : decide ((w.cmd (attachArgs templateDMG tmpDir)).err = none) = true := by
      rw [← hs1]; simp
    rw [hok] at ht1
    have hout : (w.cmd (attachArgs templateDMG tmpDir)).out = out := by rw [← hs1]
    have hfr := deepCopy_frame w1 appDir tmpDir
    split
    · rename_i w2 e h2
      rw [h2] at hfr
      have hfr : Frame w1 w2 := hfr
      refine ⟨_, ?_, ?_, Or.inr (Or.inl rfl)⟩
      · simp [World.emit, hfr.trace, ht1]
      · simp [World.emit, hfr.fault, hf1]
    · rename_i w2 h2
      rw [h2] at hfr
      have hfr : Frame w1 w2 := hfr
      simp only
      split
      · rename_i hfs
        refine ⟨_, ?_, ?_, Or.inr (Or.inr (Or.inl ⟨rfl, ?_⟩))⟩
        · simp [World.emit, hfr.trace, ht1]
        · simp [World.emit, hfr.fault, hf1]
        · rw [hout]; exact hfs
      · rename_i dev rest hfs
        have hdev : (strings.Fields (w.cmd (attachArgs templateDMG tmpDir)).out).head? = some dev := by
          rw [hout, hfs]; rfl
        have ht3 := execCmd_trace (w2.emit (.deepCopy appDir tmpDir true)) (detachArgs dev)
        have hs3 := execCmd_snd (w2.emit (.deepCopy appDir tmpDir true)) (detachArgs dev)
        have hf3 := execCmd_fault (w2.emit (.deepCopy appDir tmpDir true)) (detachArgs dev)
        split
        · rename_i w4 e o h4
          rw [h4] at ht3 hs3 hf3
          simp only at ht3 hs3 hf3
          refine ⟨_, ?_, ?_, Or.inr (Or.inr (Or.inr ⟨dev, false, hdev, Or.inl rfl⟩))⟩
          · rw [ht3, ← hs3]; simp [World.emit, hfr.trace, ht1]
          · rw [hf3]; simp [World.emit, hfr.fault, hf1]
        · rename_i w4 o h4
          rw [h4] at ht3 hs3 hf3
          simp only at ht3 hs3 hf3
          have ht5 := execCmd_trace w4 (convertArgs templateDMG (appName ++ ".dmg"))
          have hf5 := execCmd_fault w4 (convertArgs templateDMG (appName ++ ".dmg"))
          have hcases : ∀ x : World × CmdResult,
              x = execCmd w4 (convertArgs templateDMG (appName ++ ".dmg")) →
              x.1.trace = w.trace ++ [.exec (attachArgs templateDMG tmpDir) true,
                .deepCopy appDir tmpDir true, .exec (detachArgs dev) true,
                .exec (convertArgs templateDMG (appName ++ ".dmg"))
                  (decide ((w4.cmd (convertArgs templateDMG (appName ++ ".dmg"))).err = none))] ∧
              x.1.fault = w.fault := by
            intro x hx
            subst hx
            refine ⟨?_, ?_⟩
            · rw [ht5, ht3, ← hs3]; simp [World.emit, hfr.trace, ht1]
            · rw [hf5, hf3]; simp [World.emit, hfr.fault, hf1]
          split
          · rename_i w5 e o h5
            have := hcases _ h5.symm
            exact ⟨_, this.1, this.2, Or.inr (Or.inr (Or.inr ⟨dev, _, hdev, Or.inr rfl⟩))⟩
          · rename_i w5 o h5
            have := hcases _ h5.symm
            exact ⟨_, this.1, this.2, Or.inr (Or.inr (Or.inr ⟨dev, _, hdev, Or.inr rfl⟩))⟩

theorem osRemoveAll_frame (w : World) (p : String) : Frame w (osRemoveAll w p).1 := by
  unfold osRemoveAll
  split
  · exact frame_refl w
  · exact frame_withFS w _

/-- The events of `buildDMGFromTemplate`: either the failed `os.Mkdir` alone,
or the successful one, the events of the body, and the deferred
`os.RemoveAll`. -/
theorem buildDMGFromTemplate_trace (w : World) (appName templateDMG appDir : String) :
    ∃ evs : List Event,
      (buildDMGFromTemplate w appName templateDMG appDir).1.trace = w.trace ++ evs ∧
      (((osMkdir w "./tmp" 0o755).2 ≠ none ∧ evs = [.mkdir "./tmp" false]) ∨
       ((osMkdir w "./tmp" 0o755).2 = none ∧
        ∃ body, BodyEvents (w.cmd (attachArgs templateDMG "./tmp")).out appName
            templateDMG appDir "./tmp" body ∧
          evs = .mkdir "./tmp" true :: body ++
            [.removeAll "./tmp" (decide (w.fault (.removeAll "./tmp") = none))])) := by
  unfold buildDMGFromTemplate
  have hm := osMkdir_frame w "./tmp" 0o755
  simp only
  split
  · rename_i w1 e h1
    rw [h1] at hm
    have hm : Frame w w1 := hm
    refine ⟨_, ?_, Or.inl ⟨by simp [h1], rfl⟩⟩
    simp [World.emit, hm.trace]
  · rename_i w1 h1
    rw [h1] at hm
    have hm : Frame w w1 := hm
    obtain ⟨body, hb1, hb2, hb3⟩ :=
      buildSteps_trace (w1.emit (.mkdir "./tmp" true)) appName templateDMG appDir "./tmp"
    have hcmd : (w1.emit (.mkdir "./tmp" true)).cmd = w.cmd := hm.cmd
    rw [hcmd] at hb3
    have hflt : (w1.emit (.mkdir "./tmp" true)).fault = w.fault := hm.fault
    rw [hflt] at hb2
    have htr : (w1.emit (.mkdir "./tmp" true)).trace = w.trace ++ [.mkdir "./tmp" true] := by
      simp [World.emit, hm.trace]
    rw [htr] at hb1
    refine ⟨_, ?_, Or.inr ⟨by simp [h1], body, hb3, rfl⟩⟩
    generalize buildSteps (w1.emit (.mkdir "./tmp" true)) appName templateDMG appDir "./tmp" = r
      at hb1 hb2
    obtain ⟨w2, res⟩ := r
    simp only at hb1 hb2 ⊢
    have hr := osRemoveAll_frame w2 "./tmp"
    have hrr : (osRemoveAll w2 "./tmp").2 = none ↔ w.fault (.removeAll "./tmp") = none := by
      unfold osRemoveAll
      rw [hb2]
      split <;> simp_all
    generalize osRemoveAll w2 "./tmp" = r3 at hr hrr
    obtain ⟨w3, rr⟩ := r3
    simp only at hr hrr ⊢
    have hb : decide (rr = none) = decide (w.fault (.removeAll "./tmp") = none) := by
      simp only [decide_eq_decide]
      exact hrr
    simp [World.emit, hr.trace, hb1, hb]

/-- C5.  In every run of `buildDMGFromTemplate` every external command and
every `deepCopy` is one of the steps attach, populate, detach, convert, and the
steps of the run are a beginning of the sequence attach, populate, detach,
convert: each at most once and in this order.  A convert step is preceded by a
successful detach, a detach or populate step by a successful attach, and the
detach command has one argument, the first field of the output of attach. -/
theorem buildDMGFromTemplate_steps_ordered (w : World)
    (appName templateDMG appDir : String) :
    ∃ evs : List Event,
      (buildDMGFromTemplate w appName templateDMG appDir).1.trace = w.trace ++ evs ∧
      (∀ e ∈ evs, isExternal e = true → (phaseOf e).isSome = true) ∧
      (∃ dev b1 b2 b3 b4, steps evs <+:
        [(Phase.attach, b1), (Phase.populate, b2), (Phase.detach [dev], b3),
         (Phase.convert, b4)]) ∧
      (∀ b, (Phase.convert, b) ∈ steps evs → ∃ dev, (Phase.detach [dev], true) ∈ steps evs) ∧
      (∀ args b, (Phase.detach args, b) ∈ steps evs →
        (Phase.attach, true) ∈ steps evs ∧
        ∃ dev, args = [dev] ∧
          (strings.Fields (w.cmd (attachArgs templateDMG "./tmp")).out).head? = some dev) ∧
      (∀ b, (Phase.populate, b) ∈ steps evs → (Phase.attach, true) ∈ steps evs) := by
  obtain ⟨evs, htr, hcase⟩ := buildDMGFromTemplate_trace w appName templateDMG appDir
  refine ⟨evs, htr, ?_⟩
  rcases hcase with ⟨_, rfl⟩ | ⟨_, body, hbody, rfl⟩
  · refine ⟨?_, ⟨"", true, true, true, true, ?_⟩, ?_, ?_, ?_⟩ <;>
      simp [steps, phaseOf, isExternal]
  · unfold BodyEvents at hbody
    rcases hbody with rfl | rfl | ⟨rfl, _⟩ | ⟨dev, b, hdev, rfl | rfl⟩
    · refine ⟨?_, ⟨"", false, true, true, true, ?_⟩, ?_, ?_, ?_⟩ <;>
        simp [steps, phaseOf, isExternal, attachArgs, List.prefix_cons_iff]
    · refine ⟨?_, ⟨"", true, false, true, true, ?_⟩, ?_, ?_, ?_⟩ <;>
        simp [steps, phaseOf, isExternal, attachArgs, List.prefix_cons_iff]
    · refine ⟨?_, ⟨"", true, true, true, true, ?_⟩, ?_, ?_, ?_⟩ <;>
        simp [steps, phaseOf, isExternal, attachArgs, List.prefix_cons_iff]
    · simp only [attachArgs] at hdev
      refine ⟨?_, ⟨dev, true, true, false, true, ?_⟩, ?_, ?_, ?_⟩ <;>
        simp [steps, phaseOf, isExternal, attachArgs, detachArgs, List.prefix_cons_iff, hdev]
    · simp only [attachArgs] at hdev
      refine ⟨?_, ⟨dev, true, true, true, b, ?_⟩, ?_, ?_, ?_⟩ <;>
        simp [steps, phaseOf, isExternal, attachArgs, detachArgs, convertArgs,
          List.prefix_cons_iff, hdev]
/-- C1 (failing input).  `hdiutil attach` succeeds and prints the device
`/dev/disk2`; the copy into the mounted image fails.  `buildDMGFromTemplate`
returns the copy error, and its trace ends with the deferred `os.RemoveAll`
without any `hdiutil detach` command: the image stays attached. -/
theorem buildDMGFromTemplate_populate_failure_skips_detach :
    (fullImageWorld.cmd (attachArgs "template.dmg" "./tmp")).err = none ∧
    (strings.Fields (fullImageWorld.cmd (attachArgs "template.dmg" "./tmp")).out).head? =
      some "/dev/disk2" ∧
    (buildDMGFromTemplate fullImageWorld "Demo" "template.dmg" "Demo.app").2 =
      some ("copying app into dmg: copying file Demo.app/Contents/MacOS/Demo.app: " ++
        "write tmp/Demo.app/Contents/MacOS/Demo.app: no space left on device") ∧
    (buildDMGFromTemplate fullImageWorld "Demo" "template.dmg" "Demo.app").1.trace =
      [.mkdir "./tmp" true,
       .exec ["hdiutil", "attach", "template.dmg", "-noautoopen", "-mountpoint", "./tmp"] true,
       .deepCopy "Demo.app" "./tmp" false,
       .removeAll "./tmp" true] ∧
    ((buildDMGFromTemplate fullImageWorld "Demo" "template.dmg" "Demo.app").1.trace.any
      isDetach) = false := by
  decide

/-! ## Cleanup of the temporary directory and of the template image -/

theorem cmdEffect_keeps (w : World) (args : List String) (q : String)
    (h : w.fs.get q ≠ none) : (cmdEffect w args).get q ≠ none := by
  unfold cmdEffect
  split
  · split
    · rw [FS.get_set]; split <;> simp [h]
    · exact h
  · split
    · rw [FS.get_set]; split <;> simp [h]
    · exact h
  · split
    · rw [FS.get_set]; split <;> simp [h]
    · rw [FS.get_set]; split <;> simp [h]
    · exact h
  · exact h

theorem execCmd_grows (w : World) (args : List String) : Grows w (execCmd w args).1 := by
  intro q h
  unfold execCmd
  simp only [World.emit, World.withFS]
  split
  · exact cmdEffect_keeps w args q h
  · exact h

theorem emit_grows (w : World) (e : Event) : Grows w (w.emit e) := fun _ h => h

theorem buildSteps_grows (w : World) (appName templateDMG appDir tmpDir : String) :
    Grows w (buildSteps w appName templateDMG appDir tmpDir).1 := by
  unfold buildSteps
  have h1 := execCmd_grows w (attachArgs templateDMG tmpDir)
  split
  · rename_i w1 e o he; rw [he] at h1; exact h1
  · rename_i w1 out he
    rw [he] at h1
    have h1 : Grows w w1 := h1
    have h2 := deepCopy_grows w1 appDir tmpDir
    split
    · rename_i w2 e he2
      rw [he2] at h2
      exact grows_trans h1 (grows_trans h2 (emit_grows _ _))
    · rename_i w2 he2
      rw [he2] at h2
      have h2 : Grows w w2 := grows_trans h1 h2
      simp only
      split
      · exact grows_trans h2 (emit_grows _ _)
      · rename_i dev rest hf
        have h3 := execCmd_grows (w2.emit (.deepCopy appDir tmpDir true)) (detachArgs dev)
        have h3 : Grows w _ := grows_trans h2 (grows_trans (emit_grows _ _) h3)
        split
        · rename_i w4 e o he4; rw [he4] at h3; exact h3
        · rename_i w4 o he4
          rw [he4] at h3
          have h3 : Grows w w4 := h3
          have h5 := execCmd_grows w4 (convertArgs templateDMG (appName ++ ".dmg"))
          split
          · rename_i w5 e o he5; rw [he5] at h5; exact grows_trans h3 h5
          · rename_i w5 o he5; rw [he5] at h5; exact grows_trans h3 h5

/-- A key outside `tmp` that is present before `buildDMGFromTemplate` is present
after it. -/
theorem buildDMGFromTemplate_keeps (w : World) (appName templateDMG appDir q : String)
    (hq : q ≠ "tmp") (hu : under "tmp" q = false) (h : w.fs.get q ≠ none) :
    (buildDMGFromTemplate w appName templateDMG appDir).1.fs.get q ≠ none := by
  unfold buildDMGFromTemplate
  have hm := osMkdir_grows w "./tmp" 0o755
  simp only
  split
  · rename_i w1 e h1
    rw [h1] at hm
    exact hm q h
  · rename_i w1 h1
    rw [h1] at hm
    have hb := buildSteps_grows (w1.emit (.mkdir "./tmp" true)) appName templateDMG appDir "./tmp"
    have h2 := hb q (hm q h)
    generalize buildSteps (w1.emit (.mkdir "./tmp" true)) appName templateDMG appDir "./tmp" = r
      at h2
    obtain ⟨w2, res⟩ := r
    simp only at h2 ⊢
    have hc : filepath.Clean "./tmp" = "tmp" := by decide
    have h3 : (osRemoveAll w2 "./tmp").1.fs.get q ≠ none := by
      unfold osRemoveAll
      split
      · exact h2
      · simp only [World.withFS, hc]
        rw [FS.get_filter_key w2.fs (fun s => s ≠ "tmp" && !under "tmp" s) q]
        simp [hq, hu, h2]
    generalize osRemoveAll w2 "./tmp" = r3 at h3
    obtain ⟨w3, rr⟩ := r3
    exact h3

/-- When `os.Mkdir("./tmp")` succeeds and the deferred `os.RemoveAll` is not
refused, `tmp` is gone when `buildDMGFromTemplate` returns. -/
theorem buildDMGFromTemplate_tmp_removed (w : World) (appName templateDMG appDir : String)
    (hm : (osMkdir w "./tmp" 0o755).2 = none) (hf : w.fault (.removeAll "./tmp") = none) :
    (buildDMGFromTemplate w appName templateDMG appDir).1.fs.get "tmp" = none := by
  unfold buildDMGFromTemplate
  have hfr := osMkdir_frame w "./tmp" 0o755
  simp only
  split
  · rename_i w1 e h1
    rw [h1] at hm
    simp at hm
  · rename_i w1 h1
    rw [h1] at hfr
    have hfr : Frame w w1 := hfr
    obtain ⟨body, _, hb2, _⟩ :=
      buildSteps_trace (w1.emit (.mkdir "./tmp" true)) appName templateDMG appDir "./tmp"
    have hflt : (w1.emit (.mkdir "./tmp" true)).fault = w.fault := hfr.fault
    rw [hflt] at hb2
    generalize buildSteps (w1.emit (.mkdir "./tmp" true)) appName templateDMG appDir "./tmp" = r
      at hb2
    obtain ⟨w2, res⟩ := r
    simp only at hb2 ⊢
    have hc : filepath.Clean "./tmp" = "tmp" := by decide
    have h3 : (osRemoveAll w2 "./tmp").1.fs.get "tmp" = none := by
      unfold osRemoveAll
      rw [hb2, hf]
      simp only [World.withFS, hc]
      rw [FS.get_filter_key w2.fs (fun s => s ≠ "tmp" && !under "tmp" s) "tmp"]
      simp
    generalize osRemoveAll w2 "./tmp" = r3 at h3
    obtain ⟨w3, rr⟩ := r3
    exact h3

/-- When `makeTemplateDMG` returns, it returns the name `template.dmg` and the
image is present. -/
theorem makeTemplateDMG_ok (w w1 : World) (dmg : String)
    (h : makeTemplateDMG w = .ok w1 dmg) :
    dmg = "template.dmg" ∧ w1.fs.get "template.dmg" ≠ none := by
  unfold makeTemplateDMG at h
  simp only at h
  split at h
  · simp at h
  · rename_i w0 h0
    split at h
    · simp at h
    · rename_i w3 o h3
      have hfs : w3.fs.get "template.dmg" ≠ none := by
        have := congrArg Prod.fst h3
        have hs := congrArg Prod.snd h3
        simp only [execCmd] at this hs
        rw [← this]
        have herr : (w0.cmd (createArgs "template")).err = none := by
          have h' : (w0.emit (Event.mkdir "tmp" true)).cmd = w0.cmd := rfl
          rw [h'] at hs; rw [hs]
        have hc : filepath.Clean "template.dmg" = "template.dmg" := by decide
        simp only [createArgs] at herr
        simp [World.emit, World.withFS, cmdEffect, createArgs, herr, hc, FS.get_set]
      have hrm : (osRemove w3 "./tmp").1.fs.get "template.dmg" ≠ none := by
        unfold osRemove
        split
        · exact hfs
        · simp only
          split
          · exact hfs
          · split
            · exact hfs
            · have hc : filepath.Clean "./tmp" = "tmp" := by decide
              simp only [World.withFS, hc, FS.get_del]
              have : ("template.dmg" : String) ≠ "tmp" := by decide
              simp [this, hfs]
      generalize osRemove w3 "./tmp" = r at h hrm
      obtain ⟨w4, rr⟩ := r
      simp only [Res.ok.injEq] at h
      obtain ⟨hw, hd⟩ := h
      subst hw
      refine ⟨?_, hrm⟩
      rw [← hd]
      decide

theorem makeTemplateDMG_no_err (w : World) : (makeTemplateDMG w).error? = none := by
  unfold makeTemplateDMG
  simp only
  split
  · rfl
  · split
    · rfl
    · rfl

/-- C2 (counterexample).  On a run in which every step succeeds, `buildDMG`
returns and the intermediate image `template.dmg` is still in the working
directory. -/
theorem buildDMG_leaves_template_image :
    (buildDMG assembledWorld "Demo" "Demo.app").returned = true ∧
    (buildDMG assembledWorld "Demo" "Demo.app").error? = none ∧
    (buildDMG assembledWorld "Demo" "Demo.app").world.fs.get "template.dmg" =
      some (.file 0o644 "UDRW") := by
  decide

/-- C2 (amended).  Every return of `buildDMGFromTemplate` that follows a
successful `os.Mkdir("./tmp")` ends with the deferred `os.RemoveAll("./tmp")`,
and `tmp` is absent afterwards unless that call is refused; and whenever
`buildDMG` returns, with or without an error, the image `template.dmg` is
still present: nothing removes it. -/
theorem buildDMG_cleanup (w : World) (appName appDir : String) :
    (∀ templateDMG, (osMkdir w "./tmp" 0o755).2 = none →
      (∃ evs, (buildDMGFromTemplate w appName templateDMG appDir).1.trace =
          w.trace ++ evs ++
            [.removeAll "./tmp" (decide (w.fault (.removeAll "./tmp") = none))]) ∧
      (w.fault (.removeAll "./tmp") = none →
        (buildDMGFromTemplate w appName templateDMG appDir).1.fs.get "tmp" = none)) ∧
    ((buildDMG w appName appDir).returned = true →
      (buildDMG w appName appDir).world.fs.get "template.dmg" ≠ none) := by
  refine ⟨?_, ?_⟩
  · intro templateDMG hm
    refine ⟨?_, fun hf => buildDMGFromTemplate_tmp_removed w appName templateDMG appDir hm hf⟩
    obtain ⟨evs, htr, hcase⟩ := buildDMGFromTemplate_trace w appName templateDMG appDir
    rcases hcase with ⟨hne, _⟩ | ⟨_, body, _, rfl⟩
    · exact absurd hm hne
    · exact ⟨.mkdir "./tmp" true :: body, by rw [htr]; simp⟩
  · intro hret
    unfold buildDMG at hret ⊢
    have hne := makeTemplateDMG_no_err w
    cases hmk : makeTemplateDMG w with
    | exit w1 c => rw [hmk] at hret; simp [Res.returned] at hret
    | err w1 e => rw [hmk] at hne; simp [Res.error?] at hne
    | ok w1 dmg =>
      obtain ⟨_, hpres⟩ := makeTemplateDMG_ok w w1 dmg hmk
      have hk := buildDMGFromTemplate_keeps w1 appName dmg appDir "template.dmg"
        (by decide) (by decide) hpres
      simp only
      generalize buildDMGFromTemplate w1 appName dmg appDir = r at hk
      obtain ⟨w2, res⟩ := r
      cases res <;> exact hk

/-- C2 (witness).  The amended statement at the assembled bundle. -/
theorem buildDMG_cleanup_witness :
    (osMkdir fullImageWorld "./tmp" 0o755).2 = none ∧
    fullImageWorld.fault (.removeAll "./tmp") = none ∧
    (buildDMGFromTemplate fullImageWorld "Demo" "template.dmg" "Demo.app").1.fs.get "tmp" =
      none ∧
    (buildDMG assembledWorld "Demo" "Demo.app").returned = true ∧
    (buildDMG assembledWorld "Demo" "Demo.app").world.fs.get "template.dmg" ≠ none :=
  ⟨by decide, by decide,
   ((buildDMG_cleanup fullImageWorld "Demo" "Demo.app").1 "template.dmg" (by decide)).2
     (by decide),
   by decide, (buildDMG_cleanup assembledWorld "Demo" "Demo.app").2 (by decide)⟩

/-! ## Exit status -/

theorem makeTemplateDMG_exit (w : World) (c : Int)
    (h : (makeTemplateDMG w).exitCode? = some c) : c = -1 := by
  unfold makeTemplateDMG at h
  simp only at h
  split at h
  · simp [Res.exitCode?] at h; exact h.symm
  · split at h
    · simp [Res.exitCode?] at h; exact h.symm
    · simp [Res.exitCode?] at h

theorem buildDMG_exit (w : World) (appName appDir : String) (c : Int)
    (h : (buildDMG w appName appDir).exitCode? = some c) : c = -1 := by
  unfold buildDMG at h
  cases hmk : makeTemplateDMG w with
  | exit w1 c1 =>
    rw [hmk] at h
    simp [Res.exitCode?] at h
    have := makeTemplateDMG_exit w c1 (by rw [hmk]; rfl)
    omega
  | err w1 e => rw [hmk] at h; simp [Res.exitCode?] at h
  | ok w1 dmg =>
    rw [hmk] at h
    simp only at h
    split at h <;> simp [Res.exitCode?] at h

theorem iconStep_no_exit (w : World) (fl : Flags) (r : String) :
    (iconStep w fl r).exitCode? = none := by
  unfold iconStep
  simp only
  split
  · split <;> rfl
  · rfl

theorem run_exit (w : World) (fl : Flags) (c : Int)
    (h : (run w fl).exitCode? = some c) : c = -1 := by
  unfold run at h
  split at h
  · simp [Res.exitCode?] at h
  · simp only at h
    split at h
    · simp [Res.exitCode?] at h
    · split at h
      · simp [Res.exitCode?] at h
      · split at h
        · split at h <;> simp [Res.exitCode?] at h
        · split at h
          · simp [Res.exitCode?] at h
          · split at h
            · simp [Res.exitCode?] at h
            · split at h
              · simp [Res.exitCode?] at h
              · rename_i w5 _ _
                have hi := iconStep_no_exit w5 fl
                  (filepath.Join [filepath.Join [fl.name ++ ".app", "Contents"], "Resources"])
                split at h
                · rename_i hic
                  rw [hic] at hi
                  simp [Res.exitCode?] at hi
                · simp [Res.exitCode?] at h
                · split at h
                  · simp [Res.exitCode?] at h
                  · exact buildDMG_exit _ _ _ c h

/-- The ways in which `main` ends: a missing positional argument and every
error that `run` returns give status 2 with the error text on standard error;
the process ends otherwise only through `os.Exit(-1)` in `makeTemplateDMG`,
observed as status 255. -/
theorem main_status_cases (w : World) (fl : Flags) :
    (fl.args = [] →
      (main w fl).status = 2 ∧
      (main w fl).world.stderr = w.stderr ++ ["missing executable argument"]) ∧
    (∀ e, (run w fl).error? = some e →
      (main w fl).status = 2 ∧
      (main w fl).world.stderr = (run w fl).world.stderr ++ [e]) ∧
    (∀ c, (run w fl).exitCode? = some c →
      c = -1 ∧ (main w fl).status = 255 ∧ (main w fl).world = (run w fl).world) := by
  refine ⟨?_, ?_, ?_⟩
  · intro ha
    simp [main, run, ha, exitStatus]
  · intro e he
    unfold main
    cases hr : run w fl with
    | ok w1 a => rw [hr] at he; simp [Res.error?] at he
    | exit w1 c => rw [hr] at he; simp [Res.error?] at he
    | err w1 e1 =>
      rw [hr] at he
      simp only [Res.error?, Option.some.injEq] at he
      subst he
      simp [Res.world, exitStatus]
  · intro c hc
    have hc1 := run_exit w fl c hc
    refine ⟨hc1, ?_⟩
    unfold main
    cases hr : run w fl with
    | ok w1 a => rw [hr] at hc; simp [Res.exitCode?] at hc
    | err w1 e1 => rw [hr] at hc; simp [Res.exitCode?] at hc
    | exit w1 c1 =>
      rw [hr] at hc
      simp only [Res.exitCode?, Option.some.injEq] at hc
      subst hc
      subst hc1
      simp [exitStatus, Res.world]

/-- The two failures of `makeTemplateDMG`: it ends the process with
`os.Exit(-1)`, after the line `mkdir tmp dir error` on standard error when
`os.Mkdir("tmp")` fails, and after the error on standard output when
`hdiutil create` fails. -/
theorem makeTemplateDMG_failures (w : World) :
    ((osMkdir w "tmp" 0o777).2 ≠ none →
      (makeTemplateDMG w).exitCode? = some (-1) ∧
      (makeTemplateDMG w).world.stderr = w.stderr ++ ["mkdir tmp dir error\n"]) ∧
    ((osMkdir w "tmp" 0o777).2 = none →
      ∀ e, (w.cmd (createArgs "template")).err = some e →
      (makeTemplateDMG w).exitCode? = some (-1) ∧
      (makeTemplateDMG w).world.stderr = w.stderr ∧
      (makeTemplateDMG w).world.stdout = w.stdout ++ ["create dmg file error: " ++ e ++ "\n"]) := by
  refine ⟨?_, ?_⟩
  · intro hm
    have hfr := osMkdir_frame w "tmp" 0o777
    unfold makeTemplateDMG
    simp only
    split
    · rename_i w1 e h1
      rw [h1] at hfr
      have hfr : Frame w w1 := hfr
      simp [Res.exitCode?, Res.world, World.emit, hfr.stderr]
    · rename_i w1 h1
      rw [h1] at hm
      simp at hm
  · intro hm e he
    have hfr := osMkdir_frame w "tmp" 0o777
    unfold makeTemplateDMG
    simp only
    split
    · rename_i w1 e1 h1
      rw [h1] at hm
      simp at hm
    · rename_i w1 h1
      rw [h1] at hfr
      have hfr : Frame w w1 := hfr
      have hs := execCmd_snd (w1.emit (.mkdir "tmp" true)) (createArgs "template")
      have hcmd : (w1.emit (.mkdir "tmp" true)).cmd = w.cmd := hfr.cmd
      rw [hcmd] at hs
      have h1' : (execCmd (w1.emit (.mkdir "tmp" true)) (createArgs "template")).1.stderr =
          w.stderr := hfr.stderr
      have h2' : (execCmd (w1.emit (.mkdir "tmp" true)) (createArgs "template")).1.stdout =
          w.stdout := hfr.stdout
      split
      · rename_i w3 e3 o h3
        rw [h3] at hs h1' h2'
        simp only at hs h1' h2'
        rw [← hs] at he
        simp only [Option.some.injEq] at he
        subst he
        simp [Res.exitCode?, Res.world, World.emit, h1', h2']
      · rename_i w3 o h3
        rw [h3] at hs
        simp only at hs
        rw [← hs] at he
        simp at he

/-- C6 (failing inputs).  Two runs that fail in the template-image phase: with
a directory `tmp` already present, and with a failing `hdiutil create`.  The
process ends inside `makeTemplateDMG` through `os.Exit(-1)`: the status is 255,
not 2, and no wrapped error text reaches standard error (a fixed line in the
first run, nothing in the second, whose message goes to standard output); in
the second run the deferred `os.Remove("./tmp")` is skipped and `tmp` stays
behind.  The failures of the next phase, a refused `os.Mkdir("./tmp")` and a
failing `hdiutil attach` in `buildDMGFromTemplate`, are returned as errors and
end with status 2 and the wrapped error text on standard error. -/
theorem main_template_failure_exit_status :
    (main tmpExistsWorld demoFlags).status = 255 ∧
    (main tmpExistsWorld demoFlags).world.stderr = ["mkdir tmp dir error\n"] ∧
    (main tmpExistsWorld demoFlags).world.stdout = [] ∧
    (main createFailsWorld demoFlags).status = 255 ∧
    (main createFailsWorld demoFlags).world.stderr = [] ∧
    (main createFailsWorld demoFlags).world.stdout =
      ["create dmg file error: exit status 1\n"] ∧
    (main createFailsWorld demoFlags).world.fs.get "tmp" = some (.dir 0o755) ∧
    (main mkdirRefusedWorld demoFlags).status = 2 ∧
    (main mkdirRefusedWorld demoFlags).world.stderr =
      ["making temporary directory: mkdir ./tmp: permission denied"] ∧
    (main attachFailsWorld demoFlags).status = 2 ∧
    (main attachFailsWorld demoFlags).world.stderr =
      ["running hdiutil attach: exit status 1"] ∧
    (main attachFailsWorld demoFlags).world.fs.get "tmp" = none := by
  decide
/-! ## The manifest -/

theorem trimToks_infoPlistTemplate :
    trimToks false infoPlistTemplate =
      [ .text ("<?xml version=\"1.0\" encoding=\"UTF-8\"?>\n" ++
          "<!DOCTYPE plist PUBLIC \"-//Apple//DTD PLIST 1.0//EN\" " ++
          "\"http://www.apple.com/DTDs/PropertyList-1.0.dtd\">\n" ++
          "<plist version=\"1.0\">\n" ++
          "\t<dict>\n" ++
          "\t\t<key>CFBundlePackageType</key>\n" ++
          "\t\t<string>APPL</string>\n" ++
          "\t\t<key>CFBundleInfoDictionaryVersion</key>\n" ++
          "\t\t<string>6.0</string>\n" ++
          "\t\t<key>CFBundleName</key>\n" ++
          "\t\t<string>"),
        .action false (.print .Name) false,
        .text "</string>\n\t\t<key>CFBundleExecutable</key>\n\t\t<string>",
        .action false (.print .Executable) false,
        .text "</string>\n\t\t<key>CFBundleIdentifier</key>\n\t\t<string>",
        .action false (.print .Identifier) false,
        .text "</string>\n\t\t<key>CFBundleVersion</key>\n\t\t<string>",
        .action false (.print .Version) false,
        .text "</string>\n\t\t<key>CFBundleGetInfoString</key>\n\t\t<string>",
        .action false (.print .InfoString) false,
        .text "</string>\n\t\t<key>CFBundleShortVersionString</key>\n\t\t<string>",
        .action false (.print .ShortVersionString) false,
        .text "</string>\n\t\t",
        .action false (.ifField .IconFile) true,
        .text "<key>CFBundleIconFile</key>\n\t\t<string>",
        .action false (.print .IconFile) false,
        .text "</string>",
        .action true .endIf false,
        .text "\n\t\t<key>NSHighResolutionCapable</key>\n\t\t<true/>\n\t\t",
        .action false (.ifEq .Mode "tray") true,
        .text "<key>LSUIElement</key>\n\t\t<true/>",
        .action true .endIf false,
        .text "\n\t</dict>\n</plist>\n" ] := by
  rfl

/-- The rendered manifest: the head with the printed fields, the icon block
when `IconFile` is not empty, the fixed middle, the tray block when `Mode` is
`tray`, the closing. -/
theorem renderManifest_eq (d : infoListData) :
    renderManifest d =
      manifestHead d ++ ((if d.IconFile ≠ "" then iconBlock d.IconFile else "") ++
        manifestTail d.Mode) := by
  unfold renderManifest
  rw [trimToks_infoPlistTemplate]
  by_cases hi : d.IconFile = "" <;> by_cases hm : d.Mode = "tray" <;>
    simp [execToks, Field.get, hi, hm, manifestHead, manifestTail, iconBlock, trayBlock,
      manifestMiddle, manifestClosing, String.append_assoc, headLit0, headLit1, headLit2,
      headLit3, headLit4, headLit5, headLit6, iconOpen, iconClose]
/-! ## Occurrences of a marker in a text made of segments -/

theorem infix_append_cases {α : Type} (K A B : List α) (h : K <:+: A ++ B) :
    K <:+: A ∨ K <:+: B ∨
      ∃ j, 0 < j ∧ j < K.length ∧ K.take j <:+ A ∧ K.drop j <+: B := by
  obtain ⟨s, t, hst⟩ := h
  rcases List.append_eq_append_iff.1 hst with ⟨a1, h1, _⟩ | ⟨c1, h1, h2⟩
  · left
    exact ⟨s, a1, h1.symm⟩
  · rcases List.append_eq_append_iff.1 h1 with ⟨a2, h3, h4⟩ | ⟨c2, h3, h4⟩
    · -- A = s ++ a2, K = a2 ++ c1, B = c1 ++ t
      by_cases hc : a2 = []
      · subst hc
        right; left
        refine ⟨[], t, ?_⟩
        simp only [List.nil_append] at h4
        rw [h2, h4]; simp
      · by_cases ha : c1 = []
        · subst ha
          left
          refine ⟨s, [], ?_⟩
          simp only [List.append_nil] at h4
          rw [h3, h4]; simp
        · right; right
          refine ⟨a2.length, ?_, ?_, ?_, ?_⟩
          · exact List.length_pos.2 hc
          · rw [h4, List.length_append]
            have := List.length_pos.2 ha
            omega
          · rw [h4, List.take_left' rfl, h3]
            exact List.suffix_append s a2
          · rw [h4, List.drop_left' rfl, h2]
            exact List.prefix_append c1 t
    · -- s = A ++ c2, c1 = c2 ++ K
      right; left
      exact ⟨c2, t, by rw [h2, h4]⟩

theorem head_mem_of_occurs {c : Char} {K' f : List Char} (h : (c :: K') <:+: f) : c ∈ f := by
  obtain ⟨s, t, hst⟩ := h
  rw [← hst]
  simp

theorem head_mem_of_take_suffix {c : Char} {K' f : List Char} {j : Nat} (hj : 0 < j)
    (h : (c :: K').take j <:+ f) : c ∈ f := by
  obtain ⟨s, hs⟩ := h
  rw [← hs]
  cases j with
  | zero => omega
  | succ n => simp

/-- A marker that starts with `c` does not occur in a text woven from literals
that are safe for it and from values that do not contain `c`. -/
theorem not_infix_weave (c : Char) (K' : List Char) (lits : List (List Char)) :
    ∀ flds : List (List Char),
      (∀ l ∈ lits, safeLit (c :: K') l) → (∀ f ∈ flds, c ∉ f) →
      ¬ (c :: K') <:+: weave lits flds := by
  induction lits with
  | nil =>
    intro flds _ _ h
    simp [weave] at h
  | cons l ls ih =>
    intro flds hlit hfld h
    have hl := hlit l (List.mem_cons_self _ _)
    have hls : ∀ x ∈ ls, safeLit (c :: K') x := fun x hx => hlit x (List.mem_cons_of_mem _ hx)
    have hstep : ∀ R, ¬ (c :: K') <:+: R → ¬ (c :: K') <:+: l ++ R := by
      intro R hR hin
      rcases infix_append_cases _ _ _ hin with h1 | h2 | ⟨j, hj0, hj1, hj2, _⟩
      · exact hl.1 h1
      · exact hR h2
      · exact hl.2 j (List.mem_range.2 hj1) hj0 hj2
    cases flds with
    | nil =>
      simp only [weave] at h
      exact hstep _ (ih [] hls (by simp)) h
    | cons f fs =>
      simp only [weave] at h
      have hf := hfld f (List.mem_cons_self _ _)
      have hfs : ∀ x ∈ fs, c ∉ x := fun x hx => hfld x (List.mem_cons_of_mem _ hx)
      refine hstep _ ?_ h
      intro hin
      rcases infix_append_cases _ _ _ hin with h1 | h2 | ⟨j, hj0, _, hj2, _⟩
      · exact hf (head_mem_of_occurs h1)
      · exact ih fs hls hfs h2
      · exact hf (head_mem_of_take_suffix hj0 hj2)

theorem weave_append_nil (a b : List (List Char)) :
    weave (a ++ b) [] = weave a [] ++ weave b [] := by
  induction a with
  | nil => simp [weave]
  | cons l ls ih => simp [weave, ih]

theorem manifestHead_data (d : infoListData) (rest fs : List (List Char)) :
    (manifestHead d).data ++ weave rest fs =
      weave (headLits ++ rest) (headFields d ++ [] :: fs) := by
  simp only [manifestHead, headLits, headFields, weave, String.data_append, List.append_assoc,
    List.append_nil, List.cons_append, List.nil_append]
  rfl

set_option maxRecDepth 100000 in
theorem headLits_safe_tray : ∀ l ∈ headLits, safeLit trayMarker.data l := by
  unfold safeLit
  decide

set_option maxRecDepth 100000 in
theorem headLits_safe_icon : ∀ l ∈ headLits, safeLit iconMarker.data l := by
  unfold safeLit
  decide

/-! ## Paths that end in a plain name -/

namespace filepath

theorem splitSlash_ne_nil (s : List Char) : splitSlash s ≠ [] := by
  cases s with
  | nil => simp [splitSlash]
  | cons c cs =>
    unfold splitSlash
    split
    · simp
    · split <;> simp

theorem splitSlash_append_slash (a b : List Char) :
    splitSlash (a ++ '/' :: b) = splitSlash a ++ splitSlash b := by
  induction a with
  | nil => simp [splitSlash]
  | cons c cs ih =>
    by_cases hc : c = '/'
    · subst hc
      simp [splitSlash, ih]
    · simp only [List.cons_append, splitSlash, hc, if_false]
      rw [show cs.append ('/' :: b) = cs ++ '/' :: b from rfl, ih]
      cases h : splitSlash cs with
      | nil => exact absurd h (splitSlash_ne_nil cs)
      | cons x xs => simp

theorem splitSlash_name (n : List Char) (hn : '/' ∉ n) : splitSlash n = [n] := by
  induction n with
  | nil => rfl
  | cons c cs ih =>
    have hc : c ≠ '/' := fun h => hn (by simp [h])
    have hcs : '/' ∉ cs := fun h => hn (List.mem_cons_of_mem _ h)
    simp [splitSlash, hc, ih hcs]

theorem joinSlash_snoc (t : List (List Char)) (n : List Char) :
    joinSlash (t ++ [n]) = if t = [] then n else joinSlash t ++ '/' :: n := by
  induction t with
  | nil => simp [joinSlash]
  | cons x xs ih =>
    cases xs with
    | nil => simp [joinSlash]
    | cons y ys =>
      have hstep : joinSlash (x :: y :: ys ++ [n]) = x ++ '/' :: joinSlash (y :: ys ++ [n]) :=
        rfl
      have ih' : joinSlash (y :: ys ++ [n]) = joinSlash (y :: ys) ++ '/' :: n := by
        simpa using ih
      rw [hstep, ih']
      simp [joinSlash]

/-- A plain name: not empty, without `/`, and neither `.` nor `..`. -/
theorem cleanStep_name (rooted : Bool) (stack : List (List Char)) (n : List Char)
    (h0 : n ≠ []) (h1 : n ≠ ['.']) (h2 : n ≠ ['.', '.']) :
    cleanStep rooted stack n = n :: stack := by
  simp [cleanStep, h0, h1, h2]

/-- Cleaning a path that ends in `/` and a plain name keeps the name as the last
element: the result is the name itself or ends with `/` and the name. -/
theorem cleanL_append_name (r n : List Char) (hr : r ≠ [])
    (hs : '/' ∉ n) (h0 : n ≠ []) (h1 : n ≠ ['.']) (h2 : n ≠ ['.', '.']) :
    ∃ p, cleanL (r ++ '/' :: n) = p ++ n ∧ (p = [] ∨ p.getLast? = some '/') := by
  have hhead : (r ++ '/' :: n).head? = r.head? := by
    cases r with
    | nil => exact absurd rfl hr
    | cons c cs => rfl
  have helems : cleanElems (r ++ '/' :: n) =
      ((splitSlash r).foldl (cleanStep (r.head? = some '/')) []).reverse ++ [n] := by
    unfold cleanElems
    rw [hhead, splitSlash_append_slash, splitSlash_name n hs, List.foldl_append]
    simp [cleanStep_name _ _ n h0 h1 h2]
  unfold cleanL
  simp only [helems, hhead, joinSlash_snoc]
  generalize ((splitSlash r).foldl (cleanStep (r.head? = some '/')) []).reverse = t
  by_cases ht : t = []
  · subst ht
    simp only [if_true]
    split
    · exact ⟨['/'], rfl, Or.inr rfl⟩
    · exact ⟨[], rfl, Or.inl rfl⟩
  · rw [if_neg ht]
    split
    · refine ⟨'/' :: (joinSlash t ++ ['/']), by simp, Or.inr ?_⟩
      exact List.getLast?_concat ('/' :: joinSlash t)
    · refine ⟨joinSlash t ++ ['/'], by simp, Or.inr ?_⟩
      exact List.getLast?_concat (joinSlash t)

theorem cleanL_name (n : List Char) (hs : '/' ∉ n) (h0 : n ≠ []) (h1 : n ≠ ['.'])
    (h2 : n ≠ ['.', '.']) : cleanL n = n := by
  have hhead : n.head? ≠ some '/' := by
    cases n with
    | nil => simp
    | cons c cs =>
      simp only [List.head?_cons, ne_eq, Option.some.injEq]
      intro h
      exact hs (by simp [h])
  unfold cleanL cleanElems
  rw [splitSlash_name n hs]
  simp [cleanStep_name _ _ n h0 h1 h2, joinSlash, hhead, h0]

theorem joinL_pair_name (r n : List Char)
    (hs : '/' ∉ n) (h0 : n ≠ []) (h1 : n ≠ ['.']) (h2 : n ≠ ['.', '.']) :
    ∃ p, joinL [r, n] = p ++ n ∧ (p = [] ∨ p.getLast? = some '/') := by
  by_cases hr : r = []
  · subst hr
    refine ⟨[], ?_, Or.inl rfl⟩
    simp [joinL, h0, joinSlash, cleanL_name n hs h0 h1 h2]
  · simp only [joinL, hr, if_false, joinSlash]
    exact cleanL_append_name r n hr hs h0 h1 h2

theorem baseL_append_name (p n : List Char) (hs : '/' ∉ n) (h0 : n ≠ [])
    (hp : p = [] ∨ p.getLast? = some '/') : baseL (p ++ n) = n := by
  have hne : p ++ n ≠ [] := by simp [h0]
  have hall : ∀ c ∈ n.reverse, (decide (c ≠ '/')) = true := by
    intro c hc
    have : c ∈ n := List.mem_reverse.1 hc
    simp only [ne_eq, decide_not, Bool.not_eq_true', decide_eq_false_iff_not]
    intro h
    exact hs (h ▸ this)
  have hdrop : (p ++ n).reverse.dropWhile (fun c => decide (c = '/')) = (p ++ n).reverse := by
    rw [List.reverse_append]
    cases hrev : n.reverse with
    | nil => exact absurd (List.reverse_eq_nil_iff.1 hrev) h0
    | cons c cs =>
      have hc : c ∈ n := List.mem_reverse.1 (by rw [hrev]; simp)
      have hcne : c ≠ '/' := fun h => hs (h ▸ hc)
      simp [List.dropWhile, hcne]
  have htake : (p ++ n).reverse.takeWhile (fun c => decide (c ≠ '/')) = n.reverse := by
    rw [List.reverse_append]
    rcases hp with hp | hp
    · subst hp
      simp only [List.reverse_nil, List.append_nil]
      exact List.takeWhile_eq_self_iff.2 hall
    · obtain ⟨q, hq⟩ : ∃ q, p = q ++ ['/'] := by
        cases hq : p.reverse with
        | nil =>
          have : p = [] := List.reverse_eq_nil_iff.1 hq
          subst this
          simp at hp
        | cons c cs =>
          have hp' : p = cs.reverse ++ [c] := by
            have := congrArg List.reverse hq
            simpa using this
          rw [hp'] at hp
          simp at hp
          exact ⟨cs.reverse, by rw [hp', hp]⟩
      subst hq
      simp only [List.reverse_append, List.reverse_cons, List.reverse_nil, List.nil_append,
        List.singleton_append]
      rw [List.takeWhile_append_of_pos hall]
      simp [List.takeWhile]
  unfold baseL
  simp only [hne, if_false, lastPart, hdrop, List.reverse_reverse, htake, h0]

/-- The base name of `Join(r, "icon.icns")` is `icon.icns`, whatever `r` is. -/
theorem Base_Join_icon (r : String) : Base (Join [r, "icon.icns"]) = "icon.icns" := by
  obtain ⟨p, hp1, hp2⟩ := joinL_pair_name r.data ("icon.icns" : String).data
    (by decide) (by decide) (by decide) (by decide)
  unfold Base Join
  simp only [List.map_cons, List.map_nil, hp1]
  rw [baseL_append_name p _ (by decide) (by decide) hp2]

end filepath

/-! ## The tray block and the icon block of the manifest -/

theorem manifest_data_split (d : infoListData) :
    (renderManifest d).data =
      (manifestHead d).data ++ ((if d.IconFile ≠ "" then iconBlock d.IconFile else "").data ++
        (manifestMiddle.data ++ ((if d.Mode = "tray" then trayBlock else "").data ++
          manifestClosing.data))) := by
  rw [renderManifest_eq]
  simp only [manifestTail, String.data_append, List.append_assoc]

theorem tray_suffix_iff (d : infoListData) :
    (trayBlock ++ manifestClosing).data <:+ (renderManifest d).data ↔ d.Mode = "tray" := by
  rw [manifest_data_split]
  constructor
  · intro h
    by_contra hm
    rw [if_neg hm] at h
    have h2 : (manifestMiddle.data ++ manifestClosing.data) <:+
        (manifestHead d).data ++ ((if d.IconFile ≠ "" then iconBlock d.IconFile else "").data ++
          (manifestMiddle.data ++ (("" : String).data ++ manifestClosing.data))) :=
      ⟨(manifestHead d).data ++ (if d.IconFile ≠ "" then iconBlock d.IconFile else "").data,
        by simp⟩
    have h3 := List.suffix_of_suffix_length_le h h2 (by decide)
    revert h3
    decide
  · intro hm
    rw [if_pos hm]
    refine ⟨(manifestHead d).data ++ ((if d.IconFile ≠ "" then iconBlock d.IconFile else "").data ++
        manifestMiddle.data), ?_⟩
    simp [String.data_append]

theorem tray_lits_safe :
    ∀ l ∈ [iconOpen.data, iconClose.data, manifestMiddle.data, manifestClosing.data],
      safeLit trayMarker.data l := by
  unfold safeLit
  decide

theorem icon_lits_safe :
    ∀ l ∈ [manifestMiddle.data, trayBlock.data, manifestClosing.data],
      safeLit iconMarker.data l := by
  unfold safeLit
  decide

theorem headFields_clean (d : infoListData) (h : ∀ f : Field, '<' ∉ (f.get d).data) :
    ∀ x ∈ headFields d, '<' ∉ x := by
  intro x hx
  simp only [headFields, List.mem_cons, List.mem_singleton, List.not_mem_nil, or_false] at hx
  rcases hx with rfl | rfl | rfl | rfl | rfl | rfl
  · exact h .Name
  · exact h .Executable
  · exact h .Identifier
  · exact h .Version
  · exact h .InfoString
  · exact h .ShortVersionString

/-- Without `<` in the field values, the tray marker occurs in the manifest only
through the tray block. -/
theorem tray_marker_absent (d : infoListData) (h : ∀ f : Field, '<' ∉ (f.get d).data)
    (hm : d.Mode ≠ "tray") : ¬ trayMarker.data <:+: (renderManifest d).data := by
  rw [manifest_data_split, if_neg hm]
  have hK : trayMarker.data = '<' :: trayMarker.data.tail := rfl
  rw [hK]
  by_cases hi : d.IconFile = ""
  · have hform : ((if d.IconFile ≠ "" then iconBlock d.IconFile else "").data ++
        (manifestMiddle.data ++ (("" : String).data ++ manifestClosing.data))) =
        weave [manifestMiddle.data, manifestClosing.data] [] := by
      simp [hi, weave]
    rw [hform, manifestHead_data]
    apply not_infix_weave
    · intro l hl
      rw [← hK]
      rcases List.mem_append.1 hl with hl | hl
      · exact headLits_safe_tray l hl
      · exact tray_lits_safe l (by
          simp only [List.mem_cons, List.mem_singleton, List.not_mem_nil, or_false] at hl ⊢
          tauto)
    · intro f hf
      rcases List.mem_append.1 hf with hf | hf
      · exact headFields_clean d h f hf
      · simp only [List.mem_cons, List.mem_singleton, List.not_mem_nil, or_false] at hf
        subst hf
        simp
  · have hform : ((if d.IconFile ≠ "" then iconBlock d.IconFile else "").data ++
        (manifestMiddle.data ++ (("" : String).data ++ manifestClosing.data))) =
        weave [iconOpen.data, iconClose.data, manifestMiddle.data, manifestClosing.data]
          [d.IconFile.data] := by
      simp [hi, weave, iconBlock, String.data_append]
    rw [hform, manifestHead_data]
    apply not_infix_weave
    · intro l hl
      rw [← hK]
      rcases List.mem_append.1 hl with hl | hl
      · exact headLits_safe_tray l hl
      · exact tray_lits_safe l hl
    · intro f hf
      rcases List.mem_append.1 hf with hf | hf
      · exact headFields_clean d h f hf
      · simp only [List.mem_cons, List.mem_singleton, List.not_mem_nil, or_false] at hf
        rcases hf with rfl | rfl
        · simp
        · exact h .IconFile

theorem tray_marker_present (d : infoListData) (hm : d.Mode = "tray") :
    trayMarker.data <:+: (renderManifest d).data := by
  rw [manifest_data_split, if_pos hm]
  have : trayBlock.data = trayMarker.data ++ "\n\t\t<true/>".data := by decide
  rw [this]
  exact ⟨(manifestHead d).data ++ ((if d.IconFile ≠ "" then iconBlock d.IconFile else "").data ++
    manifestMiddle.data), "\n\t\t<true/>".data ++ manifestClosing.data, by simp⟩

/-- C7.  For every template input the manifest is the head with the printed
fields, the icon block if any, the fixed middle text, the tray block exactly
when `Mode` is `tray`, and the closing text.  Hence the manifest ends with the
tray block followed by the closing text if and only if `Mode` is `tray`; and
when no field value contains `<`, the key `LSUIElement` occurs in the manifest
if and only if `Mode` is `tray`. -/
theorem renderManifest_tray_block (d : infoListData) :
    renderManifest d =
      manifestHead d ++ ((if d.IconFile ≠ "" then iconBlock d.IconFile else "") ++
        (manifestMiddle ++ (if d.Mode = "tray" then trayBlock else "") ++ manifestClosing)) ∧
    ((trayBlock ++ manifestClosing).data <:+ (renderManifest d).data ↔ d.Mode = "tray") ∧
    ((∀ f : Field, '<' ∉ (f.get d).data) →
      (trayMarker.data <:+: (renderManifest d).data ↔ d.Mode = "tray")) := by
  refine ⟨renderManifest_eq d, tray_suffix_iff d, fun h => ⟨?_, tray_marker_present d⟩⟩
  intro hin
  by_contra hm
  exact tray_marker_absent d h hm hin

/-- C7 (witness).  The manifest of the demo input in normal mode and in tray
mode. -/
theorem renderManifest_tray_block_witness :
    (∀ f : Field, '<' ∉ (f.get demoInfo).data) ∧
    ¬ trayMarker.data <:+: (renderManifest demoInfo).data ∧
    trayMarker.data <:+: (renderManifest { demoInfo with Mode := "tray" }).data :=
  ⟨by intro f; cases f <;> decide,
   fun h => absurd (((renderManifest_tray_block demoInfo).2.2
     (by intro f; cases f <;> decide)).1 h) (by decide),
   ((renderManifest_tray_block { demoInfo with Mode := "tray" }).2.2
     (by intro f; cases f <;> decide)).2 rfl⟩

theorem prepareIcons_path (w : World) (iconPath resourcesPath : String)
    (h : (prepareIcons w iconPath resourcesPath).2.2 = none) :
    (prepareIcons w iconPath resourcesPath).2.1 = filepath.Join [resourcesPath, "icon.icns"] := by
  unfold prepareIcons at h ⊢
  simp only at h ⊢
  split
  · rename_i e he
    simp only [he] at h
    split at h <;> simp at h
  · rename_i he
    simp only [he] at h
    split
    · rename_i w1 e h1
      simp only [h1] at h
      simp at h
    · rename_i w1 h1
      simp only [h1] at h
      split
      · rename_i w2 e h2
        simp only [h2] at h
        simp at h
      · rename_i w2 h2
        simp only [h2] at h
        split
        · split <;> rfl
        · split
          · split
            · rfl
            · split
              · rfl
              · split <;> rfl
          · rfl

theorem icon_suffix_iff (d : infoListData) :
    (∃ f, (iconBlock f ++ manifestTail d.Mode).data <:+ (renderManifest d).data) ↔
      d.IconFile ≠ "" := by
  rw [renderManifest_eq]
  constructor
  · rintro ⟨f, s, hs⟩ hi
    have hi' : ¬ d.IconFile ≠ "" := fun h => h hi
    rw [if_neg hi'] at hs
    simp only [String.data_append, iconBlock, ← List.append_assoc] at hs
    have h1 := List.append_cancel_right hs
    have h2 : ['>'] <:+ (manifestHead d).data := by
      simp only [List.append_nil] at h1
      rw [← h1]
      refine ⟨s ++ iconOpen.data ++ f.data ++ "</string".data, ?_⟩
      have : iconClose.data = "</string".data ++ ['>'] := by decide
      rw [this]
      simp
    have h3 : ['\t'] <:+ (manifestHead d).data := by
      refine ⟨(headLit0 ++ d.Name ++ headLit1 ++ d.Executable ++ headLit2 ++ d.Identifier ++
        headLit3 ++ d.Version ++ headLit4 ++ d.InfoString ++ headLit5 ++
        d.ShortVersionString).data ++ "</string>\n\t".data, ?_⟩
      have : headLit6.data = "</string>\n\t".data ++ ['\t'] := by decide
      simp only [manifestHead, String.data_append, this, List.append_assoc]
    have h4 := List.suffix_of_suffix_length_le h2 h3 (by decide)
    revert h4
    decide
  · intro hi
    rw [if_pos hi]
    exact ⟨d.IconFile, (manifestHead d).data, by simp [String.data_append]⟩

/-- Without `<` in the field values, the icon key occurs in the manifest only
through the icon block. -/
theorem icon_marker_absent (d : infoListData) (h : ∀ f : Field, '<' ∉ (f.get d).data)
    (hi : d.IconFile = "") : ¬ iconMarker.data <:+: (renderManifest d).data := by
  rw [manifest_data_split]
  have hi' : ¬ d.IconFile ≠ "" := fun h => h hi
  rw [if_neg hi']
  have hK : iconMarker.data = '<' :: iconMarker.data.tail := rfl
  rw [hK]
  have hform : ((("" : String).data ++
      (manifestMiddle.data ++ ((if d.Mode = "tray" then trayBlock else "").data ++
        manifestClosing.data)))) =
      weave [manifestMiddle.data, (if d.Mode = "tray" then trayBlock else "").data,
        manifestClosing.data] [] := by
    simp [weave]
  rw [hform, manifestHead_data]
  apply not_infix_weave
  · intro l hl
    rw [← hK]
    rcases List.mem_append.1 hl with hl | hl
    · exact headLits_safe_icon l hl
    · by_cases hm : d.Mode = "tray"
      · rw [if_pos hm] at hl
        exact icon_lits_safe l hl
      · rw [if_neg hm] at hl
        simp only [List.mem_cons, List.mem_singleton, List.not_mem_nil, or_false] at hl
        rcases hl with rfl | rfl | rfl
        · exact icon_lits_safe _ (by simp)
        · unfold safeLit; decide
        · exact icon_lits_safe _ (by simp)
  · intro f hf
    rcases List.mem_append.1 hf with hf | hf
    · exact headFields_clean d h f hf
    · simp only [List.mem_cons, List.mem_singleton, List.not_mem_nil, or_false] at hf
      subst hf
      simp

theorem icon_marker_present (d : infoListData) (hi : d.IconFile ≠ "") :
    iconMarker.data <:+: (renderManifest d).data := by
  rw [manifest_data_split, if_pos hi]
  have : iconOpen.data = iconMarker.data ++ "\n\t\t<string>".data := by decide
  simp only [iconBlock, String.data_append, this, List.append_assoc]
  exact List.infix_append' _ _ _

theorem osWrite_ok_file (w : World) (dst data : String) (h : (osWrite w dst data).2 = none) :
    ∃ m d, (osWrite w dst data).1.fs.get (filepath.Clean dst) = some (.file m d) := by
  unfold osWrite at h ⊢
  cases he : w.fault (.write dst) with
  | some e => simp [he] at h
  | none =>
    simp only [he] at h ⊢
    cases hg : w.fs.get (filepath.Clean dst) with
    | none => simp [hg] at h
    | some n =>
      cases n with
      | dir m => simp [hg] at h
      | file m old => exact ⟨m, old ++ data, by simp [World.withFS, FS.get_set]⟩

theorem ioCopy_ok_file (w : World) (dst src : String) (h : (ioCopy w dst src).2 = none) :
    ∃ m d, (ioCopy w dst src).1.fs.get (filepath.Clean dst) = some (.file m d) := by
  unfold ioCopy at h ⊢
  split
  · rename_i e he
    simp [he] at h
  · rename_i data he
    simp only [he] at h
    exact osWrite_ok_file w dst data h

/-- A successful `prepareIcons` leaves a regular file at
`Join(resourcesPath, "icon.icns")`. -/
theorem prepareIcons_creates (w : World) (iconPath resourcesPath : String)
    (h : (prepareIcons w iconPath resourcesPath).2.2 = none) :
    ∃ m d, (prepareIcons w iconPath resourcesPath).1.fs.get
      (filepath.Clean (filepath.Join [resourcesPath, "icon.icns"])) = some (.file m d) := by
  unfold prepareIcons at h ⊢
  simp only at h ⊢
  split
  · rename_i e he
    simp only [he] at h
    split at h <;> simp at h
  · rename_i he
    simp only [he] at h
    split
    · rename_i w1 e h1
      simp only [h1] at h
      simp at h
    · rename_i w1 h1
      simp only [h1] at h
      split
      · rename_i w2 e h2
        simp only [h2] at h
        simp at h
      · rename_i w2 h2
        simp only [h2] at h
        split
        · rename_i hext
          simp only [hext, if_true] at h
          have hc := ioCopy_ok_file w2 (filepath.Join [resourcesPath, "icon.icns"]) iconPath
          generalize ioCopy w2 (filepath.Join [resourcesPath, "icon.icns"]) iconPath = r at h hc ⊢
          obtain ⟨w3, res⟩ := r
          cases res with
          | some e => simp at h
          | none => exact hc rfl
        · rename_i hext
          simp only [hext, if_false] at h
          split
          · rename_i himg
            simp only [himg, if_true] at h
            split
            · rename_i e hd
              simp [hd] at h
            · rename_i img hd
              simp only [hd] at h
              split
              · rename_i e hen
                simp [hen] at h
              · rename_i icns hen
                simp only [hen] at h
                have hc := osWrite_ok_file w2 (filepath.Join [resourcesPath, "icon.icns"]) icns
                generalize osWrite w2 (filepath.Join [resourcesPath, "icon.icns"]) icns = r
                  at h hc ⊢
                obtain ⟨w3, res⟩ := r
                cases res with
                | some e => simp at h
                | none => exact hc rfl
          · rename_i himg
            simp [himg] at h

set_option maxRecDepth 100000 in
/-- The run with the version text that carries an icon key succeeds and writes
the rendered manifest to `Info.plist`. -/
theorem keyInVersion_run :
    (main demoWorld keyInVersionFlags).status = 0 ∧
    (main demoWorld keyInVersionFlags).world.fs.get "Demo.app/Contents/Info.plist" =
      some (.file 0o644 (renderManifest (baseInfo keyInVersionFlags))) := by
  refine ⟨?_, ?_⟩
  · decide
  · decide

/-- C8 (counterexample).  No icon option is given, `run` leaves `IconFile`
empty, and the manifest written to `Info.plist` nevertheless contains the key
`CFBundleIconFile`, in a whole icon block with the value `icon.icns`: the
version text carries it, and the template prints field values as they are. -/
theorem manifest_icon_key_without_icon_option :
    keyInVersionFlags.icon = "" ∧
    (iconStep demoWorld keyInVersionFlags "Demo.app/Contents/Resources").value? =
      some (baseInfo keyInVersionFlags) ∧
    (baseInfo keyInVersionFlags).IconFile = "" ∧
    iconMarker.data <:+: (renderManifest (baseInfo keyInVersionFlags)).data ∧
    (iconBlock "icon.icns").data <:+: (renderManifest (baseInfo keyInVersionFlags)).data ∧
    (main demoWorld keyInVersionFlags).status = 0 ∧
    (main demoWorld keyInVersionFlags).world.fs.get "Demo.app/Contents/Info.plist" =
      some (.file 0o644 (renderManifest (baseInfo keyInVersionFlags))) := by
  have hv : (iconBlock "icon.icns").data <:+:
      keyInVersionFlags.version.data ++ headLit4.data :=
    ⟨"1.0</string>\n\t\t".data,
      "\n\t\t<key>CFBundleGetInfoString</key>\n\t\t<string>".data, by decide⟩
  have hk : iconMarker.data <:+: (iconBlock "icon.icns").data :=
    ⟨[], "\n\t\t<string>icon.icns</string>".data, by decide⟩
  have hm : (keyInVersionFlags.version.data ++ headLit4.data) <:+:
      (renderManifest (baseInfo keyInVersionFlags)).data := by
    rw [renderManifest_eq]
    refine ⟨(headLit0 ++ (baseInfo keyInVersionFlags).Name ++ headLit1 ++
      (baseInfo keyInVersionFlags).Executable ++ headLit2 ++
      (baseInfo keyInVersionFlags).Identifier ++ headLit3).data, ?_, ?_⟩
    · exact ((baseInfo keyInVersionFlags).InfoString ++ headLit5 ++
        (baseInfo keyInVersionFlags).ShortVersionString ++ headLit6 ++
        ((if (baseInfo keyInVersionFlags).IconFile ≠ "" then
            iconBlock (baseInfo keyInVersionFlags).IconFile else "") ++
          manifestTail (baseInfo keyInVersionFlags).Mode)).data
    · simp only [manifestHead, baseInfo, String.data_append, List.append_assoc]
  exact ⟨rfl, by decide, rfl, hk.trans (hv.trans hm), hv.trans hm, keyInVersion_run.1,
    keyInVersion_run.2⟩

/-- C8 (amended).  Without an icon option `run` leaves `IconFile` empty and
the template emits no icon block: the manifest does not end with an icon block
followed by the rest of the template, and when no field value contains `<` the
key `CFBundleIconFile` does not occur in it at all.  With an icon option and a
successful `prepareIcons`, a regular file has been created at
`Join(resourcesPath, "icon.icns")`, `IconFile` is exactly `icon.icns`, its base
name, and the manifest holds the icon block with that value. -/
theorem iconStep_manifest_icon_key (w : World) (fl : Flags) (resourcesPath : String) :
    (fl.icon = "" →
      (iconStep w fl resourcesPath).value? = some (baseInfo fl) ∧
      (baseInfo fl).IconFile = "" ∧
      (∀ f, ¬ (iconBlock f ++ manifestTail fl.mode).data <:+
        (renderManifest (baseInfo fl)).data) ∧
      ((∀ f : Field, '<' ∉ (f.get (baseInfo fl)).data) →
        ¬ iconMarker.data <:+: (renderManifest (baseInfo fl)).data)) ∧
    (fl.icon ≠ "" → (prepareIcons w fl.icon resourcesPath).2.2 = none →
      (prepareIcons w fl.icon resourcesPath).2.1 =
        filepath.Join [resourcesPath, "icon.icns"] ∧
      (∃ m d, (prepareIcons w fl.icon resourcesPath).1.fs.get
        (filepath.Clean (filepath.Join [resourcesPath, "icon.icns"])) = some (.file m d)) ∧
      (iconStep w fl resourcesPath).value? =
        some { baseInfo fl with IconFile := "icon.icns" } ∧
      renderManifest { baseInfo fl with IconFile := "icon.icns" } =
        manifestHead (baseInfo fl) ++ (iconBlock "icon.icns" ++ manifestTail fl.mode) ∧
      iconMarker.data <:+: (renderManifest { baseInfo fl with IconFile := "icon.icns" }).data) := by
  refine ⟨?_, ?_⟩
  · intro hi
    refine ⟨?_, rfl, ?_, ?_⟩
    · simp [iconStep, hi, Res.value?]
    · intro f hf
      exact (icon_suffix_iff (baseInfo fl)).1 ⟨f, hf⟩ rfl
    · intro h
      exact icon_marker_absent (baseInfo fl) h rfl
  · intro hi hok
    have hpath := prepareIcons_path w fl.icon resourcesPath hok
    refine ⟨hpath, prepareIcons_creates w fl.icon resourcesPath hok, ?_, ?_, ?_⟩
    · unfold iconStep
      simp only [hi, ne_eq, not_false_eq_true, if_true]
      generalize prepareIcons w fl.icon resourcesPath = r at hok hpath
      obtain ⟨w1, p, e⟩ := r
      simp only at hok hpath
      subst hok
      simp only [Res.value?, hpath, filepath.Base_Join_icon]
    · rw [renderManifest_eq]
      have : ({ baseInfo fl with IconFile := "icon.icns" } : infoListData).IconFile ≠ "" := by
        show ("icon.icns" : String) ≠ ""
        decide
      rw [if_pos this]
      rfl
    · exact icon_marker_present _ (by show ("icon.icns" : String) ≠ ""; decide)

/-- C8 (witness).  The demo command line without an icon and with the icon
`logo.png`. -/
theorem iconStep_manifest_icon_key_witness :
    (∀ f : Field, '<' ∉ (f.get (baseInfo demoFlags)).data) ∧
    ¬ iconMarker.data <:+: (renderManifest (baseInfo demoFlags)).data ∧
    (prepareIcons demoWorld "logo.png" "Demo.app/Contents/Resources").2.2 = none ∧
    (iconStep demoWorld { demoFlags with icon := "logo.png" }
      "Demo.app/Contents/Resources").value? =
      some { baseInfo demoFlags with IconFile := "icon.icns" } ∧
    (prepareIcons demoWorld "logo.png" "Demo.app/Contents/Resources").1.fs.get
      "Demo.app/Contents/Resources/icon.icns" = some (.file 0o644 "icnsPNG") :=
  ⟨by intro f; cases f <;> decide,
   ((iconStep_manifest_icon_key demoWorld demoFlags "Demo.app/Contents/Resources").1 rfl).2.2.2
     (by intro f; cases f <;> decide),
   by decide,
   ((iconStep_manifest_icon_key demoWorld { demoFlags with icon := "logo.png" }
     "Demo.app/Contents/Resources").2 (by decide) (by decide)).2.2.1,
   by decide⟩
/-! ## `prepareIcons` on an unsupported extension -/

/-- C9 (counterexample).  The source `logo.bmp` exists and is readable and its
extension is not supported, but the resources path is a regular file: the
error is the one of `os.MkdirAll`, not the unsupported-format error. -/
theorem prepareIcons_mkdir_failure_not_unsupported :
    osOpen resFileWorld "logo.bmp" = none ∧
    filepath.Ext (resFileWorld.lower "logo.bmp") = ".bmp" ∧
    (prepareIcons resFileWorld "logo.bmp" "res").2.2 =
      some "os.MkdirAll resourcesPath: mkdir res: not a directory" := by
  decide

theorem osOpenTrunc_ok_get (w : World) (p : String) (perm : Nat)
    (h : (osOpenTrunc w p perm).2 = none) :
    ∃ m, (osOpenTrunc w p perm).1.fs.get (filepath.Clean p) = some (.file m "") := by
  unfold osOpenTrunc at h ⊢
  split
  · rename_i e he
    simp [he] at h
  · rename_i he
    simp only [he] at h
    simp only at h ⊢
    split
    · rename_i m d hg
      exact ⟨m, by simp [World.withFS, FS.get_set]⟩
    · rename_i m hg
      simp [hg] at h
    · rename_i hg
      simp only [hg] at h
      split
      · exact ⟨w.masked perm, by simp [World.withFS, FS.get_set]⟩
      · rename_i hd
        simp [hd] at h

/-- C9 (amended).  For a source that can be opened and whose lower-cased
extension is none of `.icns`, `.png`, `.jpg`, `.jpeg`, `.gif`: when
`os.MkdirAll` of the resources path fails, or `os.Create` of `icon.icns`
fails, `prepareIcons` returns that error; otherwise it returns the path
`Join(resourcesPath, "icon.icns")` with the error `<ext> icons not supported`,
and `icon.icns` is an empty file. -/
theorem prepareIcons_unsupported (w : World) (iconPath resourcesPath : String)
    (hopen : osOpen w iconPath = none)
    (hext : filepath.Ext (w.lower iconPath) ≠ ".icns" ∧
      filepath.Ext (w.lower iconPath) ≠ ".png" ∧ filepath.Ext (w.lower iconPath) ≠ ".jpg" ∧
      filepath.Ext (w.lower iconPath) ≠ ".jpeg" ∧ filepath.Ext (w.lower iconPath) ≠ ".gif") :
    (∀ e, (osMkdirAll w resourcesPath 0o777).2 = some e →
      (prepareIcons w iconPath resourcesPath).2.2 =
        some ("os.MkdirAll resourcesPath: " ++ e.msg)) ∧
    ((osMkdirAll w resourcesPath 0o777).2 = none →
      ∀ e, (osOpenTrunc (osMkdirAll w resourcesPath 0o777).1
          (filepath.Join [resourcesPath, "icon.icns"]) 0o666).2 = some e →
      (prepareIcons w iconPath resourcesPath).2.2 =
        some ("create icon.icns file: " ++ e.msg)) ∧
    ((osMkdirAll w resourcesPath 0o777).2 = none →
      (osOpenTrunc (osMkdirAll w resourcesPath 0o777).1
          (filepath.Join [resourcesPath, "icon.icns"]) 0o666).2 = none →
      (prepareIcons w iconPath resourcesPath).2.2 =
        some (filepath.Ext (w.lower iconPath) ++ " icons not supported") ∧
      (prepareIcons w iconPath resourcesPath).2.1 =
        filepath.Join [resourcesPath, "icon.icns"] ∧
      ∃ m, (prepareIcons w iconPath resourcesPath).1.fs.get
          (filepath.Clean (filepath.Join [resourcesPath, "icon.icns"])) =
        some (.file m "")) := by
  obtain ⟨h1, h2, h3, h4, h5⟩ := hext
  refine ⟨?_, ?_, ?_⟩
  · intro e he
    unfold prepareIcons
    simp only [hopen]
    generalize osMkdirAll w resourcesPath 0o777 = r at he
    obtain ⟨w1, r1⟩ := r
    simp only at he
    subst he
    rfl
  · intro hmk e he
    unfold prepareIcons
    simp only [hopen]
    generalize osMkdirAll w resourcesPath 0o777 = r at hmk he
    obtain ⟨w1, r1⟩ := r
    simp only at hmk he
    subst hmk
    simp only
    generalize osOpenTrunc w1 (filepath.Join [resourcesPath, "icon.icns"]) 0o666 = r2 at he
    obtain ⟨w2, r2'⟩ := r2
    simp only at he
    subst he
    rfl
  · intro hmk hcr
    have hget := osOpenTrunc_ok_get (osMkdirAll w resourcesPath 0o777).1
      (filepath.Join [resourcesPath, "icon.icns"]) 0o666 hcr
    unfold prepareIcons
    simp only [hopen]
    generalize osMkdirAll w resourcesPath 0o777 = r at hmk hcr hget
    obtain ⟨w1, r1⟩ := r
    simp only at hmk hcr hget
    subst hmk
    simp only
    generalize osOpenTrunc w1 (filepath.Join [resourcesPath, "icon.icns"]) 0o666 = r2
      at hcr hget
    obtain ⟨w2, r2'⟩ := r2
    simp only at hcr hget
    subst hcr
    simp only [h1, h2, h3, h4, h5, if_false, or_self]
    exact ⟨trivial, trivial, hget⟩

/-- C9 (witness).  `logo.bmp` in the demo working directory: with a resources
path that can be created, with one that is a regular file, and with an
`icon.icns` that is a directory. -/
theorem prepareIcons_unsupported_witness :
    osOpen demoWorld "logo.bmp" = none ∧
    (prepareIcons demoWorld "logo.bmp" "Demo.app/Contents/Resources").2.2 =
      some ".bmp icons not supported" ∧
    (∃ m, (prepareIcons demoWorld "logo.bmp" "Demo.app/Contents/Resources").1.fs.get
        (filepath.Clean (filepath.Join ["Demo.app/Contents/Resources", "icon.icns"])) =
      some (.file m "")) ∧
    (prepareIcons resFileWorld "logo.bmp" "res").2.2 =
      some ("os.MkdirAll resourcesPath: " ++ "mkdir res: not a directory") ∧
    (prepareIcons iconDirWorld "logo.bmp" "res").2.2 =
      some ("create icon.icns file: " ++ "open res/icon.icns: is a directory") :=
  ⟨by decide,
   ((prepareIcons_unsupported demoWorld "logo.bmp" "Demo.app/Contents/Resources" (by decide)
     (by decide)).2.2 (by decide) (by decide)).1,
   ((prepareIcons_unsupported demoWorld "logo.bmp" "Demo.app/Contents/Resources" (by decide)
     (by decide)).2.2 (by decide) (by decide)).2.2,
   (prepareIcons_unsupported resFileWorld "logo.bmp" "res" (by decide) (by decide)).1
     ⟨false, "mkdir res: not a directory"⟩ (by decide),
   (prepareIcons_unsupported iconDirWorld "logo.bmp" "res" (by decide) (by decide)).2.1
     (by decide) ⟨false, "open res/icon.icns: is a directory"⟩ (by decide)⟩

/-! ## The destination path of `deepCopy` -/

/-- C10 (failing input).  For the source `.foo.app` (a relative name that begins
with a dot, so that `Dir` is `.`), `TrimPrefix(path, Dir(from))` removes the
dot of the name: the computed destinations are `tmp/foo.app` and
`tmp/foo.app/Contents`, not `Join(to, Base(from), r)`, and `deepCopy` creates
the tree under `tmp/foo.app`. -/
theorem destOf_dot_name_drops_dot :
    filepath.Dir ".foo.app" = "." ∧
    destOf ".foo.app" "./tmp" ".foo.app" = "tmp/foo.app" ∧
    destOf ".foo.app" "./tmp" ".foo.app/Contents" = "tmp/foo.app/Contents" ∧
    filepath.Join ["./tmp", filepath.Base ".foo.app", "Contents"] = "tmp/.foo.app/Contents" ∧
    (deepCopy dotWorld ".foo.app" "./tmp").2 = none ∧
    (deepCopy dotWorld ".foo.app" "./tmp").1.fs.get "tmp/foo.app/Contents/Info.plist" =
      some (.file 0o644 "plist") ∧
    (deepCopy dotWorld ".foo.app" "./tmp").1.fs.get "tmp/.foo.app" = none := by
  decide

/-! ## The destination below a plain source name -/

theorem dirPart_name (s : List Char) (h : '/' ∉ s) : filepath.dirPart s = [] := by
  unfold filepath.dirPart
  have : s.reverse.dropWhile (fun c => decide (c ≠ '/')) = [] := by
    rw [List.dropWhile_eq_nil_iff]
    intro c hc
    have hc' : c ∈ s := List.mem_reverse.1 hc
    simp only [ne_eq, decide_not, Bool.not_eq_true', decide_eq_false_iff_not]
    intro heq
    exact h (heq ▸ hc')
  rw [this]
  rfl

theorem Dir_name (s : String) (h : '/' ∉ s.data) : filepath.Dir s = "." := by
  unfold filepath.Dir filepath.dirL
  rw [dirPart_name s.data h]
  rfl

theorem trimPrefixL_dot (s : List Char) (h : s.head? ≠ some '.') :
    strings.trimPrefixL s ['.'] = s := by
  unfold strings.trimPrefixL
  cases s with
  | nil => simp
  | cons c cs =>
    have hc : c ≠ '.' := by
      intro heq
      apply h
      rw [heq]
      rfl
    have hc' : ¬ '.' = c := fun heq => hc heq.symm
    simp [List.isPrefixOf, hc']
/-! ## Cleaned paths as lists of plain elements -/

theorem splitSlash_no_slash (s : List Char) : ∀ e ∈ filepath.splitSlash s, '/' ∉ e := by
  induction s with
  | nil => simp [filepath.splitSlash]
  | cons c cs ih =>
    intro e he
    unfold filepath.splitSlash at he
    by_cases hc : c = '/'
    · simp only [hc, if_true, List.mem_cons] at he
      rcases he with rfl | he
      · simp
      · exact ih e he
    · simp only [hc, if_false] at he
      cases hs : filepath.splitSlash cs with
      | nil =>
        simp only [hs, List.mem_singleton] at he
        subst he
        simpa using fun h => hc h.symm
      | cons x xs =>
        simp only [hs, List.mem_cons] at he
        rcases he with rfl | he
        · have hx := ih x (by rw [hs]; exact List.mem_cons_self _ _)
          simp only [List.mem_cons, not_or]
          exact ⟨fun h => hc h.symm, hx⟩
        · exact ih e (by rw [hs]; exact List.mem_cons_of_mem _ he)

theorem splitSlash_joinSlash (es : List (List Char)) (hne : es ≠ [])
    (h : ∀ e ∈ es, '/' ∉ e) : filepath.splitSlash (filepath.joinSlash es) = es := by
  induction es with
  | nil => exact absurd rfl hne
  | cons x xs ih =>
    cases xs with
    | nil =>
      simp only [filepath.joinSlash]
      exact filepath.splitSlash_name x (h x (List.mem_cons_self _ _))
    | cons y ys =>
      simp only [filepath.joinSlash]
      rw [filepath.splitSlash_append_slash,
        filepath.splitSlash_name x (h x (List.mem_cons_self _ _)),
        ih (by simp) (fun e he => h e (List.mem_cons_of_mem _ he))]
      rfl

theorem foldl_cleanStep_plain (rooted : Bool) (es : List (List Char))
    (h : ∀ e ∈ es, plain e) :
    ∀ st, es.foldl (filepath.cleanStep rooted) st = es.reverse ++ st := by
  induction es with
  | nil => intro st; rfl
  | cons e rest ih =>
    intro st
    obtain ⟨h0, _, h1, h2⟩ := h e (List.mem_cons_self _ _)
    simp only [List.foldl_cons, filepath.cleanStep_name rooted st e h0 h1 h2,
      ih (fun x hx => h x (List.mem_cons_of_mem _ hx)), List.reverse_cons, List.append_assoc,
      List.singleton_append]

theorem cleanStep_ok (rooted : Bool) (st : List (List Char)) (e : List Char)
    (hst : StackOK st) (he : '/' ∉ e) : StackOK (filepath.cleanStep rooted st e) := by
  unfold filepath.cleanStep
  split
  · exact hst
  · rename_i hne
    simp only [not_or] at hne
    split
    · rename_i hdd
      cases st with
      | nil =>
        simp only
        split
        · exact hst
        · refine ⟨?_, by simp⟩
          intro x hx
          simp only [List.mem_singleton] at hx
          subst hx
          exact ⟨hne.1, he, hne.2⟩
      | cons top rest =>
        simp only
        split
        · rename_i htop
          refine ⟨?_, ?_⟩
          · intro x hx
            rcases List.mem_cons.1 hx with rfl | hx
            · exact ⟨hne.1, he, hne.2⟩
            · exact hst.1 x hx
          · refine List.pairwise_cons.2 ⟨?_, hst.2⟩
            intro b hb _
            rcases List.mem_cons.1 hb with rfl | hb
            · exact htop
            · exact (List.pairwise_cons.1 hst.2).1 b hb htop
        · refine ⟨fun x hx => hst.1 x (List.mem_cons_of_mem _ hx), ?_⟩
          exact (List.pairwise_cons.1 hst.2).2
    · rename_i hdd
      refine ⟨?_, ?_⟩
      · intro x hx
        rcases List.mem_cons.1 hx with rfl | hx
        · exact ⟨hne.1, he, hne.2⟩
        · exact hst.1 x hx
      · refine List.pairwise_cons.2 ⟨?_, hst.2⟩
        intro b _ hb
        exact absurd hb hdd

theorem foldl_cleanStep_ok (rooted : Bool) (es : List (List Char))
    (h : ∀ e ∈ es, '/' ∉ e) : ∀ st, StackOK st → StackOK (es.foldl (filepath.cleanStep rooted) st) := by
  induction es with
  | nil => intro st hst; exact hst
  | cons e rest ih =>
    intro st hst
    simp only [List.foldl_cons]
    exact ih (fun x hx => h x (List.mem_cons_of_mem _ hx)) _
      (cleanStep_ok rooted st e hst (h e (List.mem_cons_self _ _)))

/-- When the first element that `Clean` keeps is not `..`, all kept elements are
plain. -/
theorem cleanElems_plain (s : List Char) (a : List Char) (rest : List (List Char))
    (h : filepath.cleanElems s = a :: rest) (ha : a ≠ ['.', '.']) :
    ∀ e ∈ a :: rest, plain e := by
  have hok := foldl_cleanStep_ok (s.head? = some '/') (filepath.splitSlash s)
    (splitSlash_no_slash s) [] ⟨by simp, by simp⟩
  unfold filepath.cleanElems at h
  generalize (filepath.splitSlash s).foldl (filepath.cleanStep (s.head? = some '/')) [] = st
    at h hok
  have hst : st = (a :: rest).reverse := by
    rw [← h, List.reverse_reverse]
  intro e he
  have hmem : e ∈ st := by rw [hst]; exact List.mem_reverse.2 he
  obtain ⟨h0, h1, h2⟩ := hok.1 e hmem
  refine ⟨h0, h1, h2, ?_⟩
  intro hdd
  -- `e` is `..`, so every element below it in the stack is `..`, among them `a`
  rcases List.mem_cons.1 he with rfl | he'
  · exact ha hdd
  · have hpw := hok.2
    rw [hst, List.reverse_cons] at hpw
    have := (List.pairwise_append.1 hpw).2.2 e (List.mem_reverse.2 he') a (by simp) hdd
    exact ha this

theorem cleanL_eq_renderL (s : List Char) :
    filepath.cleanL s = renderL (decide (s.head? = some '/')) (filepath.cleanElems s) := by
  unfold filepath.cleanL renderL
  simp

theorem joinSlash_cons_head (a : List Char) (rest : List (List Char)) (ha : a ≠ []) :
    filepath.joinSlash (a :: rest) ≠ [] ∧ (filepath.joinSlash (a :: rest)).head? = a.head? := by
  cases a with
  | nil => exact absurd rfl ha
  | cons c cs =>
    cases rest with
    | nil => simp [filepath.joinSlash]
    | cons y ys => simp [filepath.joinSlash]

theorem splitSlash_slash_cons (x : List Char) :
    filepath.splitSlash ('/' :: x) = [] :: filepath.splitSlash x := by
  simp [filepath.splitSlash]

/-- Cleaning the path written for a list of plain elements gives back the
elements, and the path is rooted exactly when asked. -/
theorem cleanElems_renderL (rooted : Bool) (es : List (List Char))
    (h : ∀ e ∈ es, plain e) :
    filepath.cleanElems (renderL rooted es) = es ∧
    decide ((renderL rooted es).head? = some '/') = rooted := by
  cases rooted with
  | true =>
    refine ⟨?_, by simp [renderL]⟩
    simp only [renderL, if_true, filepath.cleanElems, List.head?_cons, splitSlash_slash_cons,
      List.foldl_cons]
    have h0 : ∀ b, filepath.cleanStep b [] [] = [] := by
      intro b
      simp [filepath.cleanStep]
    rw [h0]
    cases es with
    | nil => simp [filepath.joinSlash, filepath.splitSlash, filepath.cleanStep]
    | cons a rest =>
      rw [splitSlash_joinSlash (a :: rest) (by simp) (fun e he => (h e he).2.1),
        foldl_cleanStep_plain _ _ h]
      simp
  | false =>
    cases es with
    | nil =>
      simp only [renderL, filepath.joinSlash]
      decide
    | cons a rest =>
      obtain ⟨ha0, ha1, _, _⟩ := h a (List.mem_cons_self _ _)
      obtain ⟨hne, hhead⟩ := joinSlash_cons_head a rest ha0
      have hnot : ¬ (filepath.joinSlash (a :: rest)).head? = some '/' := by
        rw [hhead]
        cases a with
        | nil => exact absurd rfl ha0
        | cons c cs =>
          simp only [List.head?_cons, Option.some.injEq]
          intro hc
          exact ha1 (by simp [hc])
      have hr : renderL false (a :: rest) = filepath.joinSlash (a :: rest) := by
        simp [renderL, hne]
      rw [hr]
      refine ⟨?_, by simp [hnot]⟩
      unfold filepath.cleanElems
      rw [splitSlash_joinSlash (a :: rest) (by simp) (fun e he => (h e he).2.1),
        foldl_cleanStep_plain _ _ h]
      simp

theorem renderL_clean (rooted : Bool) (es : List (List Char)) (h : ∀ e ∈ es, plain e) :
    filepath.cleanL (renderL rooted es) = renderL rooted es := by
  rw [cleanL_eq_renderL, (cleanElems_renderL rooted es h).1, (cleanElems_renderL rooted es h).2]

theorem renderL_inj (rooted : Bool) (es fs : List (List Char)) (h1 : ∀ e ∈ es, plain e)
    (h2 : ∀ e ∈ fs, plain e) (h : renderL rooted es = renderL rooted fs) : es = fs := by
  rw [← (cleanElems_renderL rooted es h1).1, ← (cleanElems_renderL rooted fs h2).1, h]

/-! ## The walk visits every entry once -/

theorem insertEntry_perm (e : String × Node) (l : List (String × Node)) :
    (insertEntry e l).Perm (e :: l) := by
  induction l with
  | nil => simp [insertEntry]
  | cons x xs ih =>
    unfold insertEntry
    split
    · exact (List.Perm.cons x ih).trans (List.Perm.swap e x xs)
    · exact List.Perm.refl _

theorem foldr_insertEntry_perm (l : List (String × Node)) :
    (l.foldr insertEntry []).Perm l := by
  induction l with
  | nil => exact List.Perm.refl _
  | cons x xs ih => exact (insertEntry_perm x _).trans (List.Perm.cons x ih)

theorem mem_walkEntries_iff (fs : FS) (root : String) (x : String × Node) :
    x ∈ walkEntries fs root ↔ x ∈ fs ∧ under (filepath.Clean root) x.1 = true := by
  unfold walkEntries
  rw [(foldr_insertEntry_perm _).mem_iff, List.mem_filter]

theorem walkEntries_keys_ne (fs : FS) (root : String) (hnodup : (fs.map Prod.fst).Nodup) :
    (walkEntries fs root).Pairwise (fun a b => a.1 ≠ b.1) := by
  have h1 : fs.Pairwise (fun a b => a.1 ≠ b.1) := List.pairwise_map.1 hnodup
  have h2 := h1.filter (fun e => under (filepath.Clean root) e.1)
  exact ((foldr_insertEntry_perm _).pairwise_iff (fun h heq => h heq.symm)).2 h2

theorem get_none_of_not_mem (fs : FS) (q : String) (h : ∀ e ∈ fs, e.1 ≠ q) :
    fs.get q = none := by
  induction fs with
  | nil => rfl
  | cons e rest ih =>
    simp only [FS.get, h e (List.mem_cons_self _ _), if_false]
    exact ih (fun x hx => h x (List.mem_cons_of_mem _ hx))

/-! ## Paths below a plain source name -/

theorem plain_of_name (s : List Char) (hs : '/' ∉ s) (h0 : s ≠ [])
    (hdot : s.head? ≠ some '.') : plain s := by
  refine ⟨h0, hs, ?_, ?_⟩
  · intro h
    rw [h] at hdot
    exact hdot rfl
  · intro h
    rw [h] at hdot
    exact hdot rfl

theorem cleanElems_name (s : List Char) (h : plain s) : filepath.cleanElems s = [s] := by
  unfold filepath.cleanElems
  rw [filepath.splitSlash_name s h.2.1]
  simp [filepath.cleanStep_name _ _ s h.1 h.2.2.1 h.2.2.2]

theorem head_ne_slash (s : List Char) (hs : '/' ∉ s) : ¬ s.head? = some '/' := by
  cases s with
  | nil => simp
  | cons c cs =>
    simp only [List.head?_cons, Option.some.injEq]
    intro h
    exact hs (by simp [h])

/-- A cleaned key below the plain name `s` is `s` followed by plain elements. -/
theorem key_under_name (s : List Char) (k : String) (h : plain s)
    (hk : filepath.Clean k = k) (hu : under ⟨s⟩ k = true) :
    ∃ rest, rest ≠ [] ∧ (∀ e ∈ s :: rest, plain e) ∧
      k.data = filepath.joinSlash (s :: rest) := by
  unfold under at hu
  simp only [Bool.and_eq_true, decide_eq_true_eq] at hu
  obtain ⟨⟨hhead, hpre⟩, hne⟩ := hu
  rw [cleanElems_name s h] at hpre hne
  have hk' : filepath.cleanL k.data = k.data := congrArg String.data hk
  cases hce : filepath.cleanElems k.data with
  | nil => rw [hce] at hpre; simp [List.isPrefixOf] at hpre
  | cons a rest =>
    rw [hce] at hpre hne
    simp only [List.isPrefixOf, Bool.and_eq_true, beq_iff_eq] at hpre
    have ha : s = a := hpre.1
    subst ha
    have hrest : rest ≠ [] := by
      intro hr
      apply hne
      rw [hr]
    have hpl := cleanElems_plain k.data s rest hce h.2.2.2
    refine ⟨rest, hrest, hpl, ?_⟩
    have hnr : ¬ k.data.head? = some '/' := by
      rw [← hhead]
      exact head_ne_slash s h.2.1
    rw [← hk', cleanL_eq_renderL, hce]
    simp [renderL, hnr, (joinSlash_cons_head s rest h.1).1]
/-! ## The destination of a key below a plain source name -/

theorem cleanElems_join_plain (d : List Char) (es : List (List Char)) (hd : d ≠ [])
    (hes : ∀ e ∈ es, plain e) (hne : es ≠ []) :
    filepath.cleanElems (d ++ '/' :: filepath.joinSlash es) = filepath.cleanElems d ++ es ∧
    (d ++ '/' :: filepath.joinSlash es).head? = d.head? := by
  have hhead : (d ++ '/' :: filepath.joinSlash es).head? = d.head? := by
    cases d with
    | nil => exact absurd rfl hd
    | cons c cs => rfl
  refine ⟨?_, hhead⟩
  unfold filepath.cleanElems
  rw [hhead, filepath.splitSlash_append_slash, List.foldl_append,
    splitSlash_joinSlash es hne (fun e he => (hes e he).2.1), foldl_cleanStep_plain _ _ hes]
  simp

/-- The elements kept by `Clean` are plain when `..` is not among them. -/
theorem cleanElems_all_plain (d : List Char) (h : ['.', '.'] ∉ filepath.cleanElems d) :
    ∀ e ∈ filepath.cleanElems d, plain e := by
  have hok := foldl_cleanStep_ok (d.head? = some '/') (filepath.splitSlash d)
    (splitSlash_no_slash d) [] ⟨by simp, by simp⟩
  intro e he
  have hmem : e ∈ (filepath.splitSlash d).foldl (filepath.cleanStep (d.head? = some '/')) [] := by
    unfold filepath.cleanElems at he
    exact List.mem_reverse.1 he
  obtain ⟨h0, h1, h2⟩ := hok.1 e hmem
  exact ⟨h0, h1, h2, fun hdd => h (hdd ▸ he)⟩

/-- For a source that is a plain name not beginning with a dot and a key made of
plain elements, the destination is `Join(to, key)`, and it is the cleaned path
of the elements of `to` followed by the elements of the key. -/
theorem destOf_plain_key (src dst k : String) (es : List (List Char))
    (hs : '/' ∉ src.data) (hd : dst.data ≠ [])
    (hD : ['.', '.'] ∉ filepath.cleanElems dst.data)
    (hes : ∀ e ∈ es, plain e) (hne : es ≠ []) (hk : k.data = filepath.joinSlash es)
    (hhead : k.data.head? ≠ some '.') :
    destOf src dst k = filepath.Join [dst, k] ∧
    filepath.Join [dst, k] =
      ⟨renderL (decide (dst.data.head? = some '/')) (filepath.cleanElems dst.data ++ es)⟩ ∧
    filepath.Clean (filepath.Join [dst, k]) = filepath.Join [dst, k] := by
  have hdir : (filepath.Dir src).data = ['.'] := by rw [Dir_name src hs]
  have h1 : destOf src dst k = filepath.Join [dst, k] := by
    unfold destOf strings.TrimPrefix
    rw [hdir, trimPrefixL_dot _ hhead]
  have hall : ∀ e ∈ filepath.cleanElems dst.data ++ es, plain e := by
    intro e he
    rcases List.mem_append.1 he with he | he
    · exact cleanElems_all_plain _ hD e he
    · exact hes e he
  have h2 : filepath.Join [dst, k] =
      ⟨renderL (decide (dst.data.head? = some '/')) (filepath.cleanElems dst.data ++ es)⟩ := by
    unfold filepath.Join
    simp only [List.map_cons, List.map_nil, filepath.joinL, hd, if_false, filepath.joinSlash]
    rw [hk, cleanL_eq_renderL, (cleanElems_join_plain dst.data es hd hes hne).1,
      (cleanElems_join_plain dst.data es hd hes hne).2]
  refine ⟨h1, h2, ?_⟩
  rw [h2]
  unfold filepath.Clean
  simp only
  rw [renderL_clean _ _ hall]

/-- Every visited entry of a plain source name is the name followed by plain
elements. -/
theorem visits_shape (w : World) (src : String)
    (hclean : ∀ e ∈ w.fs, filepath.Clean e.1 = e.1)
    (hs : '/' ∉ src.data) (h0 : src.data ≠ []) (hdot : src.data.head? ≠ some '.') :
    ∀ e ∈ visits w src, ∃ rest, (∀ x ∈ src.data :: rest, plain x) ∧
      e.1.data = filepath.joinSlash (src.data :: rest) := by
  have hpl := plain_of_name src.data hs h0 hdot
  have hcs : filepath.Clean src = ⟨src.data⟩ := by
    unfold filepath.Clean
    rw [filepath.cleanL_name src.data hs h0 hpl.2.2.1 hpl.2.2.2]
  have hroot : ∃ rest, (∀ x ∈ src.data :: rest, plain x) ∧
      src.data = filepath.joinSlash (src.data :: rest) :=
    ⟨[], by simpa using hpl, by simp [filepath.joinSlash]⟩
  intro e he
  unfold visits at he
  split at he
  · simp at he
  · rcases List.mem_cons.1 he with rfl | he
    · exact hroot
    · rw [mem_walkEntries_iff, hcs] at he
      obtain ⟨rest, _, hp, hk⟩ := key_under_name src.data e.1 hpl (hclean e he.1) he.2
      exact ⟨rest, hp, hk⟩
  · simp only [List.mem_singleton] at he
    subst he
    exact hroot
theorem under_renderL (rd : Bool) (a b : List (List Char)) (hab : ∀ e ∈ a ++ b, plain e)
    (hb : b ≠ []) : under ⟨renderL rd a⟩ ⟨renderL rd (a ++ b)⟩ = true := by
  have ha : ∀ e ∈ a, plain e := fun e he => hab e (List.mem_append_left _ he)
  obtain ⟨h1, h2⟩ := cleanElems_renderL rd a ha
  obtain ⟨h3, h4⟩ := cleanElems_renderL rd (a ++ b) hab
  have hiff : ((renderL rd a).head? = some '/') = ((renderL rd (a ++ b)).head? = some '/') := by
    apply propext
    have := h2.trans h4.symm
    simpa using this
  unfold under
  simp only [h1, h3, Bool.and_eq_true, decide_eq_true_eq]
  refine ⟨⟨hiff, ?_⟩, ?_⟩
  · exact List.isPrefixOf_iff_prefix.2 (List.prefix_append a b)
  · intro h
    apply hb
    simpa using h

theorem visits_keys_ne (w : World) (src : String)
    (hclean : ∀ e ∈ w.fs, filepath.Clean e.1 = e.1)
    (hnodup : (w.fs.map Prod.fst).Nodup)
    (hs : '/' ∉ src.data) (h0 : src.data ≠ []) (hdot : src.data.head? ≠ some '.') :
    (visits w src).Pairwise (fun a b => a.1 ≠ b.1) := by
  have hpl := plain_of_name src.data hs h0 hdot
  have hcs : filepath.Clean src = ⟨src.data⟩ := by
    unfold filepath.Clean
    rw [filepath.cleanL_name src.data hs h0 hpl.2.2.1 hpl.2.2.2]
  unfold visits
  split
  · exact List.Pairwise.nil
  · refine List.pairwise_cons.2 ⟨?_, walkEntries_keys_ne _ _ hnodup⟩
    intro e he heq
    rw [mem_walkEntries_iff, hcs] at he
    obtain ⟨rest, hrest, hp, hk⟩ := key_under_name src.data e.1 hpl (hclean e he.1) he.2
    have h1 : filepath.splitSlash e.1.data = src.data :: rest := by
      rw [hk]
      exact splitSlash_joinSlash _ (by simp) (fun x hx => (hp x hx).2.1)
    have h2 : filepath.splitSlash e.1.data = [src.data] := by
      rw [← heq]
      exact filepath.splitSlash_name _ hs
    rw [h1] at h2
    simp only [List.cons.injEq, true_and] at h2
    exact hrest h2
  · simp

/-- For a source that is a plain name not beginning with a dot, a destination
whose cleaned path has no `..`, and nothing stored at or below
`Join(to, from)`: every visited path has the destination `Join(to, path)`, no
destination exists beforehand, and no two visited paths share one. -/
theorem destinations_free (w : World) (src dst : String)
    (hclean : ∀ e ∈ w.fs, filepath.Clean e.1 = e.1)
    (hnodup : (w.fs.map Prod.fst).Nodup)
    (hs : '/' ∉ src.data) (h0 : src.data ≠ []) (hdot : src.data.head? ≠ some '.')
    (hd : dst.data ≠ []) (hD : ['.', '.'] ∉ filepath.cleanElems dst.data)
    (hfree : ∀ e ∈ w.fs, e.1 ≠ filepath.Join [dst, src] ∧
      under (filepath.Join [dst, src]) e.1 = false) :
    (∀ e ∈ visits w src, filepath.Clean (destOf src dst e.1) = filepath.Join [dst, e.1]) ∧
    (∀ e ∈ visits w src, w.fs.get (filepath.Clean (destOf src dst e.1)) = none) ∧
    (visits w src).Pairwise (fun a b =>
      filepath.Clean (destOf src dst a.1) ≠ filepath.Clean (destOf src dst b.1)) := by
  have hpl := plain_of_name src.data hs h0 hdot
  have hshape := visits_shape w src hclean hs h0 hdot
  -- the destination of a visited path, by its elements
  have hdest : ∀ (k : String) (rest : List (List Char)), (∀ x ∈ src.data :: rest, plain x) →
      k.data = filepath.joinSlash (src.data :: rest) →
      filepath.Clean (destOf src dst k) = filepath.Join [dst, k] ∧
      filepath.Join [dst, k] = ⟨renderL (decide (dst.data.head? = some '/'))
        (filepath.cleanElems dst.data ++ src.data :: rest)⟩ := by
    intro k rest hp hk
    have hhead : k.data.head? ≠ some '.' := by
      rw [hk, (joinSlash_cons_head src.data rest h0).2]
      exact hdot
    obtain ⟨h1, h2, h3⟩ := destOf_plain_key src dst k (src.data :: rest) hs hd hD hp (by simp)
      hk hhead
    exact ⟨by rw [h1, h3], h2⟩
  have hJ := (hdest src [] (by simpa using hpl) (by simp [filepath.joinSlash])).2
  have hallD : ∀ e ∈ filepath.cleanElems dst.data, plain e := cleanElems_all_plain _ hD
  refine ⟨?_, ?_, ?_⟩
  · intro e he
    obtain ⟨rest, hp, hk⟩ := hshape e he
    exact (hdest e.1 rest hp hk).1
  · intro e he
    obtain ⟨rest, hp, hk⟩ := hshape e he
    obtain ⟨h1, h2⟩ := hdest e.1 rest hp hk
    rw [h1]
    apply get_none_of_not_mem
    intro x hx heq
    obtain ⟨hx1, hx2⟩ := hfree x hx
    by_cases hr : rest = []
    · subst hr
      apply hx1
      rw [heq, h2, hJ]
    · have hu := under_renderL (decide (dst.data.head? = some '/'))
        (filepath.cleanElems dst.data ++ [src.data]) rest
        (by
          intro y hy
          simp only [List.append_assoc, List.singleton_append, List.mem_append] at hy
          rcases hy with hy | hy
          · exact hallD y hy
          · exact hp y hy)
        hr
      rw [heq, h2, hJ] at hx2
      simp only [List.append_assoc, List.singleton_append] at hu
      rw [hu] at hx2
      exact Bool.noConfusion hx2
  · refine (visits_keys_ne w src hclean hnodup hs h0 hdot).imp_of_mem ?_
    intro a b ha hb hne heq
    obtain ⟨ra, hpa, hka⟩ := hshape a ha
    obtain ⟨rb, hpb, hkb⟩ := hshape b hb
    obtain ⟨ha1, ha2⟩ := hdest a.1 ra hpa hka
    obtain ⟨hb1, hb2⟩ := hdest b.1 rb hpb hkb
    rw [ha1, hb1, ha2, hb2] at heq
    have heq' := congrArg String.data heq
    simp only at heq'
    have hall : ∀ (r : List (List Char)), (∀ x ∈ src.data :: r, plain x) →
        ∀ y ∈ filepath.cleanElems dst.data ++ src.data :: r, plain y := by
      intro r hr y hy
      rcases List.mem_append.1 hy with hy | hy
      · exact hallD y hy
      · exact hr y hy
    have h3 := renderL_inj _ _ _ (hall ra hpa) (hall rb hpb) heq'
    have h4 : ra = rb := by simpa using h3
    apply hne
    apply String.ext
    rw [hka, hkb, h4]
/-! ## `copyFile` -/

/-- C4 (counterexample).  The destination `b` already exists: `copyFile`
returns no error and `b` now holds the contents of the source (with the mode
it had before); and a second `deepCopy` into the same destination returns no
error either. -/
theorem copyFile_overwrites_existing :
    twoFilesWorld.fs.get "b" = some (.file 0o600 "OLD") ∧
    (copyFile twoFilesWorld "a" "b" (some ⟨"a", 0o644, false⟩)).2 = none ∧
    (copyFile twoFilesWorld "a" "b" (some ⟨"a", 0o644, false⟩)).1.fs.get "b" =
      some (.file 0o600 "NEW") ∧
    (deepCopy copyWorld "app" "out").2 = none ∧
    (deepCopy (deepCopy copyWorld "app" "out").1 "app" "out").2 = none := by
  decide

/-- C4 (amended).  `copyFile` opens the destination with create and truncate,
not exclusively.  When source and destination are different existing regular
files and no call is refused, `copyFile` returns no error and the destination
holds the contents of the source, with the mode it had before.  When opening
the destination is refused while it exists, the error is
`opening destination (which already exists): ...` and the destination is
unchanged. -/
theorem copyFile_existing_destination (w : World) (src dst : String) (info : FileInfo)
    (ms m : Nat) (data old : String)
    (hsrc : w.fs.get (filepath.Clean src) = some (.file ms data))
    (hdst : w.fs.get (filepath.Clean dst) = some (.file m old))
    (hne : filepath.Clean src ≠ filepath.Clean dst)
    (hread : w.fault (.openRead src) = none) :
    ((w.fault (.openTrunc dst) = none ∧ w.fault (.write dst) = none ∧
        w.fault (.sync dst) = none ∧ w.fault (.close src) = none ∧
        w.fault (.close dst) = none) →
      (copyFile w src dst (some info)).2 = none ∧
      (copyFile w src dst (some info)).1.fs.get (filepath.Clean dst) =
        some (.file m data)) ∧
    (∀ e, w.fault (.openTrunc dst) = some e → w.fault (.stat dst) = none →
      (copyFile w src dst (some info)).2 =
        some ("opening destination (which already exists): " ++ e) ∧
      (copyFile w src dst (some info)).1.fs.get (filepath.Clean dst) =
        some (.file m old)) := by
  have hne' : ¬ filepath.Clean dst = filepath.Clean src := fun h => hne h.symm
  refine ⟨?_, ?_⟩
  · rintro ⟨h1, h2, h3, h4, h5⟩
    simp [copyFile, osOpen, osOpenTrunc, ioCopy, osReadAll, osWrite, World.withFS,
      FS.get_set, hsrc, hdst, hne, hne', hread, h1, h2, h3, h4, h5]
  · intro e he hst
    simp [copyFile, osOpen, osOpenTrunc, osStat, hsrc, hdst, hread, he, hst]

/-- C4 (witness).  The two files of `twoFilesWorld`, without and with a refused
open of the destination. -/
theorem copyFile_existing_destination_witness :
    (copyFile twoFilesWorld "a" "b" (some ⟨"a", 0o644, false⟩)).2 = none ∧
    (copyFile { twoFilesWorld with
        fault := fun op => if op = .openTrunc "b" then some "permission denied" else none }
      "a" "b" (some ⟨"a", 0o644, false⟩)).2 =
      some "opening destination (which already exists): permission denied" :=
  ⟨((copyFile_existing_destination twoFilesWorld "a" "b" ⟨"a", 0o644, false⟩ 0o644 0o600
      "NEW" "OLD" (by decide) (by decide) (by decide) (by decide)).1
      ⟨by decide, by decide, by decide, by decide, by decide⟩).1,
   ((copyFile_existing_destination
      { twoFilesWorld with
        fault := fun op => if op = .openTrunc "b" then some "permission denied" else none }
      "a" "b" ⟨"a", 0o644, false⟩ 0o644 0o600
      "NEW" "OLD" (by decide) (by decide) (by decide) (by decide)).2
      "permission denied" (by decide) (by decide)).1⟩

/-! ## `deepCopy` into fresh destinations -/

theorem osMkdir_ok_get (w : World) (p : String) (perm : Nat)
    (h : (osMkdir w p perm).2 = none) (q : String) :
    (osMkdir w p perm).1.fs.get q =
      if q = filepath.Clean p then some (.dir (w.masked perm)) else w.fs.get q := by
  unfold osMkdir at h ⊢
  cases hf : w.fault (.mkdir p) with
  | some e => simp [hf] at h
  | none =>
    simp only [hf] at h ⊢
    cases hg : w.fs.get (filepath.Clean p) with
    | some n => simp [hg] at h
    | none =>
      simp only [hg] at h ⊢
      by_cases hd : w.fs.isDir (filepath.Dir (filepath.Clean p)) = true
      · simp [hd, World.withFS, FS.get_set]
      · simp [hd] at h

theorem copyFile_ok_get (w : World) (src dst : String) (info : FileInfo) (ms : Nat)
    (data : String) (hsrc : w.fs.get (filepath.Clean src) = some (.file ms data))
    (hfresh : w.fs.get (filepath.Clean dst) = none)
    (hok : (copyFile w src dst (some info)).2 = none) (q : String) :
    (copyFile w src dst (some info)).1.fs.get q =
      if q = filepath.Clean dst then some (.file (w.masked (info.mode &&& 0o777)) data)
      else w.fs.get q := by
  have hne : filepath.Clean src ≠ filepath.Clean dst := by
    intro h
    rw [h, hfresh] at hsrc
    simp at hsrc
  have hne' : ¬ filepath.Clean dst = filepath.Clean src := fun h => hne h.symm
  cases h1 : w.fault (.openRead src) with
  | some e => simp [copyFile, osOpen, h1] at hok
  | none =>
    cases h2 : w.fault (.openTrunc dst) with
    | some e =>
      simp only [copyFile, osOpen, osOpenTrunc, h1, h2, hsrc] at hok
      split at hok <;> simp at hok
    | none =>
      by_cases hd : w.fs.isDir (filepath.Dir (filepath.Clean dst)) = true
      · cases h3 : w.fault (.write dst) with
        | some e =>
          simp [copyFile, osOpen, osOpenTrunc, ioCopy, osReadAll, osWrite, World.withFS,
            FS.get_set, h1, h2, h3, hsrc, hfresh, hd, hne] at hok
        | none =>
          cases h4 : w.fault (.sync dst) with
          | some e =>
            simp [copyFile, osOpen, osOpenTrunc, ioCopy, osReadAll, osWrite, World.withFS,
              FS.get_set, h1, h2, h3, h4, hsrc, hfresh, hd, hne] at hok
          | none =>
            cases h5 : w.fault (.close src) with
            | some e =>
              simp [copyFile, osOpen, osOpenTrunc, ioCopy, osReadAll, osWrite, World.withFS,
                FS.get_set, h1, h2, h3, h4, h5, hsrc, hfresh, hd, hne] at hok
            | none =>
              cases h6 : w.fault (.close dst) with
              | some e =>
                simp [copyFile, osOpen, osOpenTrunc, ioCopy, osReadAll, osWrite, World.withFS,
                  FS.get_set, h1, h2, h3, h4, h5, h6, hsrc, hfresh, hd, hne] at hok
              | none =>
                simp only [copyFile, osOpen, osOpenTrunc, ioCopy, osReadAll, osWrite,
                  World.withFS, FS.get_set, h1, h2, h3, h4, h5, h6, hsrc, hfresh, hd, hne,
                  if_true, if_false]
                by_cases hq : q = filepath.Clean dst
                · simp [hq, World.masked]
                · simp [hq]
      · simp only [copyFile, osOpen, osOpenTrunc, h1, h2, hsrc, hfresh, hd] at hok
        split at hok
        · split at hok <;> simp at hok
        · rename_i heq
          simp at heq

theorem baseL_ne_nil (s : List Char) : filepath.baseL s ≠ [] := by
  unfold filepath.baseL
  split
  · simp
  · simp only
    split
    · simp
    · assumption

theorem Base_ne_empty (p : String) : filepath.Base p ≠ "" := by
  intro h
  have := congrArg String.data h
  exact baseL_ne_nil p.data this

theorem masked_of_frame {w v : World} (h : Frame w v) (perm : Nat) :
    v.masked perm = w.masked perm := by
  simp [World.masked, h.umask]

theorem copied_of_frame {w v : World} (h : Frame w v) (n : Node) : copied v n = copied w n := by
  cases n <;> simp [copied, masked_of_frame h]

/-- One visit of `deepCopy` that does not fail, at a path whose destination is
free: the walk goes on, and the destination now holds the copy. -/
theorem deepCopyVisit_next_get (src dst : String) (v : World) (p : String) (n : Node)
    (hstat : v.fault (.stat (destOf src dst p)) = none)
    (hsrc : v.fs.get (filepath.Clean p) = some n)
    (hfresh : v.fs.get (filepath.Clean (destOf src dst p)) = none)
    (hr : ∀ e, (deepCopyVisit src dst v p (some (infoOf p n)) none).2 ≠ .fail e) :
    (deepCopyVisit src dst v p (some (infoOf p n)) none).2 = .next ∧
    ∀ q, (deepCopyVisit src dst v p (some (infoOf p n)) none).1.fs.get q =
      if q = filepath.Clean (destOf src dst p) then some (copied v n) else v.fs.get q := by
  have hname := Base_ne_empty p
  cases n with
  | file m d =>
    have hcf := copyFile_ok_get v p (destOf src dst p) ⟨filepath.Base p, m, false⟩ m d hsrc hfresh
    simp only [deepCopyVisit, infoOf, hname, if_false, Bool.false_eq_true] at hr ⊢
    generalize copyFile v p (destOf src dst p) (some ⟨filepath.Base p, m, false⟩) = r at hr hcf
    obtain ⟨v1, res⟩ := r
    cases res with
    | some e => exact absurd rfl (hr _)
    | none =>
      refine ⟨rfl, ?_⟩
      intro q
      rw [hcf rfl q]
      rfl
  | dir m =>
    simp only [deepCopyVisit, infoOf, hname, if_false, if_true, osStat, hstat, hfresh] at hr ⊢
    have hmk := osMkdir_ok_get v (destOf src dst p) (m &&& 0o777)
    generalize osMkdir v (destOf src dst p) (m &&& 0o777) = r at hr hmk
    obtain ⟨v1, res⟩ := r
    cases res with
    | some e => exact absurd rfl (hr _)
    | none =>
      refine ⟨rfl, ?_⟩
      intro q
      rw [hmk rfl q]
      rfl

/-- A visit of `Walk` with the function of `deepCopy` that does not stop the
walk skips nothing, and the function did not fail. -/
theorem walkVisit_deepCopy_ok (src dst : String) (v : World) (p k : String) (n : Node)
    (x : Option String)
    (h : (walkVisit (deepCopyVisit src dst) v p k n).2 = .ok x)
    (hstat : v.fault (.stat (destOf src dst p)) = none)
    (hsrc : v.fs.get (filepath.Clean p) = some n)
    (hfresh : v.fs.get (filepath.Clean (destOf src dst p)) = none) :
    x = none ∧
    (walkVisit (deepCopyVisit src dst) v p k n).1 =
      (deepCopyVisit src dst v p (some (infoOf p n)) none).1 ∧
    (∀ e, (deepCopyVisit src dst v p (some (infoOf p n)) none).2 ≠ .fail e) := by
  have hnext := deepCopyVisit_next_get src dst v p n hstat hsrc hfresh
  unfold walkVisit at h ⊢
  cases hl : v.fault (.lstat p) with
  | some e => simp [hl, deepCopyVisit] at h
  | none =>
    simp only [hl] at h ⊢
    by_cases hd : (infoOf p n).isDir = true
    · simp only [hd, if_true] at h ⊢
      cases hrd : v.fault (.readDir p) with
      | some e => simp [hrd, deepCopyVisit] at h
      | none =>
        simp only [hrd] at h ⊢
        generalize deepCopyVisit src dst v p (some (infoOf p n)) none = r at h hnext ⊢
        obtain ⟨v1, res⟩ := r
        cases res with
        | fail e => simp at h
        | skipDir =>
          have := (hnext (by intro e; simp)).1
          simp at this
        | next =>
          simp only [if_true, Except.ok.injEq] at h
          exact ⟨h.symm, rfl, by intro e; simp⟩
    · simp only [hd, Bool.false_eq_true, if_false] at h ⊢
      generalize deepCopyVisit src dst v p (some (infoOf p n)) none = r at h hnext ⊢
      obtain ⟨v1, res⟩ := r
      cases res with
      | fail e => simp at h
      | skipDir =>
        have := (hnext (by intro e; simp)).1
        simp at this
      | next =>
        simp only [Except.ok.injEq] at h
        exact ⟨h.symm, rfl, by intro e; simp⟩

/-- One visit keeps the invariant of the copy: nothing but the destinations of
the visited entries has changed, and each of these holds its copy. -/
theorem visit_step (w : World) (src dst : String) (hstat : ∀ p, w.fault (.stat p) = none)
    (done : List (String × Node)) (v : World) (e : String × Node) (k : String)
    (hfr : Frame w v)
    (hsame : ∀ q, (∀ a ∈ done, q ≠ filepath.Clean (destOf src dst a.1)) →
      v.fs.get q = w.fs.get q)
    (hdone : ∀ a ∈ done, v.fs.get (filepath.Clean (destOf src dst a.1)) = some (copied w a.2))
    (hsrc : w.fs.get (filepath.Clean e.1) = some e.2)
    (hfresh : ∀ a ∈ done ++ [e], w.fs.get (filepath.Clean (destOf src dst a.1)) = none)
    (hdist : ∀ a ∈ done,
      filepath.Clean (destOf src dst a.1) ≠ filepath.Clean (destOf src dst e.1))
    (x : Option String)
    (h : (walkVisit (deepCopyVisit src dst) v e.1 k e.2).2 = .ok x) :
    x = none ∧
    Frame w (walkVisit (deepCopyVisit src dst) v e.1 k e.2).1 ∧
    (∀ q, (∀ a ∈ done ++ [e], q ≠ filepath.Clean (destOf src dst a.1)) →
      (walkVisit (deepCopyVisit src dst) v e.1 k e.2).1.fs.get q = w.fs.get q) ∧
    (∀ a ∈ done ++ [e],
      (walkVisit (deepCopyVisit src dst) v e.1 k e.2).1.fs.get
        (filepath.Clean (destOf src dst a.1)) = some (copied w a.2)) := by
  have hfe : w.fs.get (filepath.Clean (destOf src dst e.1)) = none := hfresh e (by simp)
  have hsrc_v : v.fs.get (filepath.Clean e.1) = some e.2 := by
    rw [hsame (filepath.Clean e.1) ?_]
    · exact hsrc
    · intro a ha heq
      have := hfresh a (List.mem_append_left _ ha)
      rw [← heq, hsrc] at this
      simp at this
  have hfresh_v : v.fs.get (filepath.Clean (destOf src dst e.1)) = none := by
    rw [hsame _ (fun a ha heq => hdist a ha heq.symm)]
    exact hfe
  have hstat_v : v.fault (.stat (destOf src dst e.1)) = none := by
    rw [hfr.fault]; exact hstat _
  obtain ⟨hx, hw, hnf⟩ := walkVisit_deepCopy_ok src dst v e.1 k e.2 x h hstat_v hsrc_v hfresh_v
  obtain ⟨_, hget⟩ := deepCopyVisit_next_get src dst v e.1 e.2 hstat_v hsrc_v hfresh_v hnf
  refine ⟨hx, ?_, ?_, ?_⟩
  · rw [hw]
    exact frame_trans hfr (deepCopyVisit_frame src dst v e.1 _ _)
  · intro q hq
    rw [hw, hget q, if_neg (hq e (by simp))]
    exact hsame q (fun a ha => hq a (List.mem_append_left _ ha))
  · intro a ha
    rw [hw, hget]
    rcases List.mem_append.1 ha with ha | ha
    · rw [if_neg (hdist a ha)]
      exact hdone a ha
    · simp only [List.mem_singleton] at ha
      subst ha
      rw [if_pos rfl, copied_of_frame hfr]

/-- The invariant along the entries below the root. -/
theorem walkRest_deepCopy_inv (w : World) (src dst : String)
    (hstat : ∀ p, w.fault (.stat p) = none) :
    ∀ (es done : List (String × Node)) (v : World),
      Frame w v →
      (∀ q, (∀ a ∈ done, q ≠ filepath.Clean (destOf src dst a.1)) → v.fs.get q = w.fs.get q) →
      (∀ a ∈ done, v.fs.get (filepath.Clean (destOf src dst a.1)) = some (copied w a.2)) →
      (∀ a ∈ es, w.fs.get (filepath.Clean a.1) = some a.2) →
      (∀ a ∈ done ++ es, w.fs.get (filepath.Clean (destOf src dst a.1)) = none) →
      (done ++ es).Pairwise (fun a b =>
        filepath.Clean (destOf src dst a.1) ≠ filepath.Clean (destOf src dst b.1)) →
      (walkRest (deepCopyVisit src dst) v [] es).2 = none →
      ∀ a ∈ done ++ es,
        (walkRest (deepCopyVisit src dst) v [] es).1.fs.get
          (filepath.Clean (destOf src dst a.1)) = some (copied w a.2) := by
  intro es
  induction es with
  | nil =>
    intro done v _ _ hdone _ _ _ _ a ha
    simp only [List.append_nil] at ha
    simpa [walkRest] using hdone a ha
  | cons e rest ih =>
    intro done v hfr hsame hdone hsrc hfresh hpw hok a ha
    obtain ⟨k, n⟩ := e
    have hdist : ∀ b ∈ done, filepath.Clean (destOf src dst b.1) ≠
        filepath.Clean (destOf src dst k) := by
      intro b hb
      have := List.pairwise_append.1 hpw
      exact this.2.2 b hb (k, n) (List.mem_cons_self _ _)
    have hstep := visit_step w src dst hstat done v (k, n) k hfr hsame hdone
      (hsrc (k, n) (List.mem_cons_self _ _))
      (fun b hb => hfresh b (by
        rcases List.mem_append.1 hb with hb | hb
        · exact List.mem_append_left _ hb
        · simp only [List.mem_singleton] at hb
          subst hb
          exact List.mem_append_right _ (List.mem_cons_self _ _)))
      hdist
    have hlist : done ++ (k, n) :: rest = (done ++ [(k, n)]) ++ rest := by simp
    simp only [walkRest, List.any_nil, Bool.false_eq_true, if_false] at hok ⊢
    generalize walkVisit (deepCopyVisit src dst) v k k n = r at hok hstep ⊢
    obtain ⟨v1, res⟩ := r
    cases res with
    | error e => simp at hok
    | ok x =>
      obtain ⟨hx, hfr1, hsame1, hdone1⟩ := hstep x rfl
      subst hx
      simp only at hok ⊢
      rw [hlist] at ha hfresh hpw
      exact ih (done ++ [(k, n)]) v1 hfr1 hsame1 hdone1
        (fun b hb => hsrc b (List.mem_cons_of_mem _ hb)) hfresh hpw hok a ha

theorem mem_insertEntry (e x : String × Node) (l : List (String × Node)) :
    x ∈ insertEntry e l ↔ x = e ∨ x ∈ l := by
  induction l with
  | nil => simp [insertEntry]
  | cons y ys ih =>
    unfold insertEntry
    split
    · simp only [List.mem_cons, ih]
      tauto
    · simp only [List.mem_cons]

theorem mem_foldr_insertEntry (x : String × Node) (l : List (String × Node))
    (h : x ∈ l.foldr insertEntry []) : x ∈ l := by
  induction l with
  | nil => simp at h
  | cons y ys ih =>
    simp only [List.foldr_cons, mem_insertEntry] at h
    rcases h with rfl | h
    · exact List.mem_cons_self _ _
    · exact List.mem_cons_of_mem _ (ih h)

theorem mem_walkEntries (fs : FS) (root : String) (x : String × Node)
    (h : x ∈ walkEntries fs root) : x ∈ fs :=
  (List.mem_filter.1 (mem_foldr_insertEntry x _ h)).1

theorem get_of_mem (fs : FS) (hnodup : (fs.map Prod.fst).Nodup) (k : String) (n : Node)
    (h : (k, n) ∈ fs) : fs.get k = some n := by
  induction fs with
  | nil => simp at h
  | cons e rest ih =>
    simp only [List.map_cons, List.nodup_cons] at hnodup
    rcases List.mem_cons.1 h with h | h
    · subst h
      simp [FS.get]
    · have hne : e.1 ≠ k := by
        intro heq
        apply hnodup.1
        rw [heq]
        exact List.mem_map.2 ⟨(k, n), h, rfl⟩
      simp only [FS.get, hne, if_false]
      exact ih hnodup.2 h

/-- In a map whose keys are cleaned and distinct, every visited entry is stored
under its cleaned path. -/
theorem visits_stored (w : World) (src : String)
    (hclean : ∀ e ∈ w.fs, filepath.Clean e.1 = e.1)
    (hnodup : (w.fs.map Prod.fst).Nodup) :
    ∀ e ∈ visits w src, w.fs.get (filepath.Clean e.1) = some e.2 := by
  intro e he
  unfold visits at he
  split at he
  · simp at he
  · rename_i m hg
    rcases List.mem_cons.1 he with rfl | he
    · exact hg
    · have hm := mem_walkEntries w.fs src e he
      rw [hclean e hm]
      exact get_of_mem w.fs hnodup e.1 e.2 hm
  · rename_i m d hg
    simp only [List.mem_singleton] at he
    subst he
    exact hg

/-- C3 (counterexample).  The destination `out` is empty and `deepCopy` returns
no error.  The file `app/x` (mode 0777) is not found at `out/x`: the tree is
copied below `out/app`; and under the creation mask 022 the copy `out/app/x`
has mode 0755, not the permission bits of the source. -/
theorem deepCopy_not_identical :
    copyWorld.fs.get "out" = some (.dir 0o755) ∧
    (copyWorld.fs.all fun e => !under "out" e.1) = true ∧
    copyWorld.fs.get "app/x" = some (.file 0o777 "X") ∧
    (deepCopy copyWorld "app" "out").2 = none ∧
    (deepCopy copyWorld "app" "out").1.fs.get "out/x" = none ∧
    (deepCopy copyWorld "app" "out").1.fs.get "out/app/x" = some (.file 0o755 "X") := by
  decide

/-- Every visited entry is found at its destination after a `deepCopy` that
returns no error, when the destinations are free beforehand and distinct. -/
theorem deepCopy_copies_visits (w : World) (src dst : String)
    (hclean : ∀ e ∈ w.fs, filepath.Clean e.1 = e.1)
    (hnodup : (w.fs.map Prod.fst).Nodup)
    (hstat : ∀ p, w.fault (.stat p) = none)
    (hfresh : ∀ e ∈ visits w src, w.fs.get (filepath.Clean (destOf src dst e.1)) = none)
    (hinj : (visits w src).Pairwise (fun a b =>
      filepath.Clean (destOf src dst a.1) ≠ filepath.Clean (destOf src dst b.1)))
    (hok : (deepCopy w src dst).2 = none) :
    ∀ e ∈ visits w src,
      (deepCopy w src dst).1.fs.get (filepath.Clean (destOf src dst e.1)) =
        some (copied w e.2) := by
  have hstored := visits_stored w src hclean hnodup
  unfold deepCopy at hok ⊢
  by_cases hempty : src = "" ∨ dst = ""
  · simp [hempty] at hok
  · simp only [hempty, if_false] at hok ⊢
    unfold Walk at hok ⊢
    unfold visits at hstored hfresh hinj ⊢
    cases hg : w.fs.get (filepath.Clean src) with
    | none => simp
    | some n =>
      simp only [hg] at hok hstored hfresh hinj ⊢
      have hroot := visit_step w src dst hstat [] w (src, n) (filepath.Clean src)
        (frame_refl w) (fun _ _ => rfl) (by simp) hg
      cases n with
      | file m d =>
        simp only at hok hstored hfresh hinj ⊢
        have hroot' := hroot (by simpa using hfresh) (by simp)
        generalize walkVisit (deepCopyVisit src dst) w src (filepath.Clean src) (.file m d) = r
          at hok hroot' ⊢
        obtain ⟨v1, res⟩ := r
        cases res with
        | error e => simp at hok
        | ok x =>
          obtain ⟨hx, _, _, hdone⟩ := hroot' x rfl
          subst hx
          simpa using hdone
      | dir m =>
        simp only at hok hstored hfresh hinj ⊢
        have hroot' := hroot
          (by intro a ha
              simp only [List.nil_append, List.mem_singleton] at ha
              subst ha
              exact hfresh _ (List.mem_cons_self _ _))
          (by simp)
        generalize walkVisit (deepCopyVisit src dst) w src (filepath.Clean src) (.dir m) = r
          at hok hroot' ⊢
        obtain ⟨v1, res⟩ := r
        cases res with
        | error e => simp at hok
        | ok x =>
          obtain ⟨hx, hfr1, hsame1, hdone1⟩ := hroot' x rfl
          subst hx
          simp only at hok hfr1 hsame1 hdone1 ⊢
          have := walkRest_deepCopy_inv w src dst hstat (walkEntries w.fs src)
            [(src, .dir m)] v1 hfr1 hsame1 hdone1
            (fun a ha => hstored a (List.mem_cons_of_mem _ ha))
            (by simpa using hfresh) (by simpa using hinj) hok
          simpa using this

/-- C3 (amended).  Let `A` be a plain relative name that does not begin with a
dot and names a directory, and let the cleaned path of `B` have no `..`
element.  In a file-system map with cleaned and distinct keys, where `os.Stat`
fails only for missing paths and nothing exists at `Join(B, A)` or below it:
if `deepCopy(A, B)` returns no error, then for every entry `k` of the tree
(the directory `A` itself and every file and directory below it) the path
`Join(B, k)` holds a node of the same kind, with identical contents for a
file, and with the permission bits `mode & 0777` of the source less the bits
of the creation mask.  The tree is thus copied below `B/A`, not into `B`. -/
theorem deepCopy_mirrors (w : World) (src dst : String)
    (hclean : ∀ e ∈ w.fs, filepath.Clean e.1 = e.1)
    (hnodup : (w.fs.map Prod.fst).Nodup)
    (hstat : ∀ p, w.fault (.stat p) = none)
    (hs : '/' ∉ src.data) (hdot : src.data.head? ≠ some '.')
    (hroot : ∃ m, w.fs.get src = some (.dir m))
    (hD : ['.', '.'] ∉ filepath.cleanElems dst.data)
    (hfree : ∀ e ∈ w.fs, e.1 ≠ filepath.Join [dst, src] ∧
      under (filepath.Join [dst, src]) e.1 = false)
    (hok : (deepCopy w src dst).2 = none) :
    ∀ k n, (k, n) ∈ w.fs → (k = src ∨ under src k = true) →
      (deepCopy w src dst).1.fs.get (filepath.Join [dst, k]) = some (copied w n) := by
  have h0 : src.data ≠ [] := by
    intro h
    have : src = "" := String.ext h
    simp [deepCopy, this] at hok
  have hd : dst.data ≠ [] := by
    intro h
    have : dst = "" := String.ext h
    simp [deepCopy, this] at hok
  have hpl := plain_of_name src.data hs h0 hdot
  have hcs : filepath.Clean src = src := by
    unfold filepath.Clean
    rw [filepath.cleanL_name src.data hs h0 hpl.2.2.1 hpl.2.2.2]
  obtain ⟨hdest, hfresh, hinj⟩ :=
    destinations_free w src dst hclean hnodup hs h0 hdot hd hD hfree
  have hcopy := deepCopy_copies_visits w src dst hclean hnodup hstat hfresh hinj hok
  obtain ⟨m, hm⟩ := hroot
  have hvis : visits w src = (src, .dir m) :: walkEntries w.fs src := by
    unfold visits
    rw [hcs, hm]
  intro k n hmem hk
  have hin : (k, n) ∈ visits w src := by
    rw [hvis]
    rcases hk with hk | hk
    · subst hk
      have := get_of_mem w.fs hnodup k n hmem
      rw [hm] at this
      simp only [Option.some.injEq] at this
      rw [← this]
      exact List.mem_cons_self _ _
    · refine List.mem_cons_of_mem _ ((mem_walkEntries_iff _ _ _).2 ⟨hmem, ?_⟩)
      rw [hcs]
      exact hk
  rw [← hdest (k, n) hin]
  exact hcopy (k, n) hin

/-- C3 (witness).  The tree `app` copied into the empty directory `out`: the
file `app/x` of mode 0777 is found at `out/app/x` with mode 0755. -/
theorem deepCopy_mirrors_witness :
    (deepCopy copyWorld "app" "out").2 = none ∧
    (deepCopy copyWorld "app" "out").1.fs.get (filepath.Join ["out", "app/x"]) =
      some (copied copyWorld (.file 0o777 "X")) ∧
    copied copyWorld (.file 0o777 "X") = .file 0o755 "X" :=
  ⟨by decide,
   deepCopy_mirrors copyWorld "app" "out" (by decide) (by decide) (fun _ => rfl) (by decide)
     (by decide) ⟨0o755, by decide⟩ (by decide) (by decide) (by decide)
     "app/x" (.file 0o777 "X") (by decide) (by decide),
   by decide⟩
end Appify
